import Mathlib

/-!
Verification of the hanyangtay/go-datastructures repository: a 2D R-tree
(Guttman quadratic split) together with a directed-graph shortest-path
companion.  Floating-point numbers of the source are modelled as rationals,
Go pointer identity of stored spatial objects as an integer tag, and the
mutating Go code as functional state passing.  Functions are translated
from the source files; branches that the Go runtime would turn into a
panic (nil dereference or out-of-range index) are modelled with `Option`.
-/

set_option maxHeartbeats 4000000
set_option maxRecDepth 100000
set_option allowUnsafeReducibility true

attribute [semireducible] Rat.mul Rat.add Rat.sub Rat.div Rat.inv Rat.neg
attribute [semireducible] Rat.normalize Rat.maybeNormalize

namespace GoDS

/-! ## Rectangle algebra (rtree package, rectangle file) -/

/-- Axis-aligned rectangle: bottom-left and top-right corners plus the cached
`size` field, exactly the fields of the Go `Rect` struct. -/
structure Rect where
  blX : ℚ
  blY : ℚ
  trX : ℚ
  trY : ℚ
  size : ℚ
deriving DecidableEq, Repr, Inhabited

/-- 2D point, the Go `RTreePoint` struct. -/
structure RTreePoint where
  x : ℚ
  y : ℚ
deriving DecidableEq, Repr, Inhabited

/-- Half-width used by `ToRect` when inflating a point to a rectangle
(the Go literal `0.00002`). -/
def eps : ℚ := 2 / 100000

/-- Go `(*RTreePoint).ToRect`: inflate a point into a square box of
half-width `eps`; the cached `size` field is set to `0.00002 * 0.00002`. -/
def RTreePoint.toRect (p : RTreePoint) : Rect :=
  { blX := p.x - eps
    blY := p.y - eps
    trX := p.x + eps
    trY := p.y + eps
    size := eps * eps }

/-- Go `(*RTreePoint).SquaredDist`: clamped-axis squared distance from a
point to a rectangle. -/
def RTreePoint.squaredDist (p : RTreePoint) (r : Rect) : ℚ :=
  let dx := max (max (r.blX - p.x) (p.x - r.trX)) 0
  let dy := max (max (r.blY - p.y) (p.y - r.trY)) 0
  dx * dx + dy * dy

/-- Go `NewRect`: rectangle from two arbitrary corner points, normalising
the corners and caching the area. -/
def NewRect (u v : RTreePoint) : Rect :=
  { blX := min u.x v.x
    blY := min u.y v.y
    trX := max u.x v.x
    trY := max u.y v.y
    size := (max u.y v.y - min u.y v.y) * (max u.x v.x - min u.x v.x) }

/-- Go `(*Rect).containsRect`, translated verbatim including the
self-comparison `r1.topRight.X < r1.topRight.X` in the second guard. -/
def Rect.containsRect (r1 r2 : Rect) : Bool :=
  if r1.blY > r2.blY ∨ r1.blX > r2.blX then false
  else if r1.trY < r2.trY ∨ r1.trX < r1.trX then false
  else true

/-- Go `(*Rect).enlarge` (value-passing form): grow `r1` to cover `r2` and
recompute the cached `size`. -/
def Rect.enlarge (r1 r2 : Rect) : Rect :=
  let blX := if r1.blX > r2.blX then r2.blX else r1.blX
  let trX := if r1.trX < r2.trX then r2.trX else r1.trX
  let blY := if r1.blY > r2.blY then r2.blY else r1.blY
  let trY := if r1.trY < r2.trY then r2.trY else r1.trY
  { blX := blX, blY := blY, trX := trX, trY := trY
    size := (trY - blY) * (trX - blX) }

/-- Go `intersect`: non-strict overlap test of two rectangles. -/
def intersect (r1 r2 : Rect) : Bool :=
  if r2.trX < r1.blX ∨ r1.trX < r2.blX then false
  else if r2.trY < r1.blY ∨ r1.trY < r2.blY then false
  else true

/-- Go `boundingBox` / `initBoundingBox`: copy of `r1` enlarged to cover
`r2`. -/
def boundingBox (r1 r2 : Rect) : Rect := r1.enlarge r2

/-- The geometric area of a rectangle computed from its corners, the
quantity the spec calls `(xmax−xmin)·(ymax−ymin)`. -/
def Rect.cornerArea (r : Rect) : ℚ := (r.trX - r.blX) * (r.trY - r.blY)

theorem intersect_true_iff (r1 r2 : Rect) :
    intersect r1 r2 = true ↔
      r1.blX ≤ r2.trX ∧ r2.blX ≤ r1.trX ∧ r1.blY ≤ r2.trY ∧ r2.blY ≤ r1.trY := by
  unfold intersect
  split
  · rename_i h
    simp only [Bool.false_eq_true, false_iff]
    rintro ⟨a, b, c, d⟩
    rcases h with h | h <;> linarith
  · split
    · rename_i h
      simp only [Bool.false_eq_true, false_iff]
      rintro ⟨a, b, c, d⟩
      rcases h with h | h <;> linarith
    · rename_i h1 h2
      push_neg at h1 h2
      simp only [true_iff]
      exact ⟨h1.1, h1.2, h2.1, h2.2⟩

/-! ## Tree node and entry model (rtree.go) -/

/-- Stored spatial object: the reference `RTreePoint` implementor of the Go
`Spatial` interface.  `oid` stands for the Go pointer identity that interface
equality compares: two objects with equal coordinates but different `oid`
are distinct values in the tree. -/
structure Spatial where
  oid : ℕ
  pt : RTreePoint
deriving DecidableEq, Repr, Inhabited

/-- The `ToRect` capability of a stored object. -/
def Spatial.toRect (o : Spatial) : Rect := o.pt.toRect

/-- The `SquaredDist` capability of a stored object. -/
def Spatial.squaredDist (o : Spatial) (r : Rect) : ℚ := o.pt.squaredDist r

mutual
/-- Go `rTreeNode`: leaf flag, level, and the entry list.  Parent pointers
of the source are an upward-traversal device only and are represented by
the recursive structure of the functional operations instead. -/
inductive RNode : Type where
  | mk (isLeaf : Bool) (lvl : ℕ) (entries : List REntry) : RNode

/-- Go `entry`: bounding box, optional child node, optional stored object
(the source uses nilable fields for both). -/
inductive REntry : Type where
  | mk (bb : Rect) (child : Option RNode) (obj : Option Spatial) : REntry
end

instance : Inhabited REntry := ⟨.mk default none none⟩

instance : Inhabited RNode := ⟨.mk true 1 []⟩

/-- Bounding box of an entry. -/
def entryBB : REntry → Rect
  | .mk bb _ _ => bb

/-- Child node of an entry (`nil` in the source becomes `none`). -/
def entryChild : REntry → Option RNode
  | .mk _ c _ => c

/-- Stored object of an entry (`nil` in the source becomes `none`). -/
def entryObj : REntry → Option Spatial
  | .mk _ _ o => o

/-- Leaf flag of a node. -/
def RNode.isLeaf : RNode → Bool
  | .mk b _ _ => b

/-- Level of a node (1 for leaves in a well-formed tree). -/
def RNode.lvl : RNode → ℕ
  | .mk _ l _ => l

/-- Entry list of a node. -/
def RNode.entries : RNode → List REntry
  | .mk _ _ es => es

/-- Go `(*rTreeNode).computeBoundingBox`: the first entry's box (copied with
its cached size) enlarged by every further entry's box; the Go zero `Rect`
for an empty node. -/
def computeBB : List REntry → Rect
  | [] => default
  | e :: es => es.foldl (fun acc e2 => acc.enlarge (entryBB e2)) (entryBB e)

/-- Inner loop of Go `chooseNode`: index of the entry needing least
enlargement to include `ebb`, ties by smaller cached box size, further ties
by first encounter.  Accumulator mirrors `(chosen, leastDiff, chosen.bb.size)`. -/
def chooseBestAux (ebb : Rect) : List REntry → ℕ → ℕ × ℚ × ℚ → ℕ
  | [], _, acc => acc.1
  | e :: es, i, (bi, bd, bs) =>
    let d := (boundingBox (entryBB e) ebb).size - (entryBB e).size
    if d < bd ∨ (d = bd ∧ (entryBB e).size < bs) then
      chooseBestAux ebb es (i + 1) (i, d, (entryBB e).size)
    else
      chooseBestAux ebb es (i + 1) (bi, bd, bs)

/-- Go `chooseNode` selection step on a non-empty entry list: the first
entry always replaces the `math.MaxFloat64` initial accumulator. -/
def chooseBest (es : List REntry) (ebb : Rect) : ℕ :=
  match es with
  | [] => 0
  | e :: es1 =>
    chooseBestAux ebb es1 1
      (0, (boundingBox (entryBB e) ebb).size - (entryBB e).size, (entryBB e).size)

/-- Waste of pairing entries `i` and `j` of `es`, the quantity computed by
Go `pickSeeds`. -/
def wasteOf (es : List REntry) (i j : ℕ) : ℚ :=
  let bi := entryBB (es.getD i default)
  let bj := entryBB (es.getD j default)
  (boundingBox bi bj).size - bi.size - bj.size

/-- All index pairs `(i, j)` with `i < j < n` in the canonical enumeration
order of the two nested `pickSeeds` loops. -/
def allPairs (n : ℕ) : List (ℕ × ℕ) :=
  (List.range n).flatMap fun i => ((List.range n).drop (i + 1)).map fun j => (i, j)

/-- One `pickSeeds` comparison: keep the pair whose waste strictly exceeds
the running maximum. -/
def seedStep (es : List REntry) (acc : ℕ × ℕ × ℚ) (p : ℕ × ℕ) : ℕ × ℕ × ℚ :=
  if acc.2.2 < wasteOf es p.1 p.2 then (p.1, p.2, wasteOf es p.1 p.2) else acc

/-- Go `(*rTreeNode).pickSeeds`: fold over all pairs keeping the first pair
whose waste strictly exceeds the running maximum, which starts at `-1.0`
with default answer `(0, 1)`. -/
def pickSeeds (es : List REntry) : ℕ × ℕ :=
  let r := (allPairs es.length).foldl (seedStep es) (0, 1, -1)
  (r.1, r.2.1)

/-- Inner loop of Go `assignGroup`: pick the remaining entry with the
greatest `|Δleft − Δright|` preference (strict improvement over a running
maximum starting at `-1.0`).  The accumulator mirrors
`(maxDiff, bestLeftDiff, bestRightDiff, nextIdx)`. -/
def pickNext (leftBB rightBB : Rect) : List REntry → ℕ → ℚ × ℚ × ℚ × ℕ → ℚ × ℚ × ℚ × ℕ
  | [], _, acc => acc
  | e :: es, i, (md, bl, br, ni) =>
    let ld := (boundingBox leftBB (entryBB e)).size - leftBB.size
    let rd := (boundingBox rightBB (entryBB e)).size - rightBB.size
    let d := |ld - rd|
    if md < d then pickNext leftBB rightBB es (i + 1) (d, ld, rd, i)
    else pickNext leftBB rightBB es (i + 1) (md, bl, br, ni)

/-- Go `assign`: append an entry to a split node (the parent-pointer fixup
of the source has no counterpart in the functional model). -/
def assign (e : REntry) (n : RNode) : RNode :=
  .mk n.isLeaf n.lvl (n.entries ++ [e])

theorem pickNext_idx (leftBB rightBB : Rect) (l : List REntry) :
    ∀ (i : ℕ) (acc : ℚ × ℚ × ℚ × ℕ),
      (pickNext leftBB rightBB l i acc).2.2.2 = acc.2.2.2 ∨
        (i ≤ (pickNext leftBB rightBB l i acc).2.2.2 ∧
          (pickNext leftBB rightBB l i acc).2.2.2 < i + l.length) := by
  induction l with
  | nil =>
    intro i acc
    left
    rfl
  | cons e es ih =>
    intro i acc
    obtain ⟨md, bl, br, ni⟩ := acc
    simp only [pickNext]
    split
    · rcases ih (i + 1)
        (|(boundingBox leftBB (entryBB e)).size - leftBB.size -
            ((boundingBox rightBB (entryBB e)).size - rightBB.size)|,
          (boundingBox leftBB (entryBB e)).size - leftBB.size,
          (boundingBox rightBB (entryBB e)).size - rightBB.size, i) with h | h
      · right
        rw [h]
        simp only [List.length_cons]
        omega
      · right
        simp only [List.length_cons]
        omega
    · rcases ih (i + 1) (md, bl, br, ni) with h | h
      · left
        rw [h]
      · right
        simp only [List.length_cons]
        omega

theorem pickNext_idx_lt (leftBB rightBB : Rect) (e : REntry) (es : List REntry) :
    (pickNext leftBB rightBB (e :: es) 0 (-1, 0, 0, 0)).2.2.2 < (e :: es).length := by
  rcases pickNext_idx leftBB rightBB (e :: es) 0 (-1, 0, 0, 0) with h | h
  · rw [h]
    simp
  · omega

/-- Go `assignGroup`: repeatedly move the most-preferring remaining entry
into one of the two split groups, with the forced-assignment floor and the
tie-break cascade of the source `switch`.  The Go loop runs while entries
remain, removing exactly one entry per round; the counter argument is the
number of rounds still possible and is initialised to the length of
`remaining`. -/
def assignGroup (minB : ℕ) : ℕ → List REntry → RNode → RNode → RNode × RNode
  | 0, _, left, right => (left, right)
  | fuel + 1, remaining, left, right =>
    match remaining with
    | [] => (left, right)
    | e0 :: es0 =>
      let leftBB := computeBB left.entries
      let rightBB := computeBB right.entries
      let r := pickNext leftBB rightBB (e0 :: es0) 0 (-1, 0, 0, 0)
      let nextE := (e0 :: es0).getD r.2.2.2 default
      let toLeft : Bool :=
        if left.entries.length + (e0 :: es0).length ≤ minB then true
        else if right.entries.length + (e0 :: es0).length ≤ minB then false
        else if r.2.1 < r.2.2.1 then true
        else if r.2.2.1 < r.2.1 then false
        else if leftBB.size < rightBB.size then true
        else if rightBB.size < leftBB.size then false
        else if left.entries.length < right.entries.length then true
        else false
      let rest := (e0 :: es0).eraseIdx r.2.2.2
      if toLeft then assignGroup minB fuel rest (assign nextE left) right
      else assignGroup minB fuel rest left (assign nextE right)

/-- Go `(*rTreeNode).split`: pick the two seed entries, move the rest into
the seeded groups.  The left group reuses the original node, the right one
is a fresh sibling with the same flag and level. -/
def splitNode (minB : ℕ) (n : RNode) : RNode × RNode :=
  let es := n.entries
  let p := pickSeeds es
  let leftSeed := es.getD p.1 default
  let rightSeed := es.getD p.2 default
  let remaining := (es.eraseIdx p.2).eraseIdx p.1
  assignGroup minB remaining.length remaining
    (.mk n.isLeaf n.lvl [leftSeed]) (.mk n.isLeaf n.lvl [rightSeed])

theorem sizeOf_entries_lt (b : Bool) (l : ℕ) (es : List REntry) :
    sizeOf es < sizeOf (RNode.mk b l es) := by
  simp only [RNode.mk.sizeOf_spec]
  omega

theorem sizeOf_child_lt {c : RNode} {e : REntry} (h : entryChild e = some c) :
    sizeOf c < sizeOf e := by
  cases e with
  | mk bb ch ob =>
    simp only [entryChild] at h
    subst h
    simp only [REntry.mk.sizeOf_spec, Option.some.sizeOf_spec]
    omega

theorem sizeOf_mem_entries {e : REntry} {es : List REntry} (h : e ∈ es) :
    sizeOf e < sizeOf es :=
  List.sizeOf_lt_of_mem h

theorem sizeOf_child_lt_node {b : Bool} {l : ℕ} {es : List REntry} {e : REntry}
    {c : RNode} (hmem : e ∈ es) (hc : entryChild e = some c) :
    sizeOf c < sizeOf (RNode.mk b l es) :=
  lt_trans (lt_trans (sizeOf_child_lt hc) (sizeOf_mem_entries hmem))
    (sizeOf_entries_lt b l es)

mutual
/-- Multiset-in-order of objects stored in the subtree of a node. -/
def objsOfNode : RNode → List Spatial
  | .mk _ _ es => objsOfEntries es
termination_by structural n => n

/-- Objects stored under a list of entries, in order. -/
def objsOfEntries : List REntry → List Spatial
  | [] => []
  | e :: es => objsOfEntry e ++ objsOfEntries es
termination_by structural es => es

/-- Objects stored under a single entry: the subtree below its child when
it has one, else its own object if present. -/
def objsOfEntry : REntry → List Spatial
  | .mk _ (some c) _ => objsOfNode c
  | .mk _ none (some o) => [o]
  | .mk _ none none => []
termination_by structural e => e
end

mutual
/-- True when every node of the subtree has at most `m` entries. -/
def nodeCountLE (m : ℕ) : RNode → Bool
  | .mk _ _ es => decide (es.length ≤ m) && entriesCountLE m es
termination_by structural n => n

/-- `nodeCountLE` over the children of an entry list. -/
def entriesCountLE (m : ℕ) : List REntry → Bool
  | [] => true
  | e :: es =>
    (match e with
      | .mk _ (some c) _ => nodeCountLE m c
      | .mk _ none _ => true) && entriesCountLE m es
termination_by structural es => es
end

mutual
/-- True when every node of the subtree, the argument included, has at
least `m` entries. -/
def nodeCountGE (m : ℕ) : RNode → Bool
  | .mk _ _ es => decide (m ≤ es.length) && entriesCountGE m es
termination_by structural n => n

/-- `nodeCountGE` over the children of an entry list. -/
def entriesCountGE (m : ℕ) : List REntry → Bool
  | [] => true
  | e :: es =>
    (match e with
      | .mk _ (some c) _ => nodeCountGE m c
      | .mk _ none _ => true) && entriesCountGE m es
termination_by structural es => es
end

/-! ## Insertion engine (rtree.go) -/

mutual
/-- Go `(*Rtree).insert` together with `chooseNode` and `adjustTree`,
written as one structural descent: choose the least-enlargement child until
a leaf or the target level is reached, append the entry, split on overflow,
and on the way out update the parent entry's bounding box and append the
split sibling's entry, splitting again on overflow.  `none` models the Go
nil-dereference panic of `chooseNode` when no usable child exists. -/
def insertNode (minB maxB : ℕ) (e : REntry) (target : ℕ) :
    RNode → Option (RNode × Option RNode)
  | .mk isLeaf lvl es =>
    if isLeaf = true ∨ lvl = target then
      let es1 := es ++ [e]
      if maxB < es1.length then
        match splitNode minB (.mk isLeaf lvl es1) with
        | (l, r) => some (l, some r)
      else some (.mk isLeaf lvl es1, none)
    else
      match insertAtIdx minB maxB e target (chooseBest es (entryBB e)) es with
      | none => none
      | some (es1, none) => some (.mk isLeaf lvl es1, none)
      | some (es1, some s) =>
        let es2 := es1 ++ [REntry.mk (computeBB s.entries) (some s) none]
        if maxB < es2.length then
          match splitNode minB (.mk isLeaf lvl es2) with
          | (l, r) => some (l, some r)
        else some (.mk isLeaf lvl es2, none)
termination_by structural n => n

/-- Descend into the chosen child (position `i` of the entry list), insert
below it, and rebuild the entry with the child's recomputed bounding box,
handing any split sibling upward; mirrors the `chooseNode` descent plus
the `getEntry` update of `adjustTree`. -/
def insertAtIdx (minB maxB : ℕ) (e : REntry) (target : ℕ) :
    ℕ → List REntry → Option (List REntry × Option RNode)
  | _, [] => none
  | 0, .mk _ (some c) obj :: rest =>
    match insertNode minB maxB e target c with
    | none => none
    | some (c1, sp) =>
      some (REntry.mk (computeBB c1.entries) (some c1) obj :: rest, sp)
  | 0, .mk _ none _ :: _ => none
  | i + 1, e0 :: rest =>
    match insertAtIdx minB maxB e target i rest with
    | none => none
    | some (rest1, sp) => some (e0 :: rest1, sp)
termination_by structural _ es => es
end

/-- Go `Rtree` struct. -/
structure Rtree where
  minBranch : ℕ
  maxBranch : ℕ
  root : RNode
  size : ℕ
  height : ℕ

/-- Go `NewTree`: empty leaf root, height 1, size 0. -/
def NewTree (minB maxB : ℕ) : Rtree :=
  { minBranch := minB
    maxBranch := maxB
    root := .mk true 1 []
    size := 0
    height := 1 }

/-- Tree-level part of Go `insert`/`adjustTree`: on a root split, raise the
height and build a fresh internal root over the two halves. -/
def treeInsertAt (t : Rtree) (e : REntry) (target : ℕ) : Option Rtree :=
  match insertNode t.minBranch t.maxBranch e target t.root with
  | none => none
  | some (r, none) => some { t with root := r }
  | some (r, some s) =>
    some { t with
      height := t.height + 1
      root := .mk false (t.height + 1)
        [.mk (computeBB r.entries) (some r) none,
         .mk (computeBB s.entries) (some s) none] }

/-- Go `(*Rtree).Insert`: wrap the object in a leaf entry, insert at level
1, then increment the size. -/
def Rtree.Insert (t : Rtree) (o : Spatial) : Option Rtree :=
  match treeInsertAt t (.mk o.toRect none (some o)) 1 with
  | none => none
  | some t1 => some { t1 with size := t1.size + 1 }

/-! ## Deletion engine (rtree.go) -/

/-- Index of the last entry whose object equals `o`, mirroring the Go
`Delete` scan that overwrites `idx` on every match. -/
def lastIdxWithObj (o : Spatial) (es : List REntry) : Option ℕ :=
  (List.range es.length).foldl
    (fun acc i => if entryObj (es.getD i default) = some o then some i else acc) none

/-- Result of deleting below one non-root node: the object was not found in
the (contains-pruned) subtree, or the Go code would panic on a nil child,
or it was found, the node either survives as `replacement` or is removed
(`none`), and `orphans` collects the removed still-non-empty nodes bottom
up, as Go `condenseTree` does. -/
inductive DelRes : Type where
  | notFound : DelRes
  | fail : DelRes
  | found (replacement : Option RNode) (orphans : List RNode) : DelRes

/-- Result of scanning an entry list for the subtree holding the object:
as `DelRes` but also carrying the index of the matching entry. -/
inductive ScanRes : Type where
  | notFound : ScanRes
  | fail : ScanRes
  | found (i : ℕ) (replacement : Option RNode) (orphans : List RNode) : ScanRes

/-- Shift the matching index of a scan result one entry to the right. -/
def ScanRes.shift : ScanRes → ScanRes
  | .found i r os => .found (i + 1) r os
  | x => x

mutual
/-- Go `findLeaf` combined with the per-node step of `condenseTree`, for a
non-root node: find and remove the object in the first pruned subtree that
holds it, then either remove this node when it underflows `minB` (orphaning
it when entries remain) or keep it with its parent entry's bounding box
due for recomputation. -/
def delRec (minB : ℕ) (o : Spatial) : RNode → DelRes
  | .mk true lvl es =>
    match lastIdxWithObj o es with
    | none => .notFound
    | some i =>
      let es1 := es.eraseIdx i
      if es1.length < minB then
        .found none (if es1.isEmpty then [] else [.mk true lvl es1])
      else .found (some (.mk true lvl es1)) []
  | .mk false lvl es =>
    match delEntries minB o es with
    | .notFound => .notFound
    | .fail => .fail
    | .found i rep orphs =>
      let es1 := match rep with
        | some c1 => es.set i (.mk (computeBB c1.entries) (some c1)
            (entryObj (es.getD i default)))
        | none => es.eraseIdx i
      if es1.length < minB then
        .found none (orphs ++ (if es1.isEmpty then [] else [.mk false lvl es1]))
      else .found (some (.mk false lvl es1)) orphs
termination_by structural n => n

/-- Scan of `findLeaf` over the entries of an internal node: descend into
each child whose box `containsRect` the object's rectangle, taking the
first subtree where the deletion succeeds. -/
def delEntries (minB : ℕ) (o : Spatial) : List REntry → ScanRes
  | [] => .notFound
  | e :: es =>
    if (entryBB e).containsRect o.toRect then
      match e with
      | .mk _ none _ => .fail
      | .mk _ (some c) _ =>
        match delRec minB o c with
        | .notFound => (delEntries minB o es).shift
        | .fail => .fail
        | .found rep orphs => .found 0 rep orphs
    else (delEntries minB o es).shift
termination_by structural es => es
end

/-- Reinsert the orphaned nodes collected by `condenseTree`, each as an
internal entry one level above the orphan's own level, in collection
order. -/
def reinsertAll (t : Rtree) : List RNode → Option Rtree
  | [] => some t
  | n :: ns =>
    match treeInsertAt t (.mk (computeBB n.entries) (some n) none) (n.lvl + 1) with
    | none => none
    | some t1 => reinsertAll t1 ns

/-- Go `(*Rtree).Delete`: find the leaf holding the object, remove the last
matching entry, condense the tree reinserting orphans, decrement the size,
and promote the only child of a single-entry internal root.  The Go code
neither decrements `Height` nor clears the promoted root's parent pointer. -/
def Rtree.Delete (t : Rtree) (o : Spatial) : Option (Rtree × Bool) :=
  match t.root with
  | .mk true lvl es =>
    match lastIdxWithObj o es with
    | none => some (t, false)
    | some i =>
      some ({ t with root := .mk true lvl (es.eraseIdx i), size := t.size - 1 }, true)
  | .mk false lvl es =>
    match delEntries t.minBranch o es with
    | .fail => none
    | .notFound => some (t, false)
    | .found i rep orphs =>
      let es1 := match rep with
        | some c1 => es.set i (.mk (computeBB c1.entries) (some c1)
            (entryObj (es.getD i default)))
        | none => es.eraseIdx i
      match reinsertAll { t with root := RNode.mk false lvl es1 } orphs with
      | none => none
      | some t2 =>
        let t3 : Rtree := { t2 with size := t2.size - 1 }
        match t3.root with
        | .mk false rlvl [e1] =>
          match entryChild e1 with
          | some c => some ({ t3 with root := c }, true)
          | none => none
        | _ => some (t3, true)

/-! ## Intersection search (query file) -/

mutual
/-- Go `(*Rtree).searchIntersect`: accumulate, in entry order, the objects
of leaf entries intersecting the query, recursing into intersecting
internal entries.  The Go code appends `e.obj` unconditionally in the leaf
branch, so a nil object (`none`) can be appended; the accumulator is
therefore a list of optional objects.  `none` as the overall result models
the nil-child dereference of the internal branch. -/
def searchRec (q : Rect) : RNode → List (Option Spatial) → Option (List (Option Spatial))
  | .mk isLeaf _ es, acc => searchEntries q isLeaf es acc
termination_by structural n _ => n

/-- Entry loop of `searchIntersect`. -/
def searchEntries (q : Rect) (isLeaf : Bool) :
    List REntry → List (Option Spatial) → Option (List (Option Spatial))
  | [], acc => some acc
  | e :: es, acc =>
    if intersect (entryBB e) q then
      if isLeaf then
        searchEntries q isLeaf es (acc ++ [entryObj e])
      else
        match e with
        | .mk _ none _ => none
        | .mk _ (some c) _ =>
          match searchRec q c acc with
          | none => none
          | some acc1 => searchEntries q isLeaf es acc1
    else searchEntries q isLeaf es acc
termination_by structural es _ => es
end

/-- Go `(*Rtree).SearchIntersect`: search from the root with an empty
accumulator. -/
def Rtree.SearchIntersect (t : Rtree) (q : Rect) : Option (List (Option Spatial)) :=
  searchRec q t.root []

/-! ## k-NN search (query file)

The standard-library `container/heap` priority queue is external to the
repository and is modelled by its contract: `pqPop` removes the first item
of minimal key, `heap.Push` appends an item.  Ties among equal keys are
resolved deterministically, as `KNN` permits. -/

/-- Contract model of `heap.Pop` restricted to a non-empty queue headed by
`x`: the first item of minimal key and the remaining items. -/
def pqPopNE (key : α → ℚ) (x : α) : List α → α × List α
  | [] => (x, [])
  | y :: ys =>
    let r := pqPopNE key y ys
    if key r.1 < key x then (r.1, x :: r.2) else (x, y :: ys)

/-- Contract model of `heap.Pop` on a min-heap: the first item with the
smallest key, together with the remaining items. -/
def pqPop (key : α → ℚ) : List α → Option (α × List α)
  | [] => none
  | x :: xs => some (pqPopNE key x xs)

theorem pqPopNE_perm (key : α → ℚ) (x : α) (xs : List α) :
    (x :: xs).Perm ((pqPopNE key x xs).1 :: (pqPopNE key x xs).2) := by
  induction xs generalizing x with
  | nil => simp [pqPopNE]
  | cons y ys ih =>
    rw [pqPopNE]
    split
    · have h1 := (ih y).cons x
      exact h1.trans (List.Perm.swap _ x _)
    · exact List.Perm.refl _

theorem pqPopNE_min (key : α → ℚ) (x : α) (xs : List α) :
    ∀ z ∈ x :: xs, key (pqPopNE key x xs).1 ≤ key z := by
  induction xs generalizing x with
  | nil => simp [pqPopNE]
  | cons y ys ih =>
    intro z hz
    rw [pqPopNE]
    split
    · rename_i hlt
      rcases List.mem_cons.1 hz with rfl | hz
      · exact le_of_lt hlt
      · exact ih y z hz
    · rename_i hge
      rcases List.mem_cons.1 hz with rfl | hz
      · exact le_rfl
      · exact le_trans (not_lt.1 hge) (ih y z hz)

theorem pqPop_perm (key : α → ℚ) (l : List α) (m : α) (rest : List α)
    (h : pqPop key l = some (m, rest)) : l.Perm (m :: rest) := by
  cases l with
  | nil => simp [pqPop] at h
  | cons x xs =>
    simp only [pqPop, Option.some.injEq] at h
    have h2 := pqPopNE_perm key x xs
    rw [h] at h2
    exact h2

theorem pqPop_min (key : α → ℚ) (l : List α) (m : α) (rest : List α)
    (h : pqPop key l = some (m, rest)) : ∀ y ∈ l, key m ≤ key y := by
  cases l with
  | nil => simp [pqPop] at h
  | cons x xs =>
    simp only [pqPop, Option.some.injEq] at h
    have h2 := pqPopNE_min key x xs
    rw [h] at h2
    exact h2

/-- Items of the k-NN priority queue: Go `distRTreeNode`, an entry paired
with its squared distance to the query. -/
def knnPushAll (qo : Spatial) (Q : List (ℚ × REntry)) (es : List REntry) :
    List (ℚ × REntry) :=
  es.foldl (fun acc e => acc ++ [(qo.squaredDist (entryBB e), e)]) Q

mutual
/-- Executable weight of a node, the k-NN termination measure. -/
def nodeWeight : RNode → ℕ
  | .mk _ _ es => 1 + entriesWeight es
termination_by structural n => n

/-- Summed entry weights of a list. -/
def entriesWeight : List REntry → ℕ
  | [] => 0
  | e :: es => entryWeight e + entriesWeight es
termination_by structural es => es

/-- Weight of an entry: one more than the weight of its child subtree. -/
def entryWeight : REntry → ℕ
  | .mk _ (some c) _ => 1 + nodeWeight c
  | .mk _ none _ => 1
termination_by structural e => e
end

/-- Total entry weight of the queue, the termination measure of the k-NN
loop. -/
def qWeight (Q : List (ℚ × REntry)) : ℕ :=
  (Q.map fun it => entryWeight it.2).sum

theorem qWeight_perm {Q Q1 : List (ℚ × REntry)} (h : Q.Perm Q1) :
    qWeight Q = qWeight Q1 :=
  List.Perm.sum_eq (h.map _)

theorem qWeight_pushAll (qo : Spatial) (Q : List (ℚ × REntry)) (es : List REntry) :
    qWeight (knnPushAll qo Q es) = qWeight Q + entriesWeight es := by
  induction es generalizing Q with
  | nil => simp [knnPushAll, qWeight, entriesWeight]
  | cons e es ih =>
    simp only [knnPushAll, List.foldl_cons] at *
    rw [ih]
    simp [qWeight, entriesWeight]
    omega

theorem entryWeight_pos (e : REntry) : 1 ≤ entryWeight e := by
  cases e with
  | mk bb c ob =>
    cases c <;> simp [entryWeight]

/-- Go `KNN` main loop: pop the closest item; a leaf item appends its
object to the results, an internal one pushes its child's entries keyed by
their squared distance to the query.  Stops when the queue empties or `k`
results are collected. -/
def knnLoop (k : ℕ) (qo : Spatial) (Q : List (ℚ × REntry)) (nn : List Spatial) :
    Option (List Spatial) :=
  if Q.isEmpty ∨ ¬ nn.length < k then some nn
  else
    match hp : pqPop (fun it => it.1) Q with
    | none => some nn
    | some (m, Q1) =>
      match hm : m.2 with
      | .mk _ _ (some o) => knnLoop k qo Q1 (nn ++ [o])
      | .mk _ none none => none
      | .mk _ (some c) none => knnLoop k qo (knnPushAll qo Q1 c.entries) nn
termination_by qWeight Q
decreasing_by
  · have hperm := pqPop_perm _ Q m Q1 hp
    have h1 := qWeight_perm hperm
    simp only [qWeight, List.map_cons, List.sum_cons] at h1
    have h2 := entryWeight_pos m.2
    change qWeight Q1 < qWeight Q
    simp only [qWeight] at h1 ⊢
    omega
  · have hperm := pqPop_perm _ Q m Q1 hp
    have h1 := qWeight_perm hperm
    simp only [qWeight, List.map_cons, List.sum_cons] at h1
    rw [qWeight_pushAll]
    have h2 : entriesWeight c.entries < entryWeight m.2 := by
      rw [hm]
      rw [entryWeight]
      cases c with
      | mk cb cl ces =>
        rw [nodeWeight]
        simp only [RNode.entries]
        omega
    simp only [qWeight] at h1 ⊢
    omega

/-- Go `(*Rtree).KNN`: push every root entry keyed by its squared distance
to the query object, then run the best-first loop. -/
def Rtree.KNN (t : Rtree) (k : ℕ) (qo : Spatial) : Option (List Spatial) :=
  knnLoop k qo (knnPushAll qo [] t.root.entries) []

/-! ## Concrete scenario inputs -/

/-- Spatial object number `n` at point `(a, b)`. -/
def sp (n : ℕ) (a b : ℚ) : Spatial := ⟨n, ⟨a, b⟩⟩

/-- Insert a list of objects left to right. -/
def insertList (t : Rtree) (os : List Spatial) : Option Rtree :=
  os.foldl (fun acc o => acc.bind fun t1 => t1.Insert o) (some t)

/-- The five points of spec scenario S1, in insertion order. -/
def s1pts : List Spatial := [sp 1 0 0, sp 2 10 10, sp 3 5 5, sp 4 7 3, sp 5 2 8]

/-- The tree of spec scenario S1: `NewTree(2,4)` with the five points
inserted. -/
def s1tree : Option Rtree := insertList (NewTree 2 4) s1pts

/-- S1 followed by deleting the point `(0,0)`: its two-entry leaf
underflows and is orphaned with one remaining entry. -/
def c3tree : Option Rtree :=
  s1tree.bind fun t => (t.Delete (sp 1 0 0)).map Prod.fst

/-- `c3tree` followed by deleting `(2,8)`: the orphaned leaf empties, the
root keeps a single child and that child is promoted to root. -/
def c5tree : Option Rtree :=
  c3tree.bind fun t => (t.Delete (sp 5 2 8)).map Prod.fst


/-! ## Rectangle containment lemmas -/

/-- The rectangle `r` lies inside the rectangle `R` (corner-wise). -/
def rectLE (r R : Rect) : Prop :=
  R.blX ≤ r.blX ∧ R.blY ≤ r.blY ∧ r.trX ≤ R.trX ∧ r.trY ≤ R.trY

theorem rectLE_refl (r : Rect) : rectLE r r :=
  ⟨le_rfl, le_rfl, le_rfl, le_rfl⟩

theorem rectLE_trans {a b c : Rect} (h1 : rectLE a b) (h2 : rectLE b c) :
    rectLE a c :=
  ⟨le_trans h2.1 h1.1, le_trans h2.2.1 h1.2.1,
    le_trans h1.2.2.1 h2.2.2.1, le_trans h1.2.2.2 h2.2.2.2⟩

theorem enlarge_blX (r1 r2 : Rect) : (r1.enlarge r2).blX = min r1.blX r2.blX := by
  unfold Rect.enlarge
  dsimp only
  rcases le_or_lt r1.blX r2.blX with h | h
  · rw [if_neg (not_lt.2 h), min_eq_left h]
  · rw [if_pos h, min_eq_right (le_of_lt h)]

theorem enlarge_blY (r1 r2 : Rect) : (r1.enlarge r2).blY = min r1.blY r2.blY := by
  unfold Rect.enlarge
  dsimp only
  rcases le_or_lt r1.blY r2.blY with h | h
  · rw [if_neg (not_lt.2 h), min_eq_left h]
  · rw [if_pos h, min_eq_right (le_of_lt h)]

theorem enlarge_trX (r1 r2 : Rect) : (r1.enlarge r2).trX = max r1.trX r2.trX := by
  unfold Rect.enlarge
  dsimp only
  rcases le_or_lt r2.trX r1.trX with h | h
  · rw [if_neg (not_lt.2 h), max_eq_left h]
  · rw [if_pos h, max_eq_right (le_of_lt h)]

theorem enlarge_trY (r1 r2 : Rect) : (r1.enlarge r2).trY = max r1.trY r2.trY := by
  unfold Rect.enlarge
  dsimp only
  rcases le_or_lt r2.trY r1.trY with h | h
  · rw [if_neg (not_lt.2 h), max_eq_left h]
  · rw [if_pos h, max_eq_right (le_of_lt h)]

theorem rectLE_enlarge_left (r1 r2 : Rect) : rectLE r1 (r1.enlarge r2) := by
  refine ⟨?_, ?_, ?_, ?_⟩ <;>
    simp [enlarge_blX, enlarge_blY, enlarge_trX, enlarge_trY]

theorem rectLE_enlarge_right (r1 r2 : Rect) : rectLE r2 (r1.enlarge r2) := by
  refine ⟨?_, ?_, ?_, ?_⟩ <;>
    simp [enlarge_blX, enlarge_blY, enlarge_trX, enlarge_trY]

theorem rectLE_enlarge_mono {r R : Rect} (r2 : Rect) (h : rectLE r R) :
    rectLE r (R.enlarge r2) :=
  rectLE_trans h (rectLE_enlarge_left R r2)

theorem foldl_enlarge_start (es : List REntry) :
    ∀ b : Rect, rectLE b (es.foldl (fun acc e2 => acc.enlarge (entryBB e2)) b) := by
  induction es with
  | nil =>
    intro b
    exact rectLE_refl b
  | cons e es ih =>
    intro b
    rw [List.foldl_cons]
    exact rectLE_trans (rectLE_enlarge_left b (entryBB e)) (ih _)

theorem foldl_enlarge_mem (es : List REntry) :
    ∀ (b : Rect) (e : REntry), e ∈ es →
      rectLE (entryBB e) (es.foldl (fun acc e2 => acc.enlarge (entryBB e2)) b) := by
  induction es with
  | nil =>
    intro b e he
    simp at he
  | cons e1 es ih =>
    intro b e he
    rw [List.foldl_cons]
    rcases List.mem_cons.1 he with rfl | he
    · exact rectLE_trans (rectLE_enlarge_right b (entryBB e)) (foldl_enlarge_start es _)
    · exact ih _ e he

theorem computeBB_mem {e : REntry} {es : List REntry} (h : e ∈ es) :
    rectLE (entryBB e) (computeBB es) := by
  cases es with
  | nil => simp at h
  | cons e1 es =>
    unfold computeBB
    rcases List.mem_cons.1 h with rfl | h
    · exact foldl_enlarge_start es (entryBB e)
    · exact foldl_enlarge_mem es (entryBB e1) e h

theorem intersect_mono {r R q : Rect} (hle : rectLE r R)
    (h : intersect r q = true) : intersect R q = true := by
  rw [intersect_true_iff] at h ⊢
  obtain ⟨h1, h2, h3, h4⟩ := h
  obtain ⟨g1, g2, g3, g4⟩ := hle
  exact ⟨le_trans g1 h1, le_trans h2 g3, le_trans g2 h3, le_trans h4 g4⟩

theorem squaredDist_mono (p : RTreePoint) {r R : Rect} (hle : rectLE r R) :
    p.squaredDist R ≤ p.squaredDist r := by
  unfold RTreePoint.squaredDist
  obtain ⟨g1, g2, g3, g4⟩ := hle
  have hx : max (max (R.blX - p.x) (p.x - R.trX)) 0 ≤
      max (max (r.blX - p.x) (p.x - r.trX)) 0 := by
    apply max_le _ (le_max_right _ _)
    apply max_le
    · exact le_max_of_le_left (le_max_of_le_left (by linarith))
    · exact le_max_of_le_left (le_max_of_le_right (by linarith))
  have hy : max (max (R.blY - p.y) (p.y - R.trY)) 0 ≤
      max (max (r.blY - p.y) (p.y - r.trY)) 0 := by
    apply max_le _ (le_max_right _ _)
    apply max_le
    · exact le_max_of_le_left (le_max_of_le_left (by linarith))
    · exact le_max_of_le_left (le_max_of_le_right (by linarith))
  have h0x : (0 : ℚ) ≤ max (max (R.blX - p.x) (p.x - R.trX)) 0 := le_max_right _ _
  have h0y : (0 : ℚ) ≤ max (max (R.blY - p.y) (p.y - R.trY)) 0 := le_max_right _ _
  have := mul_le_mul hx hx h0x (le_trans h0x hx)
  have := mul_le_mul hy hy h0y (le_trans h0y hy)
  dsimp only
  nlinarith

/-! ## List helpers for the split machinery -/

theorem perm_getD_eraseIdx {α : Type} (d : α) :
    ∀ (l : List α) (i : ℕ), i < l.length → l.Perm (l.getD i d :: l.eraseIdx i) := by
  intro l
  induction l with
  | nil =>
    intro i hi
    simp at hi
  | cons x xs ih =>
    intro i hi
    cases i with
    | zero =>
      simp [List.getD]
    | succ i =>
      have hi1 : i < xs.length := by
        simpa using hi
      have h1 := (ih i hi1).cons x
      refine h1.trans ?_
      rw [List.getD_cons_succ, List.eraseIdx_cons_succ]
      exact List.Perm.swap _ _ _

theorem objsOfEntries_append (l1 l2 : List REntry) :
    objsOfEntries (l1 ++ l2) = objsOfEntries l1 ++ objsOfEntries l2 := by
  induction l1 with
  | nil => simp [objsOfEntries]
  | cons e es ih => simp [objsOfEntries, ih]

theorem objsOfEntries_perm_length {l1 l2 : List REntry} (h : l1.Perm l2) :
    (objsOfEntries l1).length = (objsOfEntries l2).length := by
  induction h with
  | nil => rfl
  | cons x _ ih =>
    simp only [objsOfEntries, List.length_append, ih]
  | swap x y l =>
    simp only [objsOfEntries, List.length_append]
    omega
  | trans _ _ ih1 ih2 => exact ih1.trans ih2

theorem objsOfEntries_set (es : List REntry) :
    ∀ (i : ℕ) (e : REntry), i < es.length →
      (objsOfEntries (es.set i e)).length + (objsOfEntry (es.getD i default)).length
        = (objsOfEntries es).length + (objsOfEntry e).length := by
  induction es with
  | nil =>
    intro i e hi
    simp at hi
  | cons e0 es ih =>
    intro i e hi
    cases i with
    | zero =>
      simp only [List.set_cons_zero, List.getD_cons_zero, objsOfEntries, List.length_append]
      omega
    | succ i =>
      have hi1 : i < es.length := by simpa using hi
      have := ih i e hi1
      simp only [List.set_cons_succ, List.getD_cons_succ, objsOfEntries, List.length_append]
      omega

theorem entriesCountLE_iff (m : ℕ) (es : List REntry) :
    entriesCountLE m es = true ↔
      ∀ e ∈ es, ∀ c, entryChild e = some c → nodeCountLE m c = true := by
  induction es with
  | nil => simp [entriesCountLE]
  | cons e es ih =>
    obtain ⟨bb, ch, ob⟩ := e
    cases ch with
    | none =>
      simp only [entriesCountLE, Bool.true_and, ih]
      constructor
      · intro h e1 he1 c hc
        rcases List.mem_cons.1 he1 with rfl | he1
        · simp [entryChild] at hc
        · exact h e1 he1 c hc
      · intro h e1 he1 c hc
        exact h e1 (List.mem_cons_of_mem _ he1) c hc
    | some c0 =>
      simp only [entriesCountLE, Bool.and_eq_true, ih]
      constructor
      · rintro ⟨h0, h⟩ e1 he1 c hc
        rcases List.mem_cons.1 he1 with rfl | he1
        · simp only [entryChild] at hc
          exact (Option.some.inj hc) ▸ h0
        · exact h e1 he1 c hc
      · intro h
        exact ⟨h _ (List.mem_cons_self _ _) c0 rfl,
          fun e1 he1 c hc => h e1 (List.mem_cons_of_mem _ he1) c hc⟩

theorem entriesCountGE_iff (m : ℕ) (es : List REntry) :
    entriesCountGE m es = true ↔
      ∀ e ∈ es, ∀ c, entryChild e = some c → nodeCountGE m c = true := by
  induction es with
  | nil => simp [entriesCountGE]
  | cons e es ih =>
    obtain ⟨bb, ch, ob⟩ := e
    cases ch with
    | none =>
      simp only [entriesCountGE, Bool.true_and, ih]
      constructor
      · intro h e1 he1 c hc
        rcases List.mem_cons.1 he1 with rfl | he1
        · simp [entryChild] at hc
        · exact h e1 he1 c hc
      · intro h e1 he1 c hc
        exact h e1 (List.mem_cons_of_mem _ he1) c hc
    | some c0 =>
      simp only [entriesCountGE, Bool.and_eq_true, ih]
      constructor
      · rintro ⟨h0, h⟩ e1 he1 c hc
        rcases List.mem_cons.1 he1 with rfl | he1
        · simp only [entryChild] at hc
          exact (Option.some.inj hc) ▸ h0
        · exact h e1 he1 c hc
      · intro h
        exact ⟨h _ (List.mem_cons_self _ _) c0 rfl,
          fun e1 he1 c hc => h e1 (List.mem_cons_of_mem _ he1) c hc⟩

theorem nodeCountLE_node (m : ℕ) (b : Bool) (l : ℕ) (es : List REntry) :
    nodeCountLE m (.mk b l es) = (decide (es.length ≤ m) && entriesCountLE m es) := rfl

theorem nodeCountGE_node (m : ℕ) (b : Bool) (l : ℕ) (es : List REntry) :
    nodeCountGE m (.mk b l es) = (decide (m ≤ es.length) && entriesCountGE m es) := rfl

/-! ## assignGroup and splitNode specifications -/

theorem assignGroup_spec (minB : ℕ) :
    ∀ (fuel : ℕ) (rem : List REntry) (L R : RNode),
      rem.length ≤ fuel →
      ((assignGroup minB fuel rem L R).1.entries ++
        (assignGroup minB fuel rem L R).2.entries).Perm
          (L.entries ++ R.entries ++ rem) ∧
      (assignGroup minB fuel rem L R).1.isLeaf = L.isLeaf ∧
      (assignGroup minB fuel rem L R).1.lvl = L.lvl ∧
      (assignGroup minB fuel rem L R).2.isLeaf = R.isLeaf ∧
      (assignGroup minB fuel rem L R).2.lvl = R.lvl ∧
      L.entries.length ≤ (assignGroup minB fuel rem L R).1.entries.length ∧
      R.entries.length ≤ (assignGroup minB fuel rem L R).2.entries.length := by
  intro fuel
  induction fuel with
  | zero =>
    intro rem L R hlen
    have : rem = [] := List.length_eq_zero.1 (Nat.le_zero.1 hlen)
    subst this
    simp [assignGroup]
  | succ fuel ih =>
    intro rem L R hlen
    match rem with
    | [] => simp [assignGroup]
    | e0 :: es0 =>
      have hni := pickNext_idx_lt (computeBB L.entries) (computeBB R.entries) e0 es0
      have hrest : ((e0 :: es0).eraseIdx
          (pickNext (computeBB L.entries) (computeBB R.entries)
            (e0 :: es0) 0 (-1, 0, 0, 0)).2.2.2).length ≤ fuel := by
        rw [List.length_eraseIdx_of_lt hni]
        simp only [List.length_cons] at hlen ⊢
        omega
      have hperm := perm_getD_eraseIdx (default : REntry) (e0 :: es0)
        (pickNext (computeBB L.entries) (computeBB R.entries)
          (e0 :: es0) 0 (-1, 0, 0, 0)).2.2.2 hni
      simp only [assignGroup]
      repeat' split
      all_goals first
      | (obtain ⟨hp, h1, h2, h3, h4, h5, h6⟩ :=
           ih _ (assign ((e0 :: es0).getD _ default) L) R hrest
         refine ⟨?_, h1, h2, h3, h4, ?_, h6⟩
         · refine hp.trans ?_
           simp only [assign, RNode.entries]
           simp only [List.append_assoc, List.singleton_append]
           refine List.Perm.append_left _ (List.Perm.trans List.perm_middle.symm ?_)
           exact List.Perm.append_left _ hperm.symm
         · refine le_trans ?_ h5
           simp [assign, RNode.entries])
      | (obtain ⟨hp, h1, h2, h3, h4, h5, h6⟩ :=
           ih _ L (assign ((e0 :: es0).getD _ default) R) hrest
         refine ⟨?_, h1, h2, h3, h4, h5, ?_⟩
         · refine hp.trans ?_
           simp only [assign, RNode.entries]
           simp only [List.append_assoc, List.singleton_append]
           refine List.Perm.append_left _ (List.Perm.append_left _ ?_)
           exact hperm.symm
         · refine le_trans ?_ h6
           simp [assign, RNode.entries])

theorem assignGroup_ge (minB : ℕ) :
    ∀ (fuel : ℕ) (rem : List REntry) (L R : RNode),
      rem.length ≤ fuel →
      minB ≤ L.entries.length + rem.length →
      minB ≤ R.entries.length + rem.length →
      2 * minB ≤ L.entries.length + R.entries.length + rem.length →
      minB ≤ (assignGroup minB fuel rem L R).1.entries.length ∧
      minB ≤ (assignGroup minB fuel rem L R).2.entries.length := by
  intro fuel
  induction fuel with
  | zero =>
    intro rem L R hlen hL hR htot
    have : rem = [] := List.length_eq_zero.1 (Nat.le_zero.1 hlen)
    subst this
    simp only [assignGroup]
    simp only [List.length_nil, Nat.add_zero] at hL hR
    exact ⟨hL, hR⟩
  | succ fuel ih =>
    rintro rem ⟨Lb, Ll, Les⟩ ⟨Rb, Rl, Res⟩ hlen hL hR htot
    match rem with
    | [] =>
      simp only [assignGroup]
      simp only [List.length_nil, Nat.add_zero] at hL hR
      exact ⟨hL, hR⟩
    | e0 :: es0 =>
      have hni := pickNext_idx_lt (computeBB Les) (computeBB Res) e0 es0
      have hrlen := List.length_eraseIdx_of_lt hni
      have hrest : ((e0 :: es0).eraseIdx
          (pickNext (computeBB Les) (computeBB Res)
            (e0 :: es0) 0 (-1, 0, 0, 0)).2.2.2).length ≤ fuel := by
        rw [hrlen]
        simp only [List.length_cons] at hlen ⊢
        omega
      simp only [RNode.entries, List.length_cons] at hL hR htot
      simp only [assignGroup]
      repeat' split
      all_goals first
      | (refine ih _ (assign ((e0 :: es0).getD _ default) (.mk Lb Ll Les))
           (.mk Rb Rl Res) hrest ?_ ?_ ?_ <;>
          (simp only [assign, RNode.entries, RNode.isLeaf, RNode.lvl,
             List.length_append, List.length_cons, List.length_singleton,
             Bool.false_eq_true, eq_self_iff_true, not_true, hrlen] at * <;> omega))
      | (refine ih _ (.mk Lb Ll Les)
           (assign ((e0 :: es0).getD _ default) (.mk Rb Rl Res)) hrest ?_ ?_ ?_ <;>
          (simp only [assign, RNode.entries, RNode.isLeaf, RNode.lvl,
             List.length_append, List.length_cons, List.length_singleton,
             Bool.false_eq_true, eq_self_iff_true, not_true, hrlen] at * <;> omega))

theorem seedFold_spec (es : List REntry) (l : List (ℕ × ℕ)) :
    ∀ acc : ℕ × ℕ × ℚ,
      (l.foldl (seedStep es) acc = acc ∧ ∀ p ∈ l, wasteOf es p.1 p.2 ≤ acc.2.2) ∨
      (∃ pre p post, l = pre ++ p :: post ∧
        l.foldl (seedStep es) acc = (p.1, p.2, wasteOf es p.1 p.2) ∧
        acc.2.2 < wasteOf es p.1 p.2 ∧
        (∀ q ∈ pre, wasteOf es q.1 q.2 < wasteOf es p.1 p.2) ∧
        (∀ q ∈ post, wasteOf es q.1 q.2 ≤ wasteOf es p.1 p.2)) := by
  induction l with
  | nil =>
    intro acc
    left
    exact ⟨rfl, by simp⟩
  | cons x xs ih =>
    intro acc
    rw [List.foldl_cons]
    by_cases hx : acc.2.2 < wasteOf es x.1 x.2
    · have hstep : seedStep es acc x = (x.1, x.2, wasteOf es x.1 x.2) := by
        simp [seedStep, hx]
      rw [hstep]
      rcases ih (x.1, x.2, wasteOf es x.1 x.2) with ⟨heq, hle⟩ |
        ⟨pre, p, post, hsplit, hres, hacc, hpre, hpost⟩
      · right
        refine ⟨[], x, xs, by simp, by rw [heq], hx, by simp, ?_⟩
        intro q hq
        simpa using hle q hq
      · right
        refine ⟨x :: pre, p, post, by simp [hsplit], hres, ?_, ?_, hpost⟩
        · exact lt_trans hx (by simpa using hacc)
        · intro q hq
          rcases List.mem_cons.1 hq with rfl | hq
          · simpa using hacc
          · exact hpre q hq
    · have hstep : seedStep es acc x = acc := by
        simp [seedStep, hx]
      rw [hstep]
      rcases ih acc with ⟨heq, hle⟩ | ⟨pre, p, post, hsplit, hres, hacc, hpre, hpost⟩
      · left
        refine ⟨heq, ?_⟩
        intro q hq
        rcases List.mem_cons.1 hq with rfl | hq
        · exact not_lt.1 hx
        · exact hle q hq
      · right
        refine ⟨x :: pre, p, post, by simp [hsplit], hres, hacc, ?_, hpost⟩
        intro q hq
        rcases List.mem_cons.1 hq with rfl | hq
        · exact lt_of_le_of_lt (not_lt.1 hx) hacc
        · exact hpre q hq

theorem mem_allPairs {n : ℕ} {p : ℕ × ℕ} (h : p ∈ allPairs n) :
    p.1 < p.2 ∧ p.2 < n := by
  unfold allPairs at h
  simp only [List.mem_flatMap, List.mem_map] at h
  obtain ⟨i, hi, j, hj, hp⟩ := h
  rw [List.mem_range] at hi
  rw [List.mem_iff_getElem] at hj
  obtain ⟨ix, hix, hg⟩ := hj
  rw [List.getElem_drop, List.getElem_range] at hg
  rw [List.length_drop, List.length_range] at hix
  subst hp
  simp only
  omega

theorem pickSeeds_lt {es : List REntry} (h2 : 2 ≤ es.length) :
    (pickSeeds es).1 < (pickSeeds es).2 ∧ (pickSeeds es).2 < es.length := by
  simp only [pickSeeds]
  rcases seedFold_spec es (allPairs es.length) (0, 1, -1) with ⟨heq, _⟩ |
    ⟨pre, p, post, hsplit, hres, _, _, _⟩
  · rw [heq]
    exact ⟨Nat.zero_lt_one, by show 1 < es.length; omega⟩
  · rw [hres]
    have hp : p ∈ allPairs es.length := by
      rw [hsplit]
      exact List.mem_append_right _ (List.mem_cons_self _ _)
    exact mem_allPairs hp

theorem getD_eraseIdx_of_lt {α : Type} (d : α) (l : List α) (i j : ℕ) (h : j < i) :
    (l.eraseIdx i).getD j d = l.getD j d := by
  have := List.getElem?_eraseIdx_of_lt (l := l) (i := i) (j := j) h
  simp [List.getD_eq_getElem?_getD, this]

theorem splitNode_remaining_length {es : List REntry} {p1 p2 : ℕ}
    (h12 : p1 < p2) (h2 : p2 < es.length) :
    ((es.eraseIdx p2).eraseIdx p1).length = es.length - 2 := by
  have e1 : (es.eraseIdx p2).length = es.length - 1 := List.length_eraseIdx_of_lt h2
  have h1 : p1 < (es.eraseIdx p2).length := by omega
  rw [List.length_eraseIdx_of_lt h1, e1]
  omega

theorem perm_two_erase {es : List REntry} {p1 p2 : ℕ}
    (h12 : p1 < p2) (h2 : p2 < es.length) :
    es.Perm (es.getD p1 default :: es.getD p2 default ::
      (es.eraseIdx p2).eraseIdx p1) := by
  have e1 : (es.eraseIdx p2).length = es.length - 1 := List.length_eraseIdx_of_lt h2
  have h1 : p1 < (es.eraseIdx p2).length := by omega
  have step1 := perm_getD_eraseIdx (default : REntry) es p2 h2
  have step2 := perm_getD_eraseIdx (default : REntry) (es.eraseIdx p2) p1 h1
  rw [getD_eraseIdx_of_lt _ _ _ _ h12] at step2
  exact (step1.trans (step2.cons _)).trans (List.Perm.swap _ _ _)

theorem splitNode_spec (minB : ℕ) (n : RNode) (h2 : 2 ≤ n.entries.length) :
    ((splitNode minB n).1.entries ++ (splitNode minB n).2.entries).Perm n.entries ∧
    (splitNode minB n).1.isLeaf = n.isLeaf ∧ (splitNode minB n).1.lvl = n.lvl ∧
    (splitNode minB n).2.isLeaf = n.isLeaf ∧ (splitNode minB n).2.lvl = n.lvl ∧
    1 ≤ (splitNode minB n).1.entries.length ∧
    1 ≤ (splitNode minB n).2.entries.length := by
  obtain ⟨h12, hn2⟩ := pickSeeds_lt h2
  have hrem := splitNode_remaining_length h12 hn2
  simp only [splitNode]
  obtain ⟨hp, e1, e2, e3, e4, e5, e6⟩ := assignGroup_spec minB
    ((n.entries.eraseIdx (pickSeeds n.entries).2).eraseIdx (pickSeeds n.entries).1).length
    ((n.entries.eraseIdx (pickSeeds n.entries).2).eraseIdx (pickSeeds n.entries).1)
    (.mk n.isLeaf n.lvl [n.entries.getD (pickSeeds n.entries).1 default])
    (.mk n.isLeaf n.lvl [n.entries.getD (pickSeeds n.entries).2 default])
    le_rfl
  simp only [RNode.entries, RNode.isLeaf, RNode.lvl, List.length_singleton] at hp e1 e2 e3 e4 e5 e6
  refine ⟨?_, e1, e2, e3, e4, e5, e6⟩
  refine hp.trans ?_
  simp only [List.singleton_append, List.cons_append]
  exact (perm_two_erase h12 hn2).symm

theorem splitNode_ge (minB : ℕ) (n : RNode) (hmin : 1 ≤ minB)
    (htot : 2 * minB ≤ n.entries.length) (h2 : 2 ≤ n.entries.length) :
    minB ≤ (splitNode minB n).1.entries.length ∧
    minB ≤ (splitNode minB n).2.entries.length := by
  obtain ⟨nb, nl, nes⟩ := n
  simp only [RNode.entries] at htot h2
  obtain ⟨h12, hn2⟩ := pickSeeds_lt h2
  have hrem := splitNode_remaining_length h12 hn2
  simp only [splitNode, RNode.entries]
  refine assignGroup_ge minB _ _ _ _ le_rfl ?_ ?_ ?_ <;>
    (simp only [RNode.entries, List.length_singleton, hrem] <;> omega)

theorem getD_mem {α : Type} {l : List α} {i : ℕ} (d : α) (h : i < l.length) :
    l.getD i d ∈ l := by
  rw [List.getD_eq_getElem?_getD, List.getElem?_eq_getElem h]
  simp

theorem objsOfEntry_child {e : REntry} {c : RNode} (h : entryChild e = some c) :
    objsOfEntry e = objsOfNode c := by
  obtain ⟨bb, ch, ob⟩ := e
  simp only [entryChild] at h
  subst h
  rfl

theorem objsOfEntry_leaf {e : REntry} {o : Spatial} (hc : entryChild e = none)
    (ho : entryObj e = some o) : objsOfEntry e = [o] := by
  obtain ⟨bb, ch, ob⟩ := e
  simp only [entryChild] at hc
  simp only [entryObj] at ho
  subst hc
  subst ho
  rfl

theorem objsOfEntries_mem {o : Spatial} {es : List REntry} :
    o ∈ objsOfEntries es ↔ ∃ e ∈ es, o ∈ objsOfEntry e := by
  induction es with
  | nil => simp [objsOfEntries]
  | cons e es ih =>
    simp only [objsOfEntries, List.mem_append, ih, List.mem_cons]
    constructor
    · rintro (h | ⟨e1, he1, h⟩)
      · exact ⟨e, Or.inl rfl, h⟩
      · exact ⟨e1, Or.inr he1, h⟩
    · rintro ⟨e1, (rfl | he1), h⟩
      · exact Or.inl h
      · exact Or.inr ⟨e1, he1, h⟩

theorem objsOfNode_node (b : Bool) (l : ℕ) (es : List REntry) :
    objsOfNode (.mk b l es) = objsOfEntries es := rfl

/-! ## Structural consistency predicates

`NodeC` captures the entry-level consistency that the operational code
maintains in every reachable tree: an entry has either a child whose
recomputed bounding box it caches, or a stored object whose `ToRect` box
it caches.  `NodeWF` additionally captures the leaf-flag/level discipline
(`isLeaf` exactly at level 1, children one level down), which the code
maintains only while `Height` agrees with the root level. -/

/-- Entry-level consistency of every node of a subtree. -/
inductive NodeC : RNode → Prop where
  | mk (b : Bool) (lvl : ℕ) (es : List REntry)
      (hobj : ∀ e ∈ es, ∀ c, entryChild e = some c → entryObj e = none)
      (hbb : ∀ e ∈ es, ∀ c, entryChild e = some c → entryBB e = computeBB c.entries)
      (hleaf : ∀ e ∈ es, entryChild e = none →
        ∃ o, entryObj e = some o ∧ entryBB e = o.toRect)
      (hch : ∀ e ∈ es, ∀ c, entryChild e = some c → NodeC c) :
      NodeC (.mk b lvl es)

/-- Consistency of a single entry, as required of entries handed to the
insertion engine. -/
def EntryC (e : REntry) : Prop :=
  (∀ c, entryChild e = some c →
    entryObj e = none ∧ entryBB e = computeBB c.entries ∧ NodeC c) ∧
  (entryChild e = none → ∃ o, entryObj e = some o ∧ entryBB e = o.toRect)

theorem NodeC_iff (b : Bool) (lvl : ℕ) (es : List REntry) :
    NodeC (.mk b lvl es) ↔ ∀ e ∈ es, EntryC e := by
  constructor
  · rintro ⟨_, _, _, hobj, hbb, hleaf, hch⟩ e he
    exact ⟨fun c hc => ⟨hobj e he c hc, hbb e he c hc, hch e he c hc⟩, hleaf e he⟩
  · intro h
    exact ⟨b, lvl, es, fun e he c hc => ((h e he).1 c hc).1,
      fun e he c hc => ((h e he).1 c hc).2.1,
      fun e he => (h e he).2,
      fun e he c hc => ((h e he).1 c hc).2.2⟩

/-- Leaf-flag and level discipline (full R-tree shape invariant). -/
inductive NodeWF : ℕ → RNode → Prop where
  | leaf (es : List REntry)
      (h : ∀ e ∈ es, entryChild e = none ∧
        ∃ o, entryObj e = some o ∧ entryBB e = o.toRect) :
      NodeWF 1 (.mk true 1 es)
  | node (lvl : ℕ) (es : List REntry) (hlvl : 2 ≤ lvl)
      (hobj : ∀ e ∈ es, entryObj e = none)
      (hbb : ∀ e ∈ es, ∀ c, entryChild e = some c → entryBB e = computeBB c.entries)
      (hne : ∀ e ∈ es, entryChild e ≠ none)
      (hch : ∀ e ∈ es, ∀ c, entryChild e = some c → NodeWF (lvl - 1) c) :
      NodeWF lvl (.mk false lvl es)

/-- Shape requirement on an entry inserted at a given level: a leaf-object
entry at level 1, an internal entry with a well-formed subtree one level
down otherwise. -/
def EntryWFat (target : ℕ) (e : REntry) : Prop :=
  if target = 1 then
    entryChild e = none ∧ ∃ o, entryObj e = some o ∧ entryBB e = o.toRect
  else
    entryObj e = none ∧
      ∃ c, entryChild e = some c ∧ entryBB e = computeBB c.entries ∧
        NodeWF (target - 1) c

theorem NodeWF_toNodeC {lvl : ℕ} {n : RNode} (h : NodeWF lvl n) : NodeC n := by
  induction h with
  | leaf es h =>
    refine ⟨_, _, _, ?_, ?_, ?_, ?_⟩
    · intro e he c hc
      rw [(h e he).1] at hc
      cases hc
    · intro e he c hc
      rw [(h e he).1] at hc
      cases hc
    · intro e he _
      exact (h e he).2
    · intro e he c hc
      rw [(h e he).1] at hc
      cases hc
  | node lvl es hlvl hobj hbb hne hch ih =>
    refine ⟨_, _, _, fun e he c hc => hobj e he, hbb, ?_, ih⟩
    intro e he hc
    exact absurd hc (hne e he)

theorem NodeC_entry_objs_bb {n : RNode} (h : NodeC n) :
    ∀ o ∈ objsOfNode n, rectLE o.toRect (computeBB n.entries) := by
  induction h with
  | mk b lvl es hobj hbb hleaf hch ih =>
    intro o ho
    rw [objsOfNode_node] at ho
    obtain ⟨e, he, hoe⟩ := objsOfEntries_mem.1 ho
    have hle : rectLE o.toRect (entryBB e) := by
      rcases hchild : entryChild e with _ | c
      · obtain ⟨o1, ho1, hbb1⟩ := hleaf e he hchild
        rw [objsOfEntry_leaf hchild ho1] at hoe
        rcases List.mem_singleton.1 hoe with rfl
        rw [hbb1]
        exact rectLE_refl _
      · rw [objsOfEntry_child hchild] at hoe
        rw [hbb e he c hchild]
        exact ih e he c hchild o hoe
    exact rectLE_trans hle (computeBB_mem he)

/-! ## Insertion preservation lemmas -/

theorem insertAtIdx_spec (minB maxB : ℕ) (e : REntry) (target : ℕ) :
    ∀ (i : ℕ) (es es1 : List REntry) (sp : Option RNode),
      insertAtIdx minB maxB e target i es = some (es1, sp) →
      ∃ bb c ob c1, es.getD i default = REntry.mk bb (some c) ob ∧ i < es.length ∧
        insertNode minB maxB e target c = some (c1, sp) ∧
        es1 = es.set i (REntry.mk (computeBB c1.entries) (some c1) ob) := by
  intro i
  induction i with
  | zero =>
    rintro (_ | ⟨⟨bb, (_ | c), ob⟩, rest⟩) es1 sp hins
    · exact absurd hins (by simp [insertAtIdx])
    · exact absurd hins (by simp [insertAtIdx])
    · simp only [insertAtIdx] at hins
      rcases hrec : insertNode minB maxB e target c with _ | ⟨c1, sp1⟩
      · rw [hrec] at hins
        cases hins
      · rw [hrec] at hins
        obtain ⟨h1, h2⟩ := Prod.mk.injEq .. ▸ Option.some.inj hins
        exact ⟨bb, c, ob, c1, rfl, by simp, by rw [hrec, h2], by rw [← h1]; rfl⟩
  | succ i ih =>
    rintro (_ | ⟨e0, rest⟩) es1 sp hins
    · exact absurd hins (by simp [insertAtIdx])
    · simp only [insertAtIdx] at hins
      rcases hrec : insertAtIdx minB maxB e target i rest with _ | ⟨rest1, sp1⟩
      · rw [hrec] at hins
        cases hins
      · rw [hrec] at hins
        obtain ⟨h1, h2⟩ := Prod.mk.injEq .. ▸ Option.some.inj hins
        obtain ⟨bb, c, ob, c1, hget, hlt, hrec1, hset⟩ := ih rest rest1 sp1 hrec
        refine ⟨bb, c, ob, c1, by simpa using hget, by simpa using hlt,
          by rw [hrec1, h2], ?_⟩
        rw [← h1, hset]
        rfl

theorem insertNode_levels (minB maxB : ℕ) (hm2 : 2 ≤ minB)
    (hmb : 2 * minB ≤ maxB + 1) (e : REntry) (target : ℕ) (n : RNode) :
    ∀ (n1 : RNode) (sp : Option RNode),
      insertNode minB maxB e target n = some (n1, sp) →
      n1.isLeaf = n.isLeaf ∧ n1.lvl = n.lvl ∧
      ∀ s, sp = some s → s.isLeaf = n.isLeaf ∧ s.lvl = n.lvl := by
  obtain ⟨isLeaf, lvl, es⟩ := n
  intro n1 sp hins
  simp only [insertNode] at hins
  split at hins
  · split at hins
    · rename_i hover
      rcases hsplit : splitNode minB (.mk isLeaf lvl (es ++ [e])) with ⟨l, r⟩
      rw [hsplit] at hins
      obtain ⟨h1, h2⟩ := Prod.mk.injEq .. ▸ Option.some.inj hins
      have h2cnt : 2 ≤ (RNode.mk isLeaf lvl (es ++ [e])).entries.length := by
        simp only [RNode.entries, List.length_append, List.length_singleton] at hover ⊢
        omega
      obtain ⟨_, e1, e2, e3, e4, _, _⟩ := splitNode_spec minB _ h2cnt
      rw [hsplit] at e1 e2 e3 e4
      subst h1
      refine ⟨e1, e2, ?_⟩
      rintro s hs
      rw [hs] at h2
      cases h2
      exact ⟨e3, e4⟩
    · obtain ⟨h1, h2⟩ := Prod.mk.injEq .. ▸ Option.some.inj hins
      subst h1
      refine ⟨rfl, rfl, ?_⟩
      rintro s hs
      rw [hs] at h2
      cases h2
  · rcases hidx : insertAtIdx minB maxB e target (chooseBest es (entryBB e)) es with
      _ | ⟨es1, _ | s⟩
    · rw [hidx] at hins
      cases hins
    · rw [hidx] at hins
      obtain ⟨h1, h2⟩ := Prod.mk.injEq .. ▸ Option.some.inj hins
      subst h1
      refine ⟨rfl, rfl, ?_⟩
      rintro s hs
      rw [hs] at h2
      cases h2
    · rw [hidx] at hins
      dsimp only at hins
      split at hins
      · rename_i hover
        rcases hsplit : splitNode minB (.mk isLeaf lvl (es1 ++
            [REntry.mk (computeBB s.entries) (some s) none])) with ⟨l, r⟩
        rw [hsplit] at hins
        obtain ⟨h1, h2⟩ := Prod.mk.injEq .. ▸ Option.some.inj hins
        have h2cnt : 2 ≤ (RNode.mk isLeaf lvl (es1 ++
            [REntry.mk (computeBB s.entries) (some s) none])).entries.length := by
          simp only [RNode.entries, List.length_append, List.length_singleton] at hover ⊢
          omega
        obtain ⟨_, e1, e2, e3, e4, _, _⟩ := splitNode_spec minB _ h2cnt
        rw [hsplit] at e1 e2 e3 e4
        subst h1
        refine ⟨e1, e2, ?_⟩
        rintro s1 hs1
        rw [hs1] at h2
        cases h2
        exact ⟨e3, e4⟩
      · obtain ⟨h1, h2⟩ := Prod.mk.injEq .. ▸ Option.some.inj hins
        subst h1
        refine ⟨rfl, rfl, ?_⟩
        rintro s1 hs1
        rw [hs1] at h2
        cases h2

/-- Objects below an optional split sibling. -/
def spObjsLen : Option RNode → ℕ
  | none => 0
  | some s => (objsOfNode s).length

theorem objsOfNode_eq (n : RNode) : objsOfNode n = objsOfEntries n.entries := by
  obtain ⟨b, l, es⟩ := n
  rfl

theorem insertNode_objs (minB maxB : ℕ) (hm2 : 2 ≤ minB)
    (hmb : 2 * minB ≤ maxB + 1) (e : REntry) (target : ℕ) (n : RNode) :
    ∀ (n1 : RNode) (sp : Option RNode),
      insertNode minB maxB e target n = some (n1, sp) →
      (objsOfNode n1).length + spObjsLen sp
        = (objsOfNode n).length + (objsOfEntry e).length := by
  obtain ⟨isLeaf, lvl, es⟩ := n
  intro n1 sp hins
  simp only [insertNode] at hins
  split at hins
  · split at hins
    · rename_i hover
      rcases hsplit : splitNode minB (.mk isLeaf lvl (es ++ [e])) with ⟨⟨lb, ll, les⟩, rb, rl, res⟩
      rw [hsplit] at hins
      obtain ⟨h1, h2⟩ := Prod.mk.injEq .. ▸ Option.some.inj hins
      have h2cnt : 2 ≤ (RNode.mk isLeaf lvl (es ++ [e])).entries.length := by
        simp only [RNode.entries, List.length_append, List.length_singleton] at hover ⊢
        omega
      obtain ⟨hp, _, _, _, _, _, _⟩ := splitNode_spec minB _ h2cnt
      rw [hsplit] at hp
      dsimp only [RNode.entries] at hp
      have hlen := objsOfEntries_perm_length hp
      simp only [objsOfEntries_append, objsOfEntries, List.length_append, List.length_nil] at hlen
      subst h1
      rw [← h2]
      simp only [spObjsLen, objsOfNode_node]
      omega
    · obtain ⟨h1, h2⟩ := Prod.mk.injEq .. ▸ Option.some.inj hins
      subst h1
      rw [← h2]
      simp only [spObjsLen, objsOfNode_node, objsOfEntries_append, objsOfEntries,
        List.length_append, List.length_nil]
      omega
  · rcases hidx : insertAtIdx minB maxB e target (chooseBest es (entryBB e)) es with
      _ | ⟨es1, _ | s⟩
    · rw [hidx] at hins
      cases hins
    · rw [hidx] at hins
      obtain ⟨h1, h2⟩ := Prod.mk.injEq .. ▸ Option.some.inj hins
      obtain ⟨bb, c, ob, c1, hget, hlt, hrec, hset⟩ :=
        insertAtIdx_spec minB maxB e target _ es es1 none hidx
      have hmem := getD_mem (default : REntry) hlt
      rw [hget] at hmem
      have hsz := sizeOf_child_lt_node (b := isLeaf) (l := lvl) hmem
        (show entryChild (.mk bb (some c) ob) = some c from rfl)
      have ihc := insertNode_objs minB maxB hm2 hmb e target c c1 none hrec
      have hsetlen := objsOfEntries_set es _ (REntry.mk (computeBB c1.entries) (some c1) ob) hlt
      rw [hget] at hsetlen
      have ho1 : objsOfEntry (REntry.mk bb (some c) ob) = objsOfNode c := rfl
      have ho2 : objsOfEntry (REntry.mk (computeBB c1.entries) (some c1) ob) = objsOfNode c1 := rfl
      rw [ho1, ho2] at hsetlen
      subst h1
      rw [← h2]
      simp only [spObjsLen] at ihc ⊢
      simp only [objsOfNode_node, hset]
      omega
    · rw [hidx] at hins
      dsimp only at hins
      obtain ⟨bb, c, ob, c1, hget, hlt, hrec, hset⟩ :=
        insertAtIdx_spec minB maxB e target _ es es1 (some s) hidx
      have hmem := getD_mem (default : REntry) hlt
      rw [hget] at hmem
      have hsz := sizeOf_child_lt_node (b := isLeaf) (l := lvl) hmem
        (show entryChild (.mk bb (some c) ob) = some c from rfl)
      have ihc := insertNode_objs minB maxB hm2 hmb e target c c1 (some s) hrec
      have hsetlen := objsOfEntries_set es _ (REntry.mk (computeBB c1.entries) (some c1) ob) hlt
      rw [hget] at hsetlen
      have ho1 : objsOfEntry (REntry.mk bb (some c) ob) = objsOfNode c := rfl
      have ho2 : objsOfEntry (REntry.mk (computeBB c1.entries) (some c1) ob) = objsOfNode c1 := rfl
      rw [ho1, ho2] at hsetlen
      have hes2 : (objsOfEntries (es1 ++ [REntry.mk (computeBB s.entries) (some s) none])).length
          = (objsOfEntries es1).length + (objsOfNode s).length := by
        rw [objsOfEntries_append]
        simp [objsOfEntries, objsOfEntry_child (show entryChild
          (REntry.mk (computeBB s.entries) (some s) none) = some s from rfl)]
      split at hins
      · rename_i hover
        rcases hsplit : splitNode minB (.mk isLeaf lvl (es1 ++
            [REntry.mk (computeBB s.entries) (some s) none])) with ⟨⟨lb, ll, les⟩, rb, rl, res⟩
        rw [hsplit] at hins
        obtain ⟨h1, h2⟩ := Prod.mk.injEq .. ▸ Option.some.inj hins
        have h2cnt : 2 ≤ (RNode.mk isLeaf lvl (es1 ++
            [REntry.mk (computeBB s.entries) (some s) none])).entries.length := by
          simp only [RNode.entries, List.length_append, List.length_singleton] at hover ⊢
          omega
        obtain ⟨hp, _, _, _, _, _, _⟩ := splitNode_spec minB _ h2cnt
        rw [hsplit] at hp
        dsimp only [RNode.entries] at hp
        have hlen := objsOfEntries_perm_length hp
        simp only [objsOfEntries_append, objsOfEntries, objsOfEntry, List.length_append,
          List.length_nil] at hlen
        subst h1
        rw [← h2]
        simp only [spObjsLen, objsOfNode_node] at ihc hlen ⊢
        rw [hset] at hlen
        omega
      · obtain ⟨h1, h2⟩ := Prod.mk.injEq .. ▸ Option.some.inj hins
        subst h1
        rw [← h2]
        simp only [spObjsLen, objsOfNode_node] at ihc ⊢
        rw [hes2, hset]
        omega
termination_by sizeOf n
decreasing_by
  all_goals exact hsz

theorem insertNode_countLE (minB maxB : ℕ) (hm2 : 2 ≤ minB)
    (hmb : 2 * minB ≤ maxB + 1) (e : REntry) (target : ℕ) (n : RNode) :
    ∀ (n1 : RNode) (sp : Option RNode),
      insertNode minB maxB e target n = some (n1, sp) →
      (∀ c, entryChild e = some c → nodeCountLE maxB c = true) →
      nodeCountLE maxB n = true →
      nodeCountLE maxB n1 = true ∧ ∀ s, sp = some s → nodeCountLE maxB s = true := by
  obtain ⟨isLeaf, lvl, es⟩ := n
  intro n1 sp hins he hn
  rw [nodeCountLE_node, Bool.and_eq_true, decide_eq_true_eq, entriesCountLE_iff] at hn
  obtain ⟨hnlen, hnents⟩ := hn
  simp only [insertNode] at hins
  split at hins
  · split at hins
    · rename_i hover
      rcases hsplit : splitNode minB (.mk isLeaf lvl (es ++ [e])) with
        ⟨⟨lb, ll, les⟩, rb, rl, res⟩
      rw [hsplit] at hins
      obtain ⟨h1, h2⟩ := Prod.mk.injEq .. ▸ Option.some.inj hins
      have h2cnt : 2 ≤ (RNode.mk isLeaf lvl (es ++ [e])).entries.length := by
        simp only [RNode.entries, List.length_append, List.length_singleton] at hover ⊢
        omega
      obtain ⟨hp, _, _, _, _, hl1, hr1⟩ := splitNode_spec minB _ h2cnt
      rw [hsplit] at hp hl1 hr1
      dsimp only [RNode.entries] at hp hl1 hr1
      have htotal := hp.length_eq
      simp only [List.length_append, List.length_singleton] at htotal
      have hmemall : ∀ x ∈ les ++ res, ∀ c, entryChild x = some c →
          nodeCountLE maxB c = true := by
        intro x hx c hc
        rcases List.mem_append.1 (hp.mem_iff.1 hx) with hx3 | hx3
        · exact hnents x hx3 c hc
        · rcases List.mem_singleton.1 hx3 with rfl
          exact he c hc
      subst h1
      rw [← h2]
      constructor
      · rw [nodeCountLE_node, Bool.and_eq_true, decide_eq_true_eq, entriesCountLE_iff]
        exact ⟨by omega, fun x hx c hc => hmemall x (List.mem_append_left _ hx) c hc⟩
      · rintro s hs
        injection hs with hs1
        subst hs1
        rw [nodeCountLE_node, Bool.and_eq_true, decide_eq_true_eq, entriesCountLE_iff]
        exact ⟨by omega, fun x hx c hc => hmemall x (List.mem_append_right _ hx) c hc⟩
    · rename_i hover
      obtain ⟨h1, h2⟩ := Prod.mk.injEq .. ▸ Option.some.inj hins
      subst h1
      rw [← h2]
      refine ⟨?_, by rintro s hs; cases hs⟩
      rw [nodeCountLE_node, Bool.and_eq_true, decide_eq_true_eq, entriesCountLE_iff]
      constructor
      · simp only [List.length_append, List.length_singleton] at hover ⊢
        omega
      · intro x hx c hc
        rcases List.mem_append.1 hx with hx3 | hx3
        · exact hnents x hx3 c hc
        · rcases List.mem_singleton.1 hx3 with rfl
          exact he c hc
  · rcases hidx : insertAtIdx minB maxB e target (chooseBest es (entryBB e)) es with
      _ | ⟨es1, _ | s⟩
    · rw [hidx] at hins
      cases hins
    · rw [hidx] at hins
      obtain ⟨h1, h2⟩ := Prod.mk.injEq .. ▸ Option.some.inj hins
      obtain ⟨bb, c, ob, c1, hget, hlt, hrec, hset⟩ :=
        insertAtIdx_spec minB maxB e target _ es es1 none hidx
      have hmem := getD_mem (default : REntry) hlt
      rw [hget] at hmem
      have hsz := sizeOf_child_lt_node (b := isLeaf) (l := lvl) hmem
        (show entryChild (.mk bb (some c) ob) = some c from rfl)
      have hcLE : nodeCountLE maxB c = true := hnents _ hmem c rfl
      obtain ⟨ihc1, _⟩ := insertNode_countLE minB maxB hm2 hmb e target c c1 none hrec he hcLE
      subst h1
      rw [← h2]
      refine ⟨?_, by rintro s hs; cases hs⟩
      rw [nodeCountLE_node, Bool.and_eq_true, decide_eq_true_eq, entriesCountLE_iff]
      constructor
      · rw [hset, List.length_set]
        omega
      · intro x hx c2 hc2
        rw [hset] at hx
        rcases List.mem_or_eq_of_mem_set hx with hx3 | rfl
        · exact hnents x hx3 c2 hc2
        · simp only [entryChild] at hc2
          rcases Option.some.inj hc2 with rfl
          exact ihc1
    · rw [hidx] at hins
      dsimp only at hins
      obtain ⟨bb, c, ob, c1, hget, hlt, hrec, hset⟩ :=
        insertAtIdx_spec minB maxB e target _ es es1 (some s) hidx
      have hmem := getD_mem (default : REntry) hlt
      rw [hget] at hmem
      have hsz := sizeOf_child_lt_node (b := isLeaf) (l := lvl) hmem
        (show entryChild (.mk bb (some c) ob) = some c from rfl)
      have hcLE : nodeCountLE maxB c = true := hnents _ hmem c rfl
      obtain ⟨ihc1, ihc2⟩ :=
        insertNode_countLE minB maxB hm2 hmb e target c c1 (some s) hrec he hcLE
      have hsLE : nodeCountLE maxB s = true := ihc2 s rfl
      have hes2mem : ∀ x ∈ es1 ++ [REntry.mk (computeBB s.entries) (some s) none],
          ∀ c2, entryChild x = some c2 → nodeCountLE maxB c2 = true := by
        intro x hx c2 hc2
        rcases List.mem_append.1 hx with hx3 | hx3
        · rw [hset] at hx3
          rcases List.mem_or_eq_of_mem_set hx3 with hx4 | rfl
          · exact hnents x hx4 c2 hc2
          · simp only [entryChild] at hc2
            rcases Option.some.inj hc2 with rfl
            exact ihc1
        · rcases List.mem_singleton.1 hx3 with rfl
          simp only [entryChild] at hc2
          rcases Option.some.inj hc2 with rfl
          exact hsLE
      have hes2len : (es1 ++ [REntry.mk (computeBB s.entries) (some s) none]).length
          = es.length + 1 := by
        rw [List.length_append, hset, List.length_set, List.length_singleton]
      split at hins
      · rename_i hover
        rcases hsplit : splitNode minB (.mk isLeaf lvl (es1 ++
            [REntry.mk (computeBB s.entries) (some s) none])) with
          ⟨⟨lb, ll, les⟩, rb, rl, res⟩
        rw [hsplit] at hins
        obtain ⟨h1, h2⟩ := Prod.mk.injEq .. ▸ Option.some.inj hins
        have h2cnt : 2 ≤ (RNode.mk isLeaf lvl (es1 ++
            [REntry.mk (computeBB s.entries) (some s) none])).entries.length := by
          simp only [RNode.entries, List.length_append, List.length_singleton] at hover ⊢
          omega
        obtain ⟨hp, _, _, _, _, hl1, hr1⟩ := splitNode_spec minB _ h2cnt
        rw [hsplit] at hp hl1 hr1
        dsimp only [RNode.entries] at hp hl1 hr1
        have htotal := hp.length_eq
        simp only [List.length_append, List.length_singleton, hset, List.length_set] at htotal
        have hmemall : ∀ x ∈ les ++ res, ∀ c2, entryChild x = some c2 →
            nodeCountLE maxB c2 = true := by
          intro x hx c2 hc2
          rcases List.mem_append.1 (hp.mem_iff.1 hx) with hx3 | hx3
          · rw [hset] at hx3
            rcases List.mem_or_eq_of_mem_set hx3 with hx4 | rfl
            · exact hnents x hx4 c2 hc2
            · simp only [entryChild] at hc2
              rcases Option.some.inj hc2 with rfl
              exact ihc1
          · rcases List.mem_singleton.1 hx3 with rfl
            simp only [entryChild] at hc2
            rcases Option.some.inj hc2 with rfl
            exact hsLE
        subst h1
        rw [← h2]
        constructor
        · rw [nodeCountLE_node, Bool.and_eq_true, decide_eq_true_eq, entriesCountLE_iff]
          exact ⟨by omega, fun x hx c2 hc2 => hmemall x (List.mem_append_left _ hx) c2 hc2⟩
        · rintro s1 hs1
          injection hs1 with hs2
          subst hs2
          rw [nodeCountLE_node, Bool.and_eq_true, decide_eq_true_eq, entriesCountLE_iff]
          exact ⟨by omega, fun x hx c2 hc2 => hmemall x (List.mem_append_right _ hx) c2 hc2⟩
      · rename_i hover
        obtain ⟨h1, h2⟩ := Prod.mk.injEq .. ▸ Option.some.inj hins
        subst h1
        rw [← h2]
        refine ⟨?_, by rintro s1 hs1; cases hs1⟩
        rw [nodeCountLE_node, Bool.and_eq_true, decide_eq_true_eq, entriesCountLE_iff]
        refine ⟨?_, hes2mem⟩
        rw [hes2len] at hover ⊢
        omega
termination_by sizeOf n
decreasing_by
  all_goals exact hsz

theorem nodeCountLE_eq (m : ℕ) (n : RNode) :
    nodeCountLE m n = (decide (n.entries.length ≤ m) && entriesCountLE m n.entries) := by
  obtain ⟨b, l, es⟩ := n
  rfl

theorem nodeCountGE_eq (m : ℕ) (n : RNode) :
    nodeCountGE m n = (decide (m ≤ n.entries.length) && entriesCountGE m n.entries) := by
  obtain ⟨b, l, es⟩ := n
  rfl

theorem insertNode_countGE (minB maxB : ℕ) (hm2 : 2 ≤ minB)
    (hmb : 2 * minB ≤ maxB + 1) (e : REntry) (target : ℕ) (n : RNode) :
    ∀ (n1 : RNode) (sp : Option RNode),
      insertNode minB maxB e target n = some (n1, sp) →
      (∀ c, entryChild e = some c → nodeCountGE minB c = true) →
      entriesCountGE minB n.entries = true →
      entriesCountGE minB n1.entries = true ∧
      (sp = none → n.entries.length ≤ n1.entries.length) ∧
      (∀ s, sp = some s → nodeCountGE minB s = true ∧ nodeCountGE minB n1 = true) := by
  obtain ⟨isLeaf, lvl, es⟩ := n
  intro n1 sp hins he hn
  simp only [RNode.entries] at hn
  rw [entriesCountGE_iff] at hn
  simp only [insertNode] at hins
  split at hins
  · split at hins
    · rename_i hover
      rcases hsplit : splitNode minB (.mk isLeaf lvl (es ++ [e])) with
        ⟨⟨lb, ll, les⟩, rb, rl, res⟩
      rw [hsplit] at hins
      obtain ⟨h1, h2⟩ := Prod.mk.injEq .. ▸ Option.some.inj hins
      have h2cnt : 2 ≤ (RNode.mk isLeaf lvl (es ++ [e])).entries.length := by
        simp only [RNode.entries, List.length_append, List.length_singleton] at hover ⊢
        omega
      have htotge : 2 * minB ≤ (RNode.mk isLeaf lvl (es ++ [e])).entries.length := by
        simp only [RNode.entries, List.length_append, List.length_singleton] at hover ⊢
        omega
      obtain ⟨hgl, hgr⟩ := splitNode_ge minB _ (by omega) htotge h2cnt
      obtain ⟨hp, _, _, _, _, _, _⟩ := splitNode_spec minB _ h2cnt
      rw [hsplit] at hp hgl hgr
      dsimp only [RNode.entries] at hp hgl hgr
      have hmemall : ∀ x ∈ les ++ res, ∀ c, entryChild x = some c →
          nodeCountGE minB c = true := by
        intro x hx c hc
        rcases List.mem_append.1 (hp.mem_iff.1 hx) with hx3 | hx3
        · exact hn x hx3 c hc
        · rcases List.mem_singleton.1 hx3 with rfl
          exact he c hc
      subst h1
      dsimp only at h2
      rw [← h2]
      refine ⟨?_, (by rintro h; cases h), ?_⟩
      · simp only [RNode.entries]
        rw [entriesCountGE_iff]
        exact fun x hx c hc => hmemall x (List.mem_append_left _ hx) c hc
      · rintro s hs
        injection hs with hs1
        subst hs1
        constructor
        · rw [nodeCountGE_node, Bool.and_eq_true, decide_eq_true_eq, entriesCountGE_iff]
          exact ⟨hgr, fun x hx c hc => hmemall x (List.mem_append_right _ hx) c hc⟩
        · rw [nodeCountGE_node, Bool.and_eq_true, decide_eq_true_eq, entriesCountGE_iff]
          exact ⟨hgl, fun x hx c hc => hmemall x (List.mem_append_left _ hx) c hc⟩
    · obtain ⟨h1, h2⟩ := Prod.mk.injEq .. ▸ Option.some.inj hins
      subst h1
      rw [← h2]
      refine ⟨?_, ?_, by rintro s hs; cases hs⟩
      · simp only [RNode.entries]
        rw [entriesCountGE_iff]
        intro x hx c hc
        rcases List.mem_append.1 hx with hx3 | hx3
        · exact hn x hx3 c hc
        · rcases List.mem_singleton.1 hx3 with rfl
          exact he c hc
      · intro _
        simp only [RNode.entries, List.length_append]
        omega
  · rcases hidx : insertAtIdx minB maxB e target (chooseBest es (entryBB e)) es with
      _ | ⟨es1, _ | s⟩
    · rw [hidx] at hins
      cases hins
    · rw [hidx] at hins
      obtain ⟨h1, h2⟩ := Prod.mk.injEq .. ▸ Option.some.inj hins
      obtain ⟨bb, c, ob, c1, hget, hlt, hrec, hset⟩ :=
        insertAtIdx_spec minB maxB e target _ es es1 none hidx
      have hmem := getD_mem (default : REntry) hlt
      rw [hget] at hmem
      have hsz := sizeOf_child_lt_node (b := isLeaf) (l := lvl) hmem
        (show entryChild (.mk bb (some c) ob) = some c from rfl)
      have hcGE : nodeCountGE minB c = true := hn _ hmem c rfl
      rw [nodeCountGE_eq, Bool.and_eq_true, decide_eq_true_eq] at hcGE
      obtain ⟨hclen, hcents⟩ := hcGE
      obtain ⟨ihc1, ihc2, _⟩ :=
        insertNode_countGE minB maxB hm2 hmb e target c c1 none hrec he hcents
      have hc1GE : nodeCountGE minB c1 = true := by
        rw [nodeCountGE_eq, Bool.and_eq_true, decide_eq_true_eq]
        exact ⟨le_trans hclen (ihc2 rfl), ihc1⟩
      subst h1
      rw [← h2]
      refine ⟨?_, ?_, by rintro s hs; cases hs⟩
      · simp only [RNode.entries]
        rw [entriesCountGE_iff]
        intro x hx c2 hc2
        rw [hset] at hx
        rcases List.mem_or_eq_of_mem_set hx with hx3 | rfl
        · exact hn x hx3 c2 hc2
        · simp only [entryChild] at hc2
          rcases Option.some.inj hc2 with rfl
          exact hc1GE
      · intro _
        simp only [RNode.entries, hset, List.length_set]
        omega
    · rw [hidx] at hins
      dsimp only at hins
      obtain ⟨bb, c, ob, c1, hget, hlt, hrec, hset⟩ :=
        insertAtIdx_spec minB maxB e target _ es es1 (some s) hidx
      have hmem := getD_mem (default : REntry) hlt
      rw [hget] at hmem
      have hsz := sizeOf_child_lt_node (b := isLeaf) (l := lvl) hmem
        (show entryChild (.mk bb (some c) ob) = some c from rfl)
      have hcGE : nodeCountGE minB c = true := hn _ hmem c rfl
      rw [nodeCountGE_eq, Bool.and_eq_true, decide_eq_true_eq] at hcGE
      obtain ⟨hclen, hcents⟩ := hcGE
      obtain ⟨_, _, ihc3⟩ :=
        insertNode_countGE minB maxB hm2 hmb e target c c1 (some s) hrec he hcents
      obtain ⟨hsGE, hc1GE⟩ := ihc3 s rfl
      have hes2mem : ∀ x ∈ es1 ++ [REntry.mk (computeBB s.entries) (some s) none],
          ∀ c2, entryChild x = some c2 → nodeCountGE minB c2 = true := by
        intro x hx c2 hc2
        rcases List.mem_append.1 hx with hx3 | hx3
        · rw [hset] at hx3
          rcases List.mem_or_eq_of_mem_set hx3 with hx4 | rfl
          · exact hn x hx4 c2 hc2
          · simp only [entryChild] at hc2
            rcases Option.some.inj hc2 with rfl
            exact hc1GE
        · rcases List.mem_singleton.1 hx3 with rfl
          simp only [entryChild] at hc2
          rcases Option.some.inj hc2 with rfl
          exact hsGE
      split at hins
      · rename_i hover
        rcases hsplit : splitNode minB (.mk isLeaf lvl (es1 ++
            [REntry.mk (computeBB s.entries) (some s) none])) with
          ⟨⟨lb, ll, les⟩, rb, rl, res⟩
        rw [hsplit] at hins
        obtain ⟨h1, h2⟩ := Prod.mk.injEq .. ▸ Option.some.inj hins
        have h2cnt : 2 ≤ (RNode.mk isLeaf lvl (es1 ++
            [REntry.mk (computeBB s.entries) (some s) none])).entries.length := by
          simp only [RNode.entries, List.length_append, List.length_singleton] at hover ⊢
          omega
        have htotge : 2 * minB ≤ (RNode.mk isLeaf lvl (es1 ++
            [REntry.mk (computeBB s.entries) (some s) none])).entries.length := by
          simp only [RNode.entries, List.length_append, List.length_singleton] at hover ⊢
          omega
        obtain ⟨hgl, hgr⟩ := splitNode_ge minB _ (by omega) htotge h2cnt
        obtain ⟨hp, _, _, _, _, _, _⟩ := splitNode_spec minB _ h2cnt
        rw [hsplit] at hp hgl hgr
        dsimp only [RNode.entries] at hp hgl hgr
        have hmemall : ∀ x ∈ les ++ res, ∀ c2, entryChild x = some c2 →
            nodeCountGE minB c2 = true := by
          intro x hx c2 hc2
          rcases List.mem_append.1 (hp.mem_iff.1 hx) with hx3 | hx3
          · rw [hset] at hx3
            rcases List.mem_or_eq_of_mem_set hx3 with hx4 | rfl
            · exact hn x hx4 c2 hc2
            · simp only [entryChild] at hc2
              rcases Option.some.inj hc2 with rfl
              exact hc1GE
          · rcases List.mem_singleton.1 hx3 with rfl
            simp only [entryChild] at hc2
            rcases Option.some.inj hc2 with rfl
            exact hsGE
        subst h1
        dsimp only at h2
        rw [← h2]
        refine ⟨?_, (by rintro h; cases h), ?_⟩
        · simp only [RNode.entries]
          rw [entriesCountGE_iff]
          exact fun x hx c2 hc2 => hmemall x (List.mem_append_left _ hx) c2 hc2
        · rintro s1 hs1
          injection hs1 with hs2
          subst hs2
          constructor
          · rw [nodeCountGE_node, Bool.and_eq_true, decide_eq_true_eq, entriesCountGE_iff]
            exact ⟨hgr, fun x hx c2 hc2 => hmemall x (List.mem_append_right _ hx) c2 hc2⟩
          · rw [nodeCountGE_node, Bool.and_eq_true, decide_eq_true_eq, entriesCountGE_iff]
            exact ⟨hgl, fun x hx c2 hc2 => hmemall x (List.mem_append_left _ hx) c2 hc2⟩
      · obtain ⟨h1, h2⟩ := Prod.mk.injEq .. ▸ Option.some.inj hins
        subst h1
        rw [← h2]
        refine ⟨?_, ?_, by rintro s1 hs1; cases hs1⟩
        · simp only [RNode.entries]
          rw [entriesCountGE_iff]
          exact hes2mem
        · intro _
          simp only [RNode.entries, List.length_append, List.length_singleton,
            hset, List.length_set]
          omega
termination_by sizeOf n
decreasing_by
  all_goals exact hsz

theorem insertNode_nodeC (minB maxB : ℕ) (hm2 : 2 ≤ minB)
    (hmb : 2 * minB ≤ maxB + 1) (e : REntry) (target : ℕ) (n : RNode) :
    ∀ (n1 : RNode) (sp : Option RNode),
      insertNode minB maxB e target n = some (n1, sp) →
      EntryC e → NodeC n →
      NodeC n1 ∧ ∀ s, sp = some s → NodeC s := by
  obtain ⟨isLeaf, lvl, es⟩ := n
  intro n1 sp hins he hn
  rw [NodeC_iff] at hn
  simp only [insertNode] at hins
  split at hins
  · split at hins
    · rename_i hover
      rcases hsplit : splitNode minB (.mk isLeaf lvl (es ++ [e])) with
        ⟨⟨lb, ll, les⟩, rb, rl, res⟩
      rw [hsplit] at hins
      obtain ⟨h1, h2⟩ := Prod.mk.injEq .. ▸ Option.some.inj hins
      have h2cnt : 2 ≤ (RNode.mk isLeaf lvl (es ++ [e])).entries.length := by
        simp only [RNode.entries, List.length_append, List.length_singleton] at hover ⊢
        omega
      obtain ⟨hp, _, _, _, _, _, _⟩ := splitNode_spec minB _ h2cnt
      rw [hsplit] at hp
      dsimp only [RNode.entries] at hp
      have hmemall : ∀ x ∈ les ++ res, EntryC x := by
        intro x hx
        rcases List.mem_append.1 (hp.mem_iff.1 hx) with hx3 | hx3
        · exact hn x hx3
        · rcases List.mem_singleton.1 hx3 with rfl
          exact he
      subst h1
      dsimp only at h2
      rw [← h2]
      constructor
      · rw [NodeC_iff]
        exact fun x hx => hmemall x (List.mem_append_left _ hx)
      · rintro s hs
        injection hs with hs1
        subst hs1
        rw [NodeC_iff]
        exact fun x hx => hmemall x (List.mem_append_right _ hx)
    · obtain ⟨h1, h2⟩ := Prod.mk.injEq .. ▸ Option.some.inj hins
      subst h1
      rw [← h2]
      refine ⟨?_, by rintro s hs; cases hs⟩
      rw [NodeC_iff]
      intro x hx
      rcases List.mem_append.1 hx with hx3 | hx3
      · exact hn x hx3
      · rcases List.mem_singleton.1 hx3 with rfl
        exact he
  · rcases hidx : insertAtIdx minB maxB e target (chooseBest es (entryBB e)) es with
      _ | ⟨es1, _ | s⟩
    · rw [hidx] at hins
      cases hins
    · rw [hidx] at hins
      obtain ⟨h1, h2⟩ := Prod.mk.injEq .. ▸ Option.some.inj hins
      obtain ⟨bb, c, ob, c1, hget, hlt, hrec, hset⟩ :=
        insertAtIdx_spec minB maxB e target _ es es1 none hidx
      have hmem := getD_mem (default : REntry) hlt
      rw [hget] at hmem
      have hsz := sizeOf_child_lt_node (b := isLeaf) (l := lvl) hmem
        (show entryChild (.mk bb (some c) ob) = some c from rfl)
      obtain ⟨hob, _, hcC⟩ := (hn _ hmem).1 c rfl
      simp only [entryObj] at hob
      subst hob
      obtain ⟨ihc1, _⟩ := insertNode_nodeC minB maxB hm2 hmb e target c c1 none hrec he hcC
      have hnewE : EntryC (REntry.mk (computeBB c1.entries) (some c1) none) := by
        constructor
        · intro c2 hc2
          simp only [entryChild] at hc2
          rcases Option.some.inj hc2 with rfl
          exact ⟨rfl, rfl, ihc1⟩
        · intro h
          simp only [entryChild] at h
          cases h
      subst h1
      rw [← h2]
      refine ⟨?_, by rintro s hs; cases hs⟩
      rw [NodeC_iff]
      intro x hx
      rw [hset] at hx
      rcases List.mem_or_eq_of_mem_set hx with hx3 | rfl
      · exact hn x hx3
      · exact hnewE
    · rw [hidx] at hins
      dsimp only at hins
      obtain ⟨bb, c, ob, c1, hget, hlt, hrec, hset⟩ :=
        insertAtIdx_spec minB maxB e target _ es es1 (some s) hidx
      have hmem := getD_mem (default : REntry) hlt
      rw [hget] at hmem
      have hsz := sizeOf_child_lt_node (b := isLeaf) (l := lvl) hmem
        (show entryChild (.mk bb (some c) ob) = some c from rfl)
      obtain ⟨hob, _, hcC⟩ := (hn _ hmem).1 c rfl
      simp only [entryObj] at hob
      subst hob
      obtain ⟨ihc1, ihc2⟩ :=
        insertNode_nodeC minB maxB hm2 hmb e target c c1 (some s) hrec he hcC
      have hsC : NodeC s := ihc2 s rfl
      have hnewE : EntryC (REntry.mk (computeBB c1.entries) (some c1) none) := by
        constructor
        · intro c2 hc2
          simp only [entryChild] at hc2
          rcases Option.some.inj hc2 with rfl
          exact ⟨rfl, rfl, ihc1⟩
        · intro h
          simp only [entryChild] at h
          cases h
      have hsibE : EntryC (REntry.mk (computeBB s.entries) (some s) none) := by
        constructor
        · intro c2 hc2
          simp only [entryChild] at hc2
          rcases Option.some.inj hc2 with rfl
          exact ⟨rfl, rfl, hsC⟩
        · intro h
          simp only [entryChild] at h
          cases h
      have hes2mem : ∀ x ∈ es1 ++ [REntry.mk (computeBB s.entries) (some s) none],
          EntryC x := by
        intro x hx
        rcases List.mem_append.1 hx with hx3 | hx3
        · rw [hset] at hx3
          rcases List.mem_or_eq_of_mem_set hx3 with hx4 | rfl
          · exact hn x hx4
          · exact hnewE
        · rcases List.mem_singleton.1 hx3 with rfl
          exact hsibE
      split at hins
      · rename_i hover
        rcases hsplit : splitNode minB (.mk isLeaf lvl (es1 ++
            [REntry.mk (computeBB s.entries) (some s) none])) with
          ⟨⟨lb, ll, les⟩, rb, rl, res⟩
        rw [hsplit] at hins
        obtain ⟨h1, h2⟩ := Prod.mk.injEq .. ▸ Option.some.inj hins
        have h2cnt : 2 ≤ (RNode.mk isLeaf lvl (es1 ++
            [REntry.mk (computeBB s.entries) (some s) none])).entries.length := by
          simp only [RNode.entries, List.length_append, List.length_singleton] at hover ⊢
          omega
        obtain ⟨hp, _, _, _, _, _, _⟩ := splitNode_spec minB _ h2cnt
        rw [hsplit] at hp
        dsimp only [RNode.entries] at hp
        have hmemall : ∀ x ∈ les ++ res, EntryC x := by
          intro x hx
          rcases List.mem_append.1 (hp.mem_iff.1 hx) with hx3 | hx3
          · rw [hset] at hx3
            rcases List.mem_or_eq_of_mem_set hx3 with hx4 | rfl
            · exact hn x hx4
            · exact hnewE
          · rcases List.mem_singleton.1 hx3 with rfl
            exact hsibE
        subst h1
        dsimp only at h2
        rw [← h2]
        constructor
        · rw [NodeC_iff]
          exact fun x hx => hmemall x (List.mem_append_left _ hx)
        · rintro s1 hs1
          injection hs1 with hs2
          subst hs2
          rw [NodeC_iff]
          exact fun x hx => hmemall x (List.mem_append_right _ hx)
      · obtain ⟨h1, h2⟩ := Prod.mk.injEq .. ▸ Option.some.inj hins
        subst h1
        rw [← h2]
        refine ⟨?_, by rintro s1 hs1; cases hs1⟩
        rw [NodeC_iff]
        exact hes2mem
termination_by sizeOf n
decreasing_by
  all_goals exact hsz

theorem NodeWF_node_ofEntries {lvl : ℕ} (hlvl : 2 ≤ lvl) {es : List REntry}
    (h : ∀ e ∈ es, entryObj e = none ∧ ∃ c, entryChild e = some c ∧
      entryBB e = computeBB c.entries ∧ NodeWF (lvl - 1) c) :
    NodeWF lvl (.mk false lvl es) := by
  refine NodeWF.node lvl es hlvl (fun e he => (h e he).1) ?_ ?_ ?_
  · intro e he c hc
    obtain ⟨_, c2, hc2, hbb2, _⟩ := h e he
    rw [hc2] at hc
    rcases Option.some.inj hc with rfl
    exact hbb2
  · intro e he
    obtain ⟨_, c2, hc2, _, _⟩ := h e he
    rw [hc2]
    intro hh
    cases hh
  · intro e he c hc
    obtain ⟨_, c2, hc2, _, hwf2⟩ := h e he
    rw [hc2] at hc
    rcases Option.some.inj hc with rfl
    exact hwf2

theorem NodeWF_node_toEntries {lvl lf : ℕ} {es : List REntry}
    (hn : NodeWF lvl (.mk false lf es)) :
    2 ≤ lvl ∧ lf = lvl ∧ ∀ e ∈ es, entryObj e = none ∧ ∃ c, entryChild e = some c ∧
      entryBB e = computeBB c.entries ∧ NodeWF (lvl - 1) c := by
  cases hn with
  | node lvl es hlvl hobj hbb hne hch =>
    refine ⟨hlvl, rfl, ?_⟩
    intro e he
    obtain ⟨c, hc⟩ := Option.ne_none_iff_exists'.1 (hne e he)
    exact ⟨hobj e he, c, hc, hbb e he c hc, hch e he c hc⟩

theorem NodeWF_shape {lvl : ℕ} {b : Bool} {lf : ℕ} {es : List REntry}
    (hn : NodeWF lvl (.mk b lf es)) :
    (b = true ∧ lvl = 1 ∧ lf = 1 ∧ ∀ e ∈ es, entryChild e = none ∧
      ∃ o, entryObj e = some o ∧ entryBB e = o.toRect) ∨
    (b = false ∧ lvl = lf ∧ 2 ≤ lvl ∧ ∀ e ∈ es, entryObj e = none ∧
      ∃ c, entryChild e = some c ∧ entryBB e = computeBB c.entries ∧
        NodeWF (lvl - 1) c) := by
  cases hn with
  | leaf es h => exact Or.inl ⟨rfl, rfl, rfl, h⟩
  | node lvl es hlvl hobj hbb hne hch =>
    refine Or.inr ⟨rfl, rfl, hlvl, ?_⟩
    intro e he
    obtain ⟨c, hc⟩ := Option.ne_none_iff_exists'.1 (hne e he)
    exact ⟨hobj e he, c, hc, hbb e he c hc, hch e he c hc⟩

theorem insertNode_nodeWF (minB maxB : ℕ) (hm2 : 2 ≤ minB)
    (hmb : 2 * minB ≤ maxB + 1) (e : REntry) (target : ℕ) (n : RNode) :
    ∀ (lvl : ℕ) (n1 : RNode) (sp : Option RNode),
      insertNode minB maxB e target n = some (n1, sp) →
      NodeWF lvl n → EntryWFat target e → 1 ≤ target → target ≤ lvl →
      NodeWF lvl n1 ∧ ∀ s, sp = some s → NodeWF lvl s := by
  obtain ⟨isLeaf, lvlf, es⟩ := n
  intro lvl n1 sp hins hn he h1t hlt
  rcases NodeWF_shape hn with ⟨hb, hlv, hlf, h0⟩ | ⟨hb, hlf, hlvl, hes⟩
  · subst hlv
    rw [hb, hlf] at hins
    have htarget : target = 1 := le_antisymm hlt h1t
    subst htarget
    rw [EntryWFat, if_pos rfl] at he
    simp only [insertNode] at hins
    split at hins
    · split at hins
      · rename_i hover
        rcases hsplit : splitNode minB (.mk true 1 (es ++ [e])) with
          ⟨⟨lb, ll, les⟩, rb, rl, res⟩
        rw [hsplit] at hins
        obtain ⟨h1, h2⟩ := Prod.mk.injEq .. ▸ Option.some.inj hins
        have h2cnt : 2 ≤ (RNode.mk true 1 (es ++ [e])).entries.length := by
          simp only [RNode.entries, List.length_append, List.length_singleton] at hover ⊢
          omega
        obtain ⟨hp, e1, e2, e3, e4, _, _⟩ := splitNode_spec minB _ h2cnt
        rw [hsplit] at hp e1 e2 e3 e4
        dsimp only [RNode.entries, RNode.isLeaf, RNode.lvl] at hp e1 e2 e3 e4
        have hmemall : ∀ x ∈ les ++ res, entryChild x = none ∧
            ∃ o, entryObj x = some o ∧ entryBB x = o.toRect := by
          intro x hx
          rcases List.mem_append.1 (hp.mem_iff.1 hx) with hx3 | hx3
          · exact h0 x hx3
          · rcases List.mem_singleton.1 hx3 with rfl
            exact he
        subst h1
        dsimp only at h2 ⊢
        rw [← h2]
        constructor
        · rw [e1, e2]
          exact NodeWF.leaf les fun x hx => hmemall x (List.mem_append_left _ hx)
        · rintro s hs
          injection hs with hs1
          subst hs1
          rw [e3, e4]
          exact NodeWF.leaf res fun x hx => hmemall x (List.mem_append_right _ hx)
      · obtain ⟨h1, h2⟩ := Prod.mk.injEq .. ▸ Option.some.inj hins
        subst h1
        rw [← h2]
        refine ⟨?_, by rintro s hs; cases hs⟩
        refine NodeWF.leaf _ ?_
        intro x hx
        rcases List.mem_append.1 hx with hx3 | hx3
        · exact h0 x hx3
        · rcases List.mem_singleton.1 hx3 with rfl
          exact he
    · rename_i hcond
      exact absurd (by simp) hcond
  · rw [hb, ← hlf] at hins
    simp only [insertNode] at hins
    split at hins
    · rename_i hcond
      have htarget : target = lvl := by
        rcases hcond with h | h
        · cases h
        · exact h.symm
      rw [← htarget] at hins hes hlvl ⊢
      rw [EntryWFat, if_neg (by omega)] at he
      obtain ⟨heobj, ec, hec, hebb, hewf⟩ := he
      have happ : ∀ x ∈ es ++ [e], entryObj x = none ∧ ∃ c, entryChild x = some c ∧
          entryBB x = computeBB c.entries ∧ NodeWF (target - 1) c := by
        intro x hx
        rcases List.mem_append.1 hx with hx3 | hx3
        · exact hes x hx3
        · rcases List.mem_singleton.1 hx3 with rfl
          exact ⟨heobj, ec, hec, hebb, hewf⟩
      split at hins
      · rename_i hover
        rcases hsplit : splitNode minB (.mk false target (es ++ [e])) with
          ⟨⟨lb, ll, les⟩, rb, rl, res⟩
        rw [hsplit] at hins
        obtain ⟨h1, h2⟩ := Prod.mk.injEq .. ▸ Option.some.inj hins
        have h2cnt : 2 ≤ (RNode.mk false target (es ++ [e])).entries.length := by
          simp only [RNode.entries, List.length_append, List.length_singleton] at hover ⊢
          omega
        obtain ⟨hp, e1, e2, e3, e4, _, _⟩ := splitNode_spec minB _ h2cnt
        rw [hsplit] at hp e1 e2 e3 e4
        dsimp only [RNode.entries, RNode.isLeaf, RNode.lvl] at hp e1 e2 e3 e4
        have hmemall : ∀ x ∈ les ++ res, entryObj x = none ∧ ∃ c, entryChild x = some c ∧
            entryBB x = computeBB c.entries ∧ NodeWF (target - 1) c :=
          fun x hx => happ x (hp.mem_iff.1 hx)
        subst h1
        dsimp only at h2 ⊢
        rw [← h2]
        constructor
        · rw [e1, e2]
          exact NodeWF_node_ofEntries hlvl fun x hx => hmemall x (List.mem_append_left _ hx)
        · rintro s hs
          injection hs with hs1
          subst hs1
          rw [e3, e4]
          exact NodeWF_node_ofEntries hlvl fun x hx => hmemall x (List.mem_append_right _ hx)
      · obtain ⟨h1, h2⟩ := Prod.mk.injEq .. ▸ Option.some.inj hins
        subst h1
        rw [← h2]
        exact ⟨NodeWF_node_ofEntries hlvl happ, by rintro s hs; cases hs⟩
    · rename_i hcond
      have hnt : target < lvl := by
        rcases Nat.lt_or_ge target lvl with h | h
        · exact h
        · exact absurd (Or.inr (le_antisymm hlt h).symm) hcond
      rcases hidx : insertAtIdx minB maxB e target (chooseBest es (entryBB e)) es with
        _ | ⟨es1, _ | s⟩
      · rw [hidx] at hins
        cases hins
      · rw [hidx] at hins
        obtain ⟨h1, h2⟩ := Prod.mk.injEq .. ▸ Option.some.inj hins
        obtain ⟨bb, c, ob, c1, hget, hltn, hrec, hset⟩ :=
          insertAtIdx_spec minB maxB e target _ es es1 none hidx
        have hmem := getD_mem (default : REntry) hltn
        rw [hget] at hmem
        have hsz := sizeOf_child_lt_node (b := isLeaf) (l := lvlf) hmem
          (show entryChild (.mk bb (some c) ob) = some c from rfl)
        obtain ⟨hobm, cm, hcm, _, hcwf⟩ := hes _ hmem
        simp only [entryChild] at hcm
        rcases Option.some.inj hcm with rfl
        simp only [entryObj] at hobm
        subst hobm
        obtain ⟨ihc1, _⟩ := insertNode_nodeWF minB maxB hm2 hmb e target c (lvl - 1)
          c1 none hrec hcwf he h1t (by omega)
        subst h1
        rw [← h2]
        refine ⟨?_, by rintro s hs; cases hs⟩
        refine NodeWF_node_ofEntries hlvl ?_
        intro x hx
        rw [hset] at hx
        rcases List.mem_or_eq_of_mem_set hx with hx3 | rfl
        · exact hes x hx3
        · exact ⟨rfl, c1, rfl, rfl, ihc1⟩
      · rw [hidx] at hins
        dsimp only at hins
        obtain ⟨bb, c, ob, c1, hget, hltn, hrec, hset⟩ :=
          insertAtIdx_spec minB maxB e target _ es es1 (some s) hidx
        have hmem := getD_mem (default : REntry) hltn
        rw [hget] at hmem
        have hsz := sizeOf_child_lt_node (b := isLeaf) (l := lvlf) hmem
          (show entryChild (.mk bb (some c) ob) = some c from rfl)
        obtain ⟨hobm, cm, hcm, _, hcwf⟩ := hes _ hmem
        simp only [entryChild] at hcm
        rcases Option.some.inj hcm with rfl
        simp only [entryObj] at hobm
        subst hobm
        obtain ⟨ihc1, ihc2⟩ := insertNode_nodeWF minB maxB hm2 hmb e target c (lvl - 1)
          c1 (some s) hrec hcwf he h1t (by omega)
        have hswf : NodeWF (lvl - 1) s := ihc2 s rfl
        have hes2 : ∀ x ∈ es1 ++ [REntry.mk (computeBB s.entries) (some s) none],
            entryObj x = none ∧ ∃ c2, entryChild x = some c2 ∧
              entryBB x = computeBB c2.entries ∧ NodeWF (lvl - 1) c2 := by
          intro x hx
          rcases List.mem_append.1 hx with hx3 | hx3
          · rw [hset] at hx3
            rcases List.mem_or_eq_of_mem_set hx3 with hx4 | rfl
            · exact hes x hx4
            · exact ⟨rfl, c1, rfl, rfl, ihc1⟩
          · rcases List.mem_singleton.1 hx3 with rfl
            exact ⟨rfl, s, rfl, rfl, hswf⟩
        split at hins
        · rename_i hover
          rcases hsplit : splitNode minB (.mk false lvl (es1 ++
              [REntry.mk (computeBB s.entries) (some s) none])) with
            ⟨⟨lb, ll, les⟩, rb, rl, res⟩
          rw [hsplit] at hins
          obtain ⟨h1, h2⟩ := Prod.mk.injEq .. ▸ Option.some.inj hins
          have h2cnt : 2 ≤ (RNode.mk false lvl (es1 ++
              [REntry.mk (computeBB s.entries) (some s) none])).entries.length := by
            simp only [RNode.entries, List.length_append, List.length_singleton] at hover ⊢
            omega
          obtain ⟨hp, e1, e2, e3, e4, _, _⟩ := splitNode_spec minB _ h2cnt
          rw [hsplit] at hp e1 e2 e3 e4
          dsimp only [RNode.entries, RNode.isLeaf, RNode.lvl] at hp e1 e2 e3 e4
          have hmemall : ∀ x ∈ les ++ res, entryObj x = none ∧ ∃ c2,
              entryChild x = some c2 ∧ entryBB x = computeBB c2.entries ∧
              NodeWF (lvl - 1) c2 := by
            intro x hx
            rcases List.mem_append.1 (hp.mem_iff.1 hx) with hx3 | hx3
            · rw [hset] at hx3
              rcases List.mem_or_eq_of_mem_set hx3 with hx4 | rfl
              · exact hes x hx4
              · exact ⟨rfl, c1, rfl, rfl, ihc1⟩
            · rcases List.mem_singleton.1 hx3 with rfl
              exact ⟨rfl, s, rfl, rfl, hswf⟩
          subst h1
          dsimp only at h2 ⊢
          rw [← h2]
          constructor
          · rw [e1, e2]
            exact NodeWF_node_ofEntries hlvl fun x hx => hmemall x (List.mem_append_left _ hx)
          · rintro s1 hs1
            injection hs1 with hs2
            subst hs2
            rw [e3, e4]
            exact NodeWF_node_ofEntries hlvl fun x hx => hmemall x (List.mem_append_right _ hx)
        · obtain ⟨h1, h2⟩ := Prod.mk.injEq .. ▸ Option.some.inj hins
          subst h1
          rw [← h2]
          exact ⟨NodeWF_node_ofEntries hlvl hes2, by rintro s1 hs1; cases hs1⟩
termination_by sizeOf n
decreasing_by
  all_goals exact hsz

/-! ## Deletion preservation lemmas -/

theorem foldl_lastIdx_spec {P : ℕ → Prop} [DecidablePred P] :
    ∀ (l : List ℕ) (acc : Option ℕ) (i : ℕ),
      l.foldl (fun acc j => if P j then some j else acc) acc = some i →
      acc = some i ∨ (i ∈ l ∧ P i) := by
  intro l
  induction l with
  | nil =>
    intro acc i h
    exact Or.inl h
  | cons x xs ih =>
    intro acc i h
    rw [List.foldl_cons] at h
    rcases ih _ i h with h1 | ⟨h1, h2⟩
    · by_cases hx : P x
      · rw [if_pos hx] at h1
        rcases Option.some.inj h1 with rfl
        exact Or.inr ⟨List.mem_cons_self _ _, hx⟩
      · rw [if_neg hx] at h1
        exact Or.inl h1
    · exact Or.inr ⟨List.mem_cons_of_mem _ h1, h2⟩

theorem lastIdxWithObj_some {o : Spatial} {es : List REntry} {i : ℕ}
    (h : lastIdxWithObj o es = some i) :
    i < es.length ∧ entryObj (es.getD i default) = some o := by
  unfold lastIdxWithObj at h
  rcases foldl_lastIdx_spec (List.range es.length) none i h with h1 | ⟨h1, h2⟩
  · cases h1
  · exact ⟨List.mem_range.1 h1, h2⟩

theorem objsOfEntries_eraseIdx {es : List REntry} {i : ℕ} (h : i < es.length) :
    (objsOfEntries (es.eraseIdx i)).length + (objsOfEntry (es.getD i default)).length
      = (objsOfEntries es).length := by
  have hp := perm_getD_eraseIdx (default : REntry) es i h
  have := objsOfEntries_perm_length hp
  simp only [objsOfEntries, List.length_append] at this
  omega

/-- Objects below a list of orphaned nodes. -/
def orphObjsLen : List RNode → ℕ
  | [] => 0
  | n :: ns => (objsOfNode n).length + orphObjsLen ns

theorem orphObjsLen_append (l1 l2 : List RNode) :
    orphObjsLen (l1 ++ l2) = orphObjsLen l1 + orphObjsLen l2 := by
  induction l1 with
  | nil => simp [orphObjsLen]
  | cons n ns ih =>
    rw [List.cons_append]
    simp only [orphObjsLen]
    rw [ih]
    omega

theorem delEntries_found (minB : ℕ) (o : Spatial) :
    ∀ (es : List REntry) (i : ℕ) (rep : Option RNode) (orphs : List RNode),
      delEntries minB o es = .found i rep orphs →
      ∃ bb c ob, i < es.length ∧ es.getD i default = REntry.mk bb (some c) ob ∧
        delRec minB o c = .found rep orphs := by
  intro es
  induction es with
  | nil =>
    intro i rep orphs h
    simp only [delEntries] at h
    cases h
  | cons e es ih =>
    intro i rep orphs h
    obtain ⟨bb, ch, ob⟩ := e
    rw [delEntries.eq_def] at h
    dsimp only at h
    split at h
    · cases ch with
      | none => cases h
      | some c =>
        dsimp only at h
        rcases hrec : delRec minB o c with _ | _ | ⟨rep0, orphs0⟩ <;> rw [hrec] at h
        · rcases hshift : delEntries minB o es with _ | _ | ⟨j, rep1, orphs1⟩ <;>
            rw [hshift] at h <;> simp only [ScanRes.shift] at h
          · cases h
          · cases h
          · rcases h with ⟨rfl, rfl, rfl⟩
            obtain ⟨bb2, c2, ob2, hlt2, hget2, hrec2⟩ := ih j rep orphs hshift
            exact ⟨bb2, c2, ob2, by simpa using hlt2, by simpa using hget2, hrec2⟩
        · cases h
        · rcases h with ⟨rfl, rfl, rfl⟩
          exact ⟨bb, c, ob, by simp, rfl, hrec⟩
    · rcases hshift : delEntries minB o es with _ | _ | ⟨j, rep1, orphs1⟩ <;>
        rw [hshift] at h <;> simp only [ScanRes.shift] at h
      · cases h
      · cases h
      · rcases h with ⟨rfl, rfl, rfl⟩
        obtain ⟨bb2, c2, ob2, hlt2, hget2, hrec2⟩ := ih j rep orphs hshift
        exact ⟨bb2, c2, ob2, by simpa using hlt2, by simpa using hget2, hrec2⟩

theorem delRec_leaf_none (minB : ℕ) (o : Spatial) (lvl : ℕ) (es : List REntry)
    (hlast : lastIdxWithObj o es = none) :
    delRec minB o (.mk true lvl es) = .notFound := by
  rw [delRec.eq_def]
  dsimp only
  rw [hlast]

theorem delRec_leaf_found (minB : ℕ) (o : Spatial) (lvl : ℕ) (es : List REntry)
    (i : ℕ) (hlast : lastIdxWithObj o es = some i) :
    delRec minB o (.mk true lvl es) =
      (if (es.eraseIdx i).length < minB then
        .found none
          (if (es.eraseIdx i).isEmpty then [] else [.mk true lvl (es.eraseIdx i)])
      else .found (some (.mk true lvl (es.eraseIdx i))) []) := by
  rw [delRec.eq_def]
  dsimp only
  rw [hlast]

theorem delRec_node_found_none (minB : ℕ) (o : Spatial) (lvl : ℕ) (es : List REntry)
    (i : ℕ) (orphs0 : List RNode)
    (hscan : delEntries minB o es = .found i none orphs0) :
    delRec minB o (.mk false lvl es) =
      (if (es.eraseIdx i).length < minB then
        .found none (orphs0 ++
          (if (es.eraseIdx i).isEmpty then [] else [.mk false lvl (es.eraseIdx i)]))
      else .found (some (.mk false lvl (es.eraseIdx i))) orphs0) := by
  rw [delRec.eq_def]
  dsimp only
  rw [hscan]

theorem delRec_node_found_some (minB : ℕ) (o : Spatial) (lvl : ℕ) (es : List REntry)
    (i : ℕ) (c1 : RNode) (orphs0 : List RNode)
    (hscan : delEntries minB o es = .found i (some c1) orphs0) :
    delRec minB o (.mk false lvl es) =
      (if ((es.set i (REntry.mk (computeBB c1.entries) (some c1)
            (entryObj (es.getD i default)))).length < minB) then
        .found none (orphs0 ++
          (if (es.set i (REntry.mk (computeBB c1.entries) (some c1)
              (entryObj (es.getD i default)))).isEmpty then []
           else [.mk false lvl (es.set i (REntry.mk (computeBB c1.entries) (some c1)
              (entryObj (es.getD i default))))]))
      else .found (some (.mk false lvl (es.set i (REntry.mk (computeBB c1.entries)
          (some c1) (entryObj (es.getD i default)))))) orphs0) := by
  rw [delRec.eq_def]
  dsimp only
  rw [hscan]

theorem delRec_objsC (minB : ℕ) (o : Spatial) (n : RNode) :
    ∀ (rep : Option RNode) (orphs : List RNode),
      delRec minB o n = .found rep orphs → NodeC n →
      spObjsLen rep + orphObjsLen orphs + 1 = (objsOfNode n).length ∧
      (∀ r, rep = some r → NodeC r) ∧ (∀ x ∈ orphs, NodeC x) := by
  obtain ⟨isLeaf, lvl, es⟩ := n
  intro rep orphs hdel hn
  have hnents := (NodeC_iff _ _ _).1 hn
  cases isLeaf with
  | true =>
    rcases hlast : lastIdxWithObj o es with _ | i
    · rw [delRec_leaf_none minB o lvl es hlast] at hdel
      cases hdel
    · rw [delRec_leaf_found minB o lvl es i hlast] at hdel
      obtain ⟨hilt, hiobj⟩ := lastIdxWithObj_some hlast
      have hone : objsOfEntry (es.getD i default) = [o] := by
        rcases hch : entryChild (es.getD i default) with _ | c
        · exact objsOfEntry_leaf hch hiobj
        · obtain ⟨hobn, _, _⟩ := (hnents _ (getD_mem default hilt)).1 c hch
          rw [hobn] at hiobj
          cases hiobj
      have herase := objsOfEntries_eraseIdx hilt
      rw [hone] at herase
      simp only [List.length_singleton] at herase
      have hC1 : ∀ x ∈ es.eraseIdx i, EntryC x :=
        fun x hx => hnents x (List.mem_of_mem_eraseIdx hx)
      split at hdel
      · rcases hdel with ⟨rfl, rfl⟩
        refine ⟨?_, (by rintro r hr; cases hr), ?_⟩
        · split
          · rename_i hemp
            rw [List.isEmpty_iff.1 hemp] at herase
            simp only [spObjsLen, orphObjsLen, objsOfNode_node]
            simp only [objsOfEntries, List.length_nil, List.length_singleton] at herase
            omega
          · simp only [spObjsLen, orphObjsLen, objsOfNode_node, List.length_singleton]
            omega
        · intro x hx
          split at hx
          · cases hx
          · rcases List.mem_singleton.1 hx with rfl
            exact (NodeC_iff _ _ _).2 hC1
      · rcases hdel with ⟨rfl, rfl⟩
        refine ⟨?_, ?_, by rintro x hx; cases hx⟩
        · simp only [spObjsLen, orphObjsLen, objsOfNode_node, List.length_singleton]
          omega
        · rintro r hr
          injection hr with hr1
          subst hr1
          exact (NodeC_iff _ _ _).2 hC1
  | false =>
    rcases hscan : delEntries minB o es with _ | _ | ⟨i, rep0, orphs0⟩
    · rw [delRec.eq_def] at hdel
      dsimp only at hdel
      rw [hscan] at hdel
      cases hdel
    · rw [delRec.eq_def] at hdel
      dsimp only at hdel
      rw [hscan] at hdel
      cases hdel
    · obtain ⟨bb, c, ob, hilt, hget, hrec⟩ := delEntries_found minB o es i rep0 orphs0 hscan
      have hmem := getD_mem (default : REntry) hilt
      rw [hget] at hmem
      obtain ⟨hobn, _, hcC⟩ := (hnents _ hmem).1 c rfl
      simp only [entryObj] at hobn
      subst hobn
      obtain ⟨iheq, ihrep, ihorph⟩ := delRec_objsC minB o c rep0 orphs0 hrec hcC
      have hcobj : objsOfEntry (es.getD i default) = objsOfNode c := by
        rw [hget]
        rfl
      rcases rep0 with _ | c1
      · rw [delRec_node_found_none minB o lvl es i orphs0 hscan] at hdel
        have herase := objsOfEntries_eraseIdx hilt
        rw [hcobj] at herase
        simp only [spObjsLen] at iheq
        have hC1 : ∀ x ∈ es.eraseIdx i, EntryC x :=
          fun x hx => hnents x (List.mem_of_mem_eraseIdx hx)
        split at hdel
        · rcases hdel with ⟨rfl, rfl⟩
          refine ⟨?_, (by rintro r hr; cases hr), ?_⟩
          · rw [orphObjsLen_append]
            split
            · rename_i hemp
              rw [List.isEmpty_iff.1 hemp] at herase
              simp only [spObjsLen, orphObjsLen, objsOfNode_node]
              simp only [objsOfEntries, List.length_nil] at herase
              omega
            · simp only [spObjsLen, orphObjsLen, objsOfNode_node]
              omega
          · intro x hx
            rcases List.mem_append.1 hx with hx1 | hx1
            · exact ihorph x hx1
            · split at hx1
              · cases hx1
              · rcases List.mem_singleton.1 hx1 with rfl
                exact (NodeC_iff _ _ _).2 hC1
        · rcases hdel with ⟨rfl, rfl⟩
          refine ⟨?_, ?_, ihorph⟩
          · simp only [spObjsLen, orphObjsLen, objsOfNode_node]
            omega
          · rintro r hr
            injection hr with hr1
            subst hr1
            exact (NodeC_iff _ _ _).2 hC1
      · rw [delRec_node_found_some minB o lvl es i c1 orphs0 hscan] at hdel
        have hC_c1 : NodeC c1 := ihrep c1 rfl
        have hsetlen := objsOfEntries_set es i
          (REntry.mk (computeBB c1.entries) (some c1) (entryObj (es.getD i default))) hilt
        rw [hcobj] at hsetlen
        have hnewobj : objsOfEntry (REntry.mk (computeBB c1.entries) (some c1)
            (entryObj (es.getD i default))) = objsOfNode c1 := rfl
        rw [hnewobj] at hsetlen
        simp only [spObjsLen] at iheq
        have hobnone : entryObj (es.getD i default) = none := by
          rw [hget]
          rfl
        have hnewC : EntryC (REntry.mk (computeBB c1.entries) (some c1)
            (entryObj (es.getD i default))) := by
          constructor
          · intro c2 hc2
            simp only [entryChild] at hc2
            rcases Option.some.inj hc2 with rfl
            refine ⟨?_, rfl, hC_c1⟩
            exact hobnone
          · intro hh
            simp only [entryChild] at hh
            cases hh
        have hC1 : ∀ x ∈ es.set i (REntry.mk (computeBB c1.entries) (some c1)
            (entryObj (es.getD i default))), EntryC x := by
          intro x hx
          rcases List.mem_or_eq_of_mem_set hx with hx1 | rfl
          · exact hnents x hx1
          · exact hnewC
        split at hdel
        · rcases hdel with ⟨rfl, rfl⟩
          refine ⟨?_, (by rintro r hr; cases hr), ?_⟩
          · rw [orphObjsLen_append]
            split
            · rename_i hemp
              rw [List.isEmpty_iff.1 hemp] at hsetlen
              simp only [spObjsLen, orphObjsLen, objsOfNode_node]
              simp only [objsOfEntries, List.length_nil] at hsetlen
              omega
            · simp only [spObjsLen, orphObjsLen, objsOfNode_node]
              omega
          · intro x hx
            rcases List.mem_append.1 hx with hx1 | hx1
            · exact ihorph x hx1
            · split at hx1
              · cases hx1
              · rcases List.mem_singleton.1 hx1 with rfl
                exact (NodeC_iff _ _ _).2 hC1
        · rcases hdel with ⟨rfl, rfl⟩
          refine ⟨?_, ?_, ihorph⟩
          · simp only [spObjsLen, orphObjsLen, objsOfNode_node]
            omega
          · rintro r hr
            injection hr with hr1
            subst hr1
            exact (NodeC_iff _ _ _).2 hC1
termination_by sizeOf n
decreasing_by
  all_goals first
  | exact sizeOf_child_lt_node hmem rfl
  | exact sizeOf_child_lt_node (getD_mem default hilt) (by rw [hget]; rfl)

theorem delRec_countLE (minB maxB : ℕ) (o : Spatial) (n : RNode) :
    ∀ (rep : Option RNode) (orphs : List RNode),
      delRec minB o n = .found rep orphs → nodeCountLE maxB n = true →
      (∀ r, rep = some r → nodeCountLE maxB r = true) ∧
      (∀ x ∈ orphs, nodeCountLE maxB x = true) := by
  obtain ⟨isLeaf, lvl, es⟩ := n
  intro rep orphs hdel hn
  rw [nodeCountLE_node, Bool.and_eq_true, decide_eq_true_eq, entriesCountLE_iff] at hn
  obtain ⟨hnlen, hnents⟩ := hn
  have heraseLE : ∀ i, nodeCountLE maxB (.mk isLeaf lvl (es.eraseIdx i)) = true := by
    intro i
    rw [nodeCountLE_node, Bool.and_eq_true, decide_eq_true_eq, entriesCountLE_iff]
    refine ⟨le_trans (List.length_eraseIdx_le _ _) hnlen, ?_⟩
    exact fun x hx => hnents x (List.mem_of_mem_eraseIdx hx)
  cases isLeaf with
  | true =>
    rcases hlast : lastIdxWithObj o es with _ | i
    · rw [delRec_leaf_none minB o lvl es hlast] at hdel
      cases hdel
    · rw [delRec_leaf_found minB o lvl es i hlast] at hdel
      split at hdel
      · rcases hdel with ⟨rfl, rfl⟩
        refine ⟨(by rintro r hr; cases hr), ?_⟩
        intro x hx
        split at hx
        · cases hx
        · rcases List.mem_singleton.1 hx with rfl
          exact heraseLE i
      · rcases hdel with ⟨rfl, rfl⟩
        refine ⟨?_, by rintro x hx; cases hx⟩
        rintro r hr
        injection hr with hr1
        subst hr1
        exact heraseLE i
  | false =>
    rcases hscan : delEntries minB o es with _ | _ | ⟨i, rep0, orphs0⟩
    · rw [delRec.eq_def] at hdel
      dsimp only at hdel
      rw [hscan] at hdel
      cases hdel
    · rw [delRec.eq_def] at hdel
      dsimp only at hdel
      rw [hscan] at hdel
      cases hdel
    · obtain ⟨bb, c, ob, hilt, hget, hrec⟩ := delEntries_found minB o es i rep0 orphs0 hscan
      have hmem := getD_mem (default : REntry) hilt
      rw [hget] at hmem
      have hcLE : nodeCountLE maxB c = true := hnents _ hmem c rfl
      obtain ⟨ihrep, ihorph⟩ := delRec_countLE minB maxB o c rep0 orphs0 hrec hcLE
      rcases rep0 with _ | c1
      · rw [delRec_node_found_none minB o lvl es i orphs0 hscan] at hdel
        split at hdel
        · rcases hdel with ⟨rfl, rfl⟩
          refine ⟨(by rintro r hr; cases hr), ?_⟩
          intro x hx
          rcases List.mem_append.1 hx with hx1 | hx1
          · exact ihorph x hx1
          · split at hx1
            · cases hx1
            · rcases List.mem_singleton.1 hx1 with rfl
              exact heraseLE i
        · rcases hdel with ⟨rfl, rfl⟩
          refine ⟨?_, ihorph⟩
          rintro r hr
          injection hr with hr1
          subst hr1
          exact heraseLE i
      · rw [delRec_node_found_some minB o lvl es i c1 orphs0 hscan] at hdel
        have hc1LE : nodeCountLE maxB c1 = true := ihrep c1 rfl
        have hsetLE : nodeCountLE maxB (.mk false lvl (es.set i (REntry.mk
            (computeBB c1.entries) (some c1) (entryObj (es.getD i default))))) = true := by
          rw [nodeCountLE_node, Bool.and_eq_true, decide_eq_true_eq, entriesCountLE_iff]
          refine ⟨by rw [List.length_set]; exact hnlen, ?_⟩
          intro x hx c2 hc2
          rcases List.mem_or_eq_of_mem_set hx with hx1 | rfl
          · exact hnents x hx1 c2 hc2
          · simp only [entryChild] at hc2
            rcases Option.some.inj hc2 with rfl
            exact hc1LE
        split at hdel
        · rcases hdel with ⟨rfl, rfl⟩
          refine ⟨(by rintro r hr; cases hr), ?_⟩
          intro x hx
          rcases List.mem_append.1 hx with hx1 | hx1
          · exact ihorph x hx1
          · split at hx1
            · cases hx1
            · rcases List.mem_singleton.1 hx1 with rfl
              exact hsetLE
        · rcases hdel with ⟨rfl, rfl⟩
          refine ⟨?_, ihorph⟩
          rintro r hr
          injection hr with hr1
          subst hr1
          exact hsetLE
termination_by sizeOf n
decreasing_by
  all_goals first
  | exact sizeOf_child_lt_node hmem rfl
  | exact sizeOf_child_lt_node (getD_mem default hilt) (by rw [hget]; rfl)

theorem delRec_nodeWF (minB : ℕ) (o : Spatial) (n : RNode) :
    ∀ (lvl : ℕ) (rep : Option RNode) (orphs : List RNode),
      delRec minB o n = .found rep orphs → NodeWF lvl n →
      (∀ r, rep = some r → NodeWF lvl r) ∧
      (∀ x ∈ orphs, NodeWF x.lvl x ∧ 1 ≤ x.lvl ∧ x.lvl ≤ lvl) := by
  obtain ⟨isLeaf, lvlf, es⟩ := n
  intro lvl rep orphs hdel hn
  rcases NodeWF_shape hn with ⟨hb, hlv, hlf, h0⟩ | ⟨hb, hlf, hlvl, hes⟩
  · subst hlv
    rw [hb, hlf] at hdel
    have heraseWF : ∀ i, NodeWF 1 (.mk true 1 (es.eraseIdx i)) :=
      fun i => NodeWF.leaf _ fun x hx => h0 x (List.mem_of_mem_eraseIdx hx)
    rcases hlast : lastIdxWithObj o es with _ | i
    · rw [delRec_leaf_none minB o 1 es hlast] at hdel
      cases hdel
    · rw [delRec_leaf_found minB o 1 es i hlast] at hdel
      split at hdel
      · rcases hdel with ⟨rfl, rfl⟩
        refine ⟨(by rintro r hr; cases hr), ?_⟩
        intro x hx
        split at hx
        · cases hx
        · rcases List.mem_singleton.1 hx with rfl
          exact ⟨heraseWF i, by simp [RNode.lvl]⟩
      · rcases hdel with ⟨rfl, rfl⟩
        refine ⟨?_, by rintro x hx; cases hx⟩
        rintro r hr
        injection hr with hr1
        subst hr1
        exact heraseWF i
  · rw [hb, ← hlf] at hdel
    rcases hscan : delEntries minB o es with _ | _ | ⟨i, rep0, orphs0⟩
    · rw [delRec.eq_def] at hdel
      dsimp only at hdel
      rw [hscan] at hdel
      cases hdel
    · rw [delRec.eq_def] at hdel
      dsimp only at hdel
      rw [hscan] at hdel
      cases hdel
    · obtain ⟨bb, c, ob, hilt, hget, hrec⟩ := delEntries_found minB o es i rep0 orphs0 hscan
      have hmem := getD_mem (default : REntry) hilt
      rw [hget] at hmem
      obtain ⟨hobm, cm, hcm, _, hcwf⟩ := hes _ hmem
      simp only [entryChild] at hcm
      rcases Option.some.inj hcm with rfl
      obtain ⟨ihrep, ihorph⟩ := delRec_nodeWF minB o c (lvl - 1) rep0 orphs0 hrec hcwf
      have heraseWF : NodeWF lvl (.mk false lvl (es.eraseIdx i)) :=
        NodeWF_node_ofEntries hlvl fun x hx => hes x (List.mem_of_mem_eraseIdx hx)
      rcases rep0 with _ | c1
      · rw [delRec_node_found_none minB o lvl es i orphs0 hscan] at hdel
        split at hdel
        · rcases hdel with ⟨rfl, rfl⟩
          refine ⟨(by rintro r hr; cases hr), ?_⟩
          intro x hx
          rcases List.mem_append.1 hx with hx1 | hx1
          · obtain ⟨hw, h1, h2⟩ := ihorph x hx1
            exact ⟨hw, h1, by omega⟩
          · split at hx1
            · cases hx1
            · rcases List.mem_singleton.1 hx1 with rfl
              refine ⟨?_, ?_, ?_⟩ <;> simp only [RNode.lvl]
              · exact heraseWF
              · omega
              · omega
        · rcases hdel with ⟨rfl, rfl⟩
          refine ⟨?_, ?_⟩
          · rintro r hr
            injection hr with hr1
            subst hr1
            exact heraseWF
          · intro x hx
            obtain ⟨hw, h1, h2⟩ := ihorph x hx
            exact ⟨hw, h1, by omega⟩
      · rw [delRec_node_found_some minB o lvl es i c1 orphs0 hscan] at hdel
        have hc1WF : NodeWF (lvl - 1) c1 := ihrep c1 rfl
        have hobnone : entryObj (es.getD i default) = none := by
          rw [hget]
          exact hobm
        have hsetWF : NodeWF lvl (.mk false lvl (es.set i (REntry.mk
            (computeBB c1.entries) (some c1) (entryObj (es.getD i default))))) := by
          refine NodeWF_node_ofEntries hlvl ?_
          intro x hx
          rcases List.mem_or_eq_of_mem_set hx with hx1 | rfl
          · exact hes x hx1
          · exact ⟨by rw [hobnone]; rfl, c1, rfl, rfl, hc1WF⟩
        split at hdel
        · rcases hdel with ⟨rfl, rfl⟩
          refine ⟨(by rintro r hr; cases hr), ?_⟩
          intro x hx
          rcases List.mem_append.1 hx with hx1 | hx1
          · obtain ⟨hw, h1, h2⟩ := ihorph x hx1
            exact ⟨hw, h1, by omega⟩
          · split at hx1
            · cases hx1
            · rcases List.mem_singleton.1 hx1 with rfl
              refine ⟨?_, ?_, ?_⟩ <;> simp only [RNode.lvl]
              · exact hsetWF
              · omega
              · omega
        · rcases hdel with ⟨rfl, rfl⟩
          refine ⟨?_, ?_⟩
          · rintro r hr
            injection hr with hr1
            subst hr1
            exact hsetWF
          · intro x hx
            obtain ⟨hw, h1, h2⟩ := ihorph x hx
            exact ⟨hw, h1, by omega⟩
termination_by sizeOf n
decreasing_by
  all_goals first
  | exact sizeOf_child_lt_node hmem rfl
  | exact sizeOf_child_lt_node (getD_mem default hilt) (by rw [hget]; rfl)

theorem RNode.lvl_mk (b : Bool) (l : ℕ) (es : List REntry) :
    (RNode.mk b l es).lvl = l := rfl

theorem RNode.isLeaf_mk (b : Bool) (l : ℕ) (es : List REntry) :
    (RNode.mk b l es).isLeaf = b := rfl

theorem RNode.entries_mk (b : Bool) (l : ℕ) (es : List REntry) :
    (RNode.mk b l es).entries = es := rfl

/-! ## Tree-level invariants -/

/-- The invariant every reachable tree keeps: recorded parameters, entry
consistency, exact size bookkeeping, and the `max_branch` ceiling. -/
def Inv (minB maxB : ℕ) (t : Rtree) : Prop :=
  t.minBranch = minB ∧ t.maxBranch = maxB ∧ NodeC t.root ∧
  t.size = (objsOfNode t.root).length ∧ nodeCountLE maxB t.root = true

/-- The stronger shape invariant, maintained while `Height` still equals
the root level (no single-child root promotion has happened). -/
def InvWF (t : Rtree) : Prop :=
  NodeWF t.root.lvl t.root ∧ t.height = t.root.lvl

/-- The `min_branch` floor on every non-root node. -/
def InvGE (minB : ℕ) (t : Rtree) : Prop :=
  entriesCountGE minB t.root.entries = true

theorem NodeWF_pos {lvl : ℕ} {n : RNode} (h : NodeWF lvl n) : 1 ≤ lvl := by
  cases h with
  | leaf es h => exact le_rfl
  | node lvl es hlvl _ _ _ _ => omega

theorem treeInsertAt_cases {t : Rtree} {e : REntry} {target : ℕ} {t1 : Rtree}
    (h : treeInsertAt t e target = some t1) :
    (∃ r, insertNode t.minBranch t.maxBranch e target t.root = some (r, none) ∧
       t1 = { t with root := r }) ∨
    (∃ r s, insertNode t.minBranch t.maxBranch e target t.root = some (r, some s) ∧
       t1 = { t with
         height := t.height + 1
         root := .mk false (t.height + 1)
           [.mk (computeBB r.entries) (some r) none,
            .mk (computeBB s.entries) (some s) none] }) := by
  unfold treeInsertAt at h
  rcases hri : insertNode t.minBranch t.maxBranch e target t.root with _ | ⟨r, _ | s⟩ <;>
    rw [hri] at h
  · cases h
  · exact Or.inl ⟨r, rfl, (Option.some.inj h).symm⟩
  · exact Or.inr ⟨r, s, rfl, (Option.some.inj h).symm⟩

theorem treeInsertAt_basic {minB maxB : ℕ} (hm2 : 2 ≤ minB) (hmb : 2 * minB ≤ maxB + 1)
    {t : Rtree} {e : REntry} {target : ℕ} {t1 : Rtree}
    (hmin : t.minBranch = minB) (hmax : t.maxBranch = maxB)
    (h : treeInsertAt t e target = some t1) :
    t1.minBranch = minB ∧ t1.maxBranch = maxB ∧ t1.size = t.size ∧
    (objsOfNode t1.root).length
      = (objsOfNode t.root).length + (objsOfEntry e).length := by
  rcases treeInsertAt_cases h with ⟨r, hri, rfl⟩ | ⟨r, s, hri, rfl⟩
  · rw [hmin, hmax] at hri
    have := insertNode_objs minB maxB hm2 hmb e target t.root r none hri
    simp only [spObjsLen] at this
    refine ⟨hmin, hmax, rfl, ?_⟩
    dsimp only
    omega
  · rw [hmin, hmax] at hri
    have := insertNode_objs minB maxB hm2 hmb e target t.root r (some s) hri
    simp only [spObjsLen] at this
    refine ⟨hmin, hmax, rfl, ?_⟩
    show (objsOfNode (RNode.mk false (t.height + 1)
      [.mk (computeBB r.entries) (some r) none,
       .mk (computeBB s.entries) (some s) none])).length = _
    rw [objsOfNode_node]
    show (objsOfEntries [REntry.mk (computeBB r.entries) (some r) none,
      REntry.mk (computeBB s.entries) (some s) none]).length = _
    simp only [objsOfEntries]
    have h1 : objsOfEntry (REntry.mk (computeBB r.entries) (some r) none)
        = objsOfNode r := rfl
    have h2 : objsOfEntry (REntry.mk (computeBB s.entries) (some s) none)
        = objsOfNode s := rfl
    rw [h1, h2]
    simp only [List.append_nil, List.length_append]
    omega

theorem treeInsertAt_nodeC {minB maxB : ℕ} (hm2 : 2 ≤ minB) (hmb : 2 * minB ≤ maxB + 1)
    {t : Rtree} {e : REntry} {target : ℕ} {t1 : Rtree}
    (hmin : t.minBranch = minB) (hmax : t.maxBranch = maxB)
    (h : treeInsertAt t e target = some t1)
    (heC : EntryC e) (hC : NodeC t.root) : NodeC t1.root := by
  rcases treeInsertAt_cases h with ⟨r, hri, rfl⟩ | ⟨r, s, hri, rfl⟩
  · rw [hmin, hmax] at hri
    exact (insertNode_nodeC minB maxB hm2 hmb e target t.root r none hri heC hC).1
  · rw [hmin, hmax] at hri
    obtain ⟨hrC, hsC⟩ := insertNode_nodeC minB maxB hm2 hmb e target t.root r (some s) hri heC hC
    have hsC1 : NodeC s := hsC s rfl
    dsimp only
    refine (NodeC_iff _ _ _).2 ?_
    intro x hx
    rcases List.mem_cons.1 hx with rfl | hx1
    · exact ⟨fun c hc => by
        simp only [entryChild] at hc
        rcases Option.some.inj hc with rfl
        exact ⟨rfl, rfl, hrC⟩,
        fun hh => by simp only [entryChild] at hh; cases hh⟩
    · rcases List.mem_singleton.1 hx1 with rfl
      exact ⟨fun c hc => by
        simp only [entryChild] at hc
        rcases Option.some.inj hc with rfl
        exact ⟨rfl, rfl, hsC1⟩,
        fun hh => by simp only [entryChild] at hh; cases hh⟩

theorem treeInsertAt_countLE {minB maxB : ℕ} (hm2 : 2 ≤ minB) (hmb : 2 * minB ≤ maxB + 1)
    {t : Rtree} {e : REntry} {target : ℕ} {t1 : Rtree}
    (hmin : t.minBranch = minB) (hmax : t.maxBranch = maxB)
    (h : treeInsertAt t e target = some t1)
    (heLE : ∀ c, entryChild e = some c → nodeCountLE maxB c = true)
    (hLE : nodeCountLE maxB t.root = true) : nodeCountLE maxB t1.root = true := by
  rcases treeInsertAt_cases h with ⟨r, hri, rfl⟩ | ⟨r, s, hri, rfl⟩
  · rw [hmin, hmax] at hri
    exact (insertNode_countLE minB maxB hm2 hmb e target t.root r none hri heLE hLE).1
  · rw [hmin, hmax] at hri
    obtain ⟨hrLE, hsLE⟩ :=
      insertNode_countLE minB maxB hm2 hmb e target t.root r (some s) hri heLE hLE
    have hsLE1 := hsLE s rfl
    dsimp only
    rw [nodeCountLE_node, Bool.and_eq_true, decide_eq_true_eq, entriesCountLE_iff]
    constructor
    · simp only [List.length_cons, List.length_nil]
      omega
    · intro x hx c hc
      rcases List.mem_cons.1 hx with rfl | hx1
      · simp only [entryChild] at hc
        rcases Option.some.inj hc with rfl
        exact hrLE
      · rcases List.mem_singleton.1 hx1 with rfl
        simp only [entryChild] at hc
        rcases Option.some.inj hc with rfl
        exact hsLE1

theorem treeInsertAt_countGE {minB maxB : ℕ} (hm2 : 2 ≤ minB) (hmb : 2 * minB ≤ maxB + 1)
    {t : Rtree} {e : REntry} {target : ℕ} {t1 : Rtree}
    (hmin : t.minBranch = minB) (hmax : t.maxBranch = maxB)
    (h : treeInsertAt t e target = some t1)
    (heGE : ∀ c, entryChild e = some c → nodeCountGE minB c = true)
    (hGE : entriesCountGE minB t.root.entries = true) :
    entriesCountGE minB t1.root.entries = true := by
  rcases treeInsertAt_cases h with ⟨r, hri, rfl⟩ | ⟨r, s, hri, rfl⟩
  · rw [hmin, hmax] at hri
    exact (insertNode_countGE minB maxB hm2 hmb e target t.root r none hri heGE hGE).1
  · rw [hmin, hmax] at hri
    obtain ⟨_, _, hsp⟩ :=
      insertNode_countGE minB maxB hm2 hmb e target t.root r (some s) hri heGE hGE
    obtain ⟨hsGE, hrGE⟩ := hsp s rfl
    show entriesCountGE minB [REntry.mk (computeBB r.entries) (some r) none,
      REntry.mk (computeBB s.entries) (some s) none] = true
    rw [entriesCountGE_iff]
    intro x hx c hc
    rcases List.mem_cons.1 hx with rfl | hx1
    · simp only [entryChild] at hc
      rcases Option.some.inj hc with rfl
      exact hrGE
    · rcases List.mem_singleton.1 hx1 with rfl
      simp only [entryChild] at hc
      rcases Option.some.inj hc with rfl
      exact hsGE

theorem treeInsertAt_nodeWF {minB maxB : ℕ} (hm2 : 2 ≤ minB) (hmb : 2 * minB ≤ maxB + 1)
    {t : Rtree} {e : REntry} {target : ℕ} {t1 : Rtree}
    (hmin : t.minBranch = minB) (hmax : t.maxBranch = maxB)
    (h : treeInsertAt t e target = some t1)
    (hWF : NodeWF t.root.lvl t.root) (halign : t.height = t.root.lvl)
    (heWF : EntryWFat target e) (h1t : 1 ≤ target) (hlt : target ≤ t.root.lvl) :
    NodeWF t1.root.lvl t1.root ∧ t1.height = t1.root.lvl ∧
      t.root.lvl ≤ t1.root.lvl := by
  rcases treeInsertAt_cases h with ⟨r, hri, rfl⟩ | ⟨r, s, hri, rfl⟩
  · rw [hmin, hmax] at hri
    obtain ⟨hl1, hl2, _⟩ :=
      insertNode_levels minB maxB hm2 hmb e target t.root r none hri
    obtain ⟨hrWF, _⟩ := insertNode_nodeWF minB maxB hm2 hmb e target t.root
      t.root.lvl r none hri hWF heWF h1t hlt
    show NodeWF r.lvl r ∧ t.height = r.lvl ∧ t.root.lvl ≤ r.lvl
    rw [hl2]
    exact ⟨hrWF, halign, le_rfl⟩
  · rw [hmin, hmax] at hri
    obtain ⟨hl1, hl2, hlsp⟩ :=
      insertNode_levels minB maxB hm2 hmb e target t.root r (some s) hri
    obtain ⟨hls1, hls2⟩ := hlsp s rfl
    obtain ⟨hrWF, hspWF⟩ := insertNode_nodeWF minB maxB hm2 hmb e target t.root
      t.root.lvl r (some s) hri hWF heWF h1t hlt
    have hsWF := hspWF s rfl
    have hpos : 1 ≤ t.root.lvl := NodeWF_pos hWF
    dsimp only
    simp only [RNode.lvl_mk]
    rw [halign]
    refine ⟨?_, trivial, by omega⟩
    refine NodeWF_node_ofEntries (by omega) ?_
    intro x hx
    rcases List.mem_cons.1 hx with rfl | hx1
    · refine ⟨rfl, r, rfl, rfl, ?_⟩
      simp only [Nat.add_sub_cancel]
      exact hrWF
    · rcases List.mem_singleton.1 hx1 with rfl
      refine ⟨rfl, s, rfl, rfl, ?_⟩
      simp only [Nat.add_sub_cancel]
      exact hsWF

theorem Insert_cases {t : Rtree} {o : Spatial} {t1 : Rtree}
    (h : t.Insert o = some t1) :
    ∃ t2, treeInsertAt t (.mk o.toRect none (some o)) 1 = some t2 ∧
      t1 = { t2 with size := t2.size + 1 } := by
  unfold Rtree.Insert at h
  rcases hti : treeInsertAt t (.mk o.toRect none (some o)) 1 with _ | t2 <;>
    rw [hti] at h
  · cases h
  · exact ⟨t2, rfl, (Option.some.inj h).symm⟩

theorem EntryC_leafEntry (o : Spatial) : EntryC (.mk o.toRect none (some o)) := by
  constructor
  · intro c hc
    simp only [entryChild] at hc
    cases hc
  · intro _
    exact ⟨o, rfl, rfl⟩

theorem Insert_inv {minB maxB : ℕ} (hm2 : 2 ≤ minB) (hmb : 2 * minB ≤ maxB + 1)
    {t : Rtree} {o : Spatial} {t1 : Rtree}
    (h : t.Insert o = some t1) (hI : Inv minB maxB t) : Inv minB maxB t1 := by
  obtain ⟨hmin, hmax, hC, hsz, hLE⟩ := hI
  obtain ⟨t2, hti, rfl⟩ := Insert_cases h
  obtain ⟨h1, h2, h3, h4⟩ := treeInsertAt_basic hm2 hmb hmin hmax hti
  have hC2 := treeInsertAt_nodeC hm2 hmb hmin hmax hti (EntryC_leafEntry o) hC
  have hLE2 := treeInsertAt_countLE hm2 hmb hmin hmax hti
    (by intro c hc; simp only [entryChild] at hc; cases hc) hLE
  have hobj : (objsOfEntry (REntry.mk o.toRect none (some o))).length = 1 := rfl
  exact ⟨h1, h2, hC2, by dsimp only; omega, hLE2⟩

theorem Insert_invWF {minB maxB : ℕ} (hm2 : 2 ≤ minB) (hmb : 2 * minB ≤ maxB + 1)
    {t : Rtree} {o : Spatial} {t1 : Rtree}
    (hmin : t.minBranch = minB) (hmax : t.maxBranch = maxB)
    (h : t.Insert o = some t1) (hW : InvWF t) : InvWF t1 := by
  obtain ⟨hWF, halign⟩ := hW
  obtain ⟨t2, hti, rfl⟩ := Insert_cases h
  have heWF : EntryWFat 1 (.mk o.toRect none (some o)) := by
    rw [EntryWFat, if_pos rfl]
    exact ⟨rfl, o, rfl, rfl⟩
  obtain ⟨h1, h2, _⟩ := treeInsertAt_nodeWF hm2 hmb hmin hmax hti hWF halign heWF
    le_rfl (NodeWF_pos hWF)
  exact ⟨h1, h2⟩

theorem Insert_invGE {minB maxB : ℕ} (hm2 : 2 ≤ minB) (hmb : 2 * minB ≤ maxB + 1)
    {t : Rtree} {o : Spatial} {t1 : Rtree}
    (hmin : t.minBranch = minB) (hmax : t.maxBranch = maxB)
    (h : t.Insert o = some t1) (hG : InvGE minB t) : InvGE minB t1 := by
  obtain ⟨t2, hti, rfl⟩ := Insert_cases h
  have hres := treeInsertAt_countGE hm2 hmb hmin hmax hti
    (by intro c hc; simp only [entryChild] at hc; cases hc) hG
  exact hres

theorem EntryC_orphEntry {n : RNode} (hC : NodeC n) :
    EntryC (.mk (computeBB n.entries) (some n) none) := by
  constructor
  · intro c hc
    simp only [entryChild] at hc
    rcases Option.some.inj hc with rfl
    exact ⟨rfl, rfl, hC⟩
  · intro hh
    simp only [entryChild] at hh
    cases hh

theorem reinsertAll_inv {minB maxB : ℕ} (hm2 : 2 ≤ minB) (hmb : 2 * minB ≤ maxB + 1) :
    ∀ (os : List RNode) (t t2 : Rtree),
      reinsertAll t os = some t2 →
      t.minBranch = minB → t.maxBranch = maxB →
      (∀ x ∈ os, NodeC x) → NodeC t.root →
      (∀ x ∈ os, nodeCountLE maxB x = true) → nodeCountLE maxB t.root = true →
      t2.minBranch = minB ∧ t2.maxBranch = maxB ∧ t2.size = t.size ∧
      (objsOfNode t2.root).length = (objsOfNode t.root).length + orphObjsLen os ∧
      NodeC t2.root ∧ nodeCountLE maxB t2.root = true := by
  intro os
  induction os with
  | nil =>
    intro t t2 h hmin hmax _ hC _ hLE
    simp only [reinsertAll] at h
    rcases Option.some.inj h with rfl
    exact ⟨hmin, hmax, rfl, by simp [orphObjsLen], hC, hLE⟩
  | cons n ns ih =>
    intro t t2 h hmin hmax hosC hC hosLE hLE
    simp only [reinsertAll] at h
    rcases hti : treeInsertAt t (.mk (computeBB n.entries) (some n) none) (n.lvl + 1)
      with _ | tm <;> rw [hti] at h
    · cases h
    · have hnC : NodeC n := hosC n (List.mem_cons_self _ _)
      have hnLE : nodeCountLE maxB n = true := hosLE n (List.mem_cons_self _ _)
      obtain ⟨h1, h2, h3, h4⟩ := treeInsertAt_basic hm2 hmb hmin hmax hti
      have hCm := treeInsertAt_nodeC hm2 hmb hmin hmax hti (EntryC_orphEntry hnC) hC
      have hLEm := treeInsertAt_countLE hm2 hmb hmin hmax hti
        (by intro c hc
            simp only [entryChild] at hc
            rcases Option.some.inj hc with rfl
            exact hnLE) hLE
      obtain ⟨g1, g2, g3, g4, g5, g6⟩ := ih tm t2 h h1 h2
        (fun x hx => hosC x (List.mem_cons_of_mem _ hx)) hCm
        (fun x hx => hosLE x (List.mem_cons_of_mem _ hx)) hLEm
      have hobj : (objsOfEntry (REntry.mk (computeBB n.entries) (some n) none)).length
          = (objsOfNode n).length := rfl
      refine ⟨g1, g2, by omega, ?_, g5, g6⟩
      rw [g4, h4, hobj]
      simp only [orphObjsLen]
      omega

theorem reinsertAll_invWF {minB maxB : ℕ} (hm2 : 2 ≤ minB) (hmb : 2 * minB ≤ maxB + 1) :
    ∀ (os : List RNode) (t t2 : Rtree),
      reinsertAll t os = some t2 →
      t.minBranch = minB → t.maxBranch = maxB →
      (∀ x ∈ os, NodeWF x.lvl x ∧ 1 ≤ x.lvl ∧ x.lvl + 1 ≤ t.root.lvl) →
      NodeWF t.root.lvl t.root → t.height = t.root.lvl →
      NodeWF t2.root.lvl t2.root ∧ t2.height = t2.root.lvl ∧
        t.root.lvl ≤ t2.root.lvl := by
  intro os
  induction os with
  | nil =>
    intro t t2 h hmin hmax _ hWF halign
    simp only [reinsertAll] at h
    rcases Option.some.inj h with rfl
    exact ⟨hWF, halign, le_rfl⟩
  | cons n ns ih =>
    intro t t2 h hmin hmax hos hWF halign
    simp only [reinsertAll] at h
    rcases hti : treeInsertAt t (.mk (computeBB n.entries) (some n) none) (n.lvl + 1)
      with _ | tm <;> rw [hti] at h
    · cases h
    · obtain ⟨hnWF, hn1, hnle⟩ := hos n (List.mem_cons_self _ _)
      obtain ⟨h1, h2, _, _⟩ := treeInsertAt_basic hm2 hmb hmin hmax hti
      have heWF : EntryWFat (n.lvl + 1) (.mk (computeBB n.entries) (some n) none) := by
        rw [EntryWFat, if_neg (by omega)]
        exact ⟨rfl, n, rfl, rfl, by simpa [Nat.add_sub_cancel] using hnWF⟩
      obtain ⟨w1, w2, w3⟩ := treeInsertAt_nodeWF hm2 hmb hmin hmax hti hWF halign heWF
        (by omega) hnle
      obtain ⟨g1, g2, g3⟩ := ih tm t2 h h1 h2
        (fun x hx => by
          obtain ⟨a1, a2, a3⟩ := hos x (List.mem_cons_of_mem _ hx)
          exact ⟨a1, a2, le_trans a3 w3⟩) w1 w2
      exact ⟨g1, g2, le_trans w3 g3⟩

theorem Delete_inv {minB maxB : ℕ} (hm2 : 2 ≤ minB) (hmb : 2 * minB ≤ maxB + 1)
    {t : Rtree} {o : Spatial} {p : Rtree × Bool}
    (h : t.Delete o = some p) (hI : Inv minB maxB t) : Inv minB maxB p.1 := by
  obtain ⟨hmin, hmax, hC, hsz, hLE⟩ := hI
  unfold Rtree.Delete at h
  rcases ht : t.root with ⟨isLeaf, lvl, es⟩
  rw [ht] at h
  cases isLeaf with
  | true =>
    dsimp only at h
    rcases hlast : lastIdxWithObj o es with _ | i <;> rw [hlast] at h
    · rcases Option.some.inj h with rfl
      exact ⟨hmin, hmax, hC, hsz, hLE⟩
    · rcases Option.some.inj h with rfl
      rw [ht] at hC hsz hLE
      rw [objsOfNode_node] at hsz
      rw [nodeCountLE_node, Bool.and_eq_true, decide_eq_true_eq, entriesCountLE_iff] at hLE
      obtain ⟨hlen, hents⟩ := hLE
      have hCents := (NodeC_iff _ _ _).1 hC
      obtain ⟨hilt, hiobj⟩ := lastIdxWithObj_some hlast
      have hone : objsOfEntry (es.getD i default) = [o] := by
        rcases hch : entryChild (es.getD i default) with _ | c
        · exact objsOfEntry_leaf hch hiobj
        · obtain ⟨hobn, _, _⟩ := (hCents _ (getD_mem default hilt)).1 c hch
          rw [hobn] at hiobj
          cases hiobj
      have herase := objsOfEntries_eraseIdx hilt
      rw [hone] at herase
      simp only [List.length_singleton] at herase
      refine ⟨hmin, hmax, ?_, ?_, ?_⟩
      · exact (NodeC_iff _ _ _).2 fun x hx => hCents x (List.mem_of_mem_eraseIdx hx)
      · dsimp only
        rw [objsOfNode_node]
        omega
      · dsimp only
        rw [nodeCountLE_node, Bool.and_eq_true, decide_eq_true_eq, entriesCountLE_iff]
        exact ⟨le_trans (List.length_eraseIdx_le _ _) hlen,
          fun x hx => hents x (List.mem_of_mem_eraseIdx hx)⟩
  | false =>
    dsimp only at h
    rw [hmin] at h
    rcases hscan : delEntries minB o es with _ | _ | ⟨i, rep, orphs⟩ <;> rw [hscan] at h
    · rcases Option.some.inj h with rfl
      exact ⟨hmin, hmax, hC, hsz, hLE⟩
    · cases h
    · dsimp only at h
      rw [ht] at hC hsz hLE
      rw [objsOfNode_node] at hsz
      rw [nodeCountLE_node, Bool.and_eq_true, decide_eq_true_eq, entriesCountLE_iff] at hLE
      obtain ⟨hlen, hents⟩ := hLE
      have hCents := (NodeC_iff _ _ _).1 hC
      obtain ⟨bb, c, ob, hilt, hget, hrec⟩ := delEntries_found minB o es i rep orphs hscan
      have hmem := getD_mem (default : REntry) hilt
      rw [hget] at hmem
      obtain ⟨hobn, _, hcC⟩ := (hCents _ hmem).1 c rfl
      simp only [entryObj] at hobn
      have hcLE : nodeCountLE maxB c = true := hents _ hmem c rfl
      obtain ⟨iheq, ihrep, ihorph⟩ := delRec_objsC minB o c rep orphs hrec hcC
      obtain ⟨ihrepLE, ihorphLE⟩ := delRec_countLE minB maxB o c rep orphs hrec hcLE
      have hcobj : objsOfEntry (es.getD i default) = objsOfNode c := by
        rw [hget]
        rfl
      generalize hges : (match rep with
        | some c1 => es.set i (REntry.mk (computeBB c1.entries) (some c1)
            (entryObj (es.getD i default)))
        | none => es.eraseIdx i) = es1 at h
      have hFacts : NodeC (.mk false lvl es1) ∧
          nodeCountLE maxB (.mk false lvl es1) = true ∧
          (objsOfEntries es1).length + (objsOfNode c).length
            = (objsOfEntries es).length + spObjsLen rep := by
        rcases rep with _ | c1
        · rcases hges with rfl
          have herase := objsOfEntries_eraseIdx hilt
          rw [hcobj] at herase
          refine ⟨?_, ?_, ?_⟩
          · exact (NodeC_iff _ _ _).2 fun x hx => hCents x (List.mem_of_mem_eraseIdx hx)
          · rw [nodeCountLE_node, Bool.and_eq_true, decide_eq_true_eq, entriesCountLE_iff]
            exact ⟨le_trans (List.length_eraseIdx_le _ _) hlen,
              fun x hx => hents x (List.mem_of_mem_eraseIdx hx)⟩
          · simp only [spObjsLen]
            omega
        · rcases hges with rfl
          have hc1C : NodeC c1 := ihrep c1 rfl
          have hc1LE : nodeCountLE maxB c1 = true := ihrepLE c1 rfl
          have hsetlen := objsOfEntries_set es i
            (REntry.mk (computeBB c1.entries) (some c1) (entryObj (es.getD i default))) hilt
          rw [hcobj] at hsetlen
          have hnewobj : objsOfEntry (REntry.mk (computeBB c1.entries) (some c1)
              (entryObj (es.getD i default))) = objsOfNode c1 := rfl
          rw [hnewobj] at hsetlen
          refine ⟨?_, ?_, ?_⟩
          · refine (NodeC_iff _ _ _).2 ?_
            intro x hx
            rcases List.mem_or_eq_of_mem_set hx with hx1 | rfl
            · exact hCents x hx1
            · constructor
              · intro c2 hc2
                simp only [entryChild] at hc2
                rcases Option.some.inj hc2 with rfl
                refine ⟨?_, rfl, hc1C⟩
                rw [hget]
                exact hobn
              · intro hh
                simp only [entryChild] at hh
                cases hh
          · rw [nodeCountLE_node, Bool.and_eq_true, decide_eq_true_eq, entriesCountLE_iff]
            refine ⟨by rw [List.length_set]; exact hlen, ?_⟩
            intro x hx c2 hc2
            rcases List.mem_or_eq_of_mem_set hx with hx1 | rfl
            · exact hents x hx1 c2 hc2
            · simp only [entryChild] at hc2
              rcases Option.some.inj hc2 with rfl
              exact hc1LE
          · simp only [spObjsLen]
            omega
      obtain ⟨hF1, hF2, hF3⟩ := hFacts
      rcases hre : (reinsertAll
          { minBranch := minB, maxBranch := t.maxBranch, root := RNode.mk false lvl es1,
            size := t.size, height := t.height }
          orphs)
        with _ | t2 <;> rw [hre] at h
      · cases h
      · obtain ⟨g1, g2, g3, g4, g5, g6⟩ := reinsertAll_inv hm2 hmb orphs
          { minBranch := minB, maxBranch := t.maxBranch,
            root := RNode.mk false lvl es1, size := t.size, height := t.height }
          t2 hre rfl hmax ihorph hF1 ihorphLE hF2
        dsimp only at g3 g4
        rw [objsOfNode_node] at g4
        have hsize2 : (objsOfNode t2.root).length + 1 = (objsOfEntries es).length := by
          omega
        have hfinal : Inv minB maxB { t2 with size := t2.size - 1 } := by
          refine ⟨g1, g2, g5, ?_, g6⟩
          dsimp only
          omega
        dsimp only at h
        rcases ht2 : t2.root with ⟨b3, l3, es3⟩
        rw [ht2] at h
        have hfinal2 : ∀ q : Rtree × Bool,
            q = ({ t2 with root := RNode.mk b3 l3 es3, size := t2.size - 1 }, true) →
            Inv minB maxB q.1 := by
          rintro q rfl
          rw [← ht2]
          exact hfinal
        cases b3 with
        | true =>
          dsimp only at h
          exact hfinal2 p (Option.some.inj h).symm
        | false =>
          match es3, h with
          | [], h =>
            dsimp only at h
            exact hfinal2 p (Option.some.inj h).symm
          | e1 :: e2 :: es4, h =>
            dsimp only at h
            exact hfinal2 p (Option.some.inj h).symm
          | [e1], h =>
            dsimp only at h
            rcases hch : entryChild e1 with _ | c0 <;> rw [hch] at h
            · cases h
            · rcases Option.some.inj h with rfl
              dsimp only
              rw [ht2] at g5 g6 hsize2
              have hc0C : NodeC c0 :=
                ((((NodeC_iff _ _ _).1 g5) e1 (List.mem_singleton.2 rfl)).1 c0 hch).2.2
              have hc0LE : nodeCountLE maxB c0 = true := by
                rw [nodeCountLE_node, Bool.and_eq_true, decide_eq_true_eq,
                  entriesCountLE_iff] at g6
                exact g6.2 e1 (List.mem_singleton.2 rfl) c0 hch
              have hc0objs : objsOfNode c0 = objsOfEntries [e1] := by
                simp only [objsOfEntries, List.append_nil]
                rw [objsOfEntry_child hch]
              refine ⟨g1, g2, hc0C, ?_, hc0LE⟩
              rw [objsOfNode_node] at hsize2
              rw [hc0objs]
              dsimp only
              omega

/-! ## Reachable tree states -/

/-- Trees reachable from `NewTree minB maxB` by successful `Insert` and
`Delete` calls. -/
inductive Reachable (minB maxB : ℕ) : Rtree → Prop where
  | base : Reachable minB maxB (NewTree minB maxB)
  | ins {t : Rtree} {o : Spatial} {t1 : Rtree} :
      Reachable minB maxB t → t.Insert o = some t1 → Reachable minB maxB t1
  | del {t : Rtree} {o : Spatial} {p : Rtree × Bool} :
      Reachable minB maxB t → t.Delete o = some p → Reachable minB maxB p.1

/-- Trees reachable from `NewTree minB maxB` by `Insert` alone. -/
inductive ReachableI (minB maxB : ℕ) : Rtree → Prop where
  | base : ReachableI minB maxB (NewTree minB maxB)
  | ins {t : Rtree} {o : Spatial} {t1 : Rtree} :
      ReachableI minB maxB t → t.Insert o = some t1 → ReachableI minB maxB t1

theorem NewTree_inv (minB maxB : ℕ) : Inv minB maxB (NewTree minB maxB) := by
  refine ⟨rfl, rfl, ?_, rfl, ?_⟩
  · exact (NodeC_iff _ _ _).2 (by intro x hx; cases hx)
  · rw [NewTree]
    dsimp only
    rw [nodeCountLE_node, Bool.and_eq_true, decide_eq_true_eq, entriesCountLE_iff]
    exact ⟨Nat.zero_le _, by intro x hx; cases hx⟩

theorem reachable_inv {minB maxB : ℕ} (hm2 : 2 ≤ minB) (hmb : 2 * minB ≤ maxB + 1)
    {t : Rtree} (h : Reachable minB maxB t) : Inv minB maxB t := by
  induction h with
  | base => exact NewTree_inv minB maxB
  | ins _ hins ih => exact Insert_inv hm2 hmb hins ih
  | del _ hdel ih => exact Delete_inv hm2 hmb hdel ih

theorem reachableI_reachable {minB maxB : ℕ} {t : Rtree}
    (h : ReachableI minB maxB t) : Reachable minB maxB t := by
  induction h with
  | base => exact .base
  | ins _ hins ih => exact .ins ih hins

theorem reachableI_ge {minB maxB : ℕ} (hm2 : 2 ≤ minB) (hmb : 2 * minB ≤ maxB + 1)
    {t : Rtree} (h : ReachableI minB maxB t) : InvGE minB t := by
  induction h with
  | base => exact rfl
  | ins hr hins ih =>
    obtain ⟨hmin, hmax, _, _, _⟩ := reachable_inv hm2 hmb (reachableI_reachable hr)
    exact Insert_invGE hm2 hmb hmin hmax hins ih

/-! ## Shortest-path companion (graph package, dijkstra.go)

Nodes are identified with their `ID`, which `AddNode` assigns as the
position in the node list; an edge records its endpoints' ids and its
weight.  Only the fields that `Dijkstra` reads are modelled.  The
`container/heap` queue is again modelled by its contract (`pqPop`). -/

/-- Go `Edge`: source, destination and weight. -/
structure GEdge where
  src : ℕ
  dst : ℕ
  weight : ℚ
deriving DecidableEq, Repr

/-- Go `Node`: coordinates and outgoing/incoming edge lists; the `ID` is
the node's position in the graph's node list. -/
structure GNode where
  x : ℚ := 0
  y : ℚ := 0
  edgeStart : List GEdge := []
  edgeEnd : List GEdge := []
deriving DecidableEq, Repr, Inhabited

/-- Go `DirectedGraph`: the node list. -/
structure DirectedGraph where
  nodes : List GNode
deriving DecidableEq, Repr

/-- Outgoing edges of node `a`, Go `g.Nodes[a].EdgeStart`. -/
def gOutEdges (g : DirectedGraph) (a : ℕ) : List GEdge :=
  (g.nodes.getD a default).edgeStart

/-- One directed step: some outgoing edge of `a` ends in `b`. -/
def GAdj (g : DirectedGraph) (a b : ℕ) : Prop :=
  ∃ e ∈ gOutEdges g a, e.dst = b

/-- Reachability along directed edges. -/
def GReaches (g : DirectedGraph) : ℕ → ℕ → Prop :=
  Relation.ReflTransGen (GAdj g)

/-- Go map read: first binding of the key (updates are prepended). -/
def alookup (m : List (ℕ × α)) (k : ℕ) : Option α :=
  (m.find? fun p => p.1 == k).map Prod.snd

/-- Go map write: prepend the new binding. -/
def aupd (m : List (ℕ × α)) (k : ℕ) (x : α) : List (ℕ × α) :=
  (k, x) :: m

/-- Go `distanceNode` as `Dijkstra` uses it: a node id and its tentative
distance. -/
structure DNode where
  node : ℕ
  dist : ℚ
deriving DecidableEq, Repr

/-- State of the `Dijkstra` loop: the tentative-distance map, the
predecessor map, the queue, the last popped item and whether the loop
`break` fired. -/
structure DState where
  forwardDist : List (ℕ × ℚ)
  next : List (ℕ × ℕ)
  Q : List DNode
  mid : Option DNode
  done : Bool
deriving DecidableEq, Repr

/-- Initial `Dijkstra` state: distance 0 for `u`, queue holding `u`. -/
def dijkstraInit (u : ℕ) : DState :=
  { forwardDist := [(u, 0)], next := [], Q := [⟨u, 0⟩], mid := none, done := false }

/-- Relaxation of one outgoing edge of the popped node `mn`: push and
record when the node is new or strictly improved (`!ok || acc_dist <
dist` in the source). -/
def relaxEdge (mn : ℕ) (st : DState) (e : GEdge) : DState :=
  let accDist := (alookup st.forwardDist mn).getD 0 + e.weight
  let old := alookup st.forwardDist e.dst
  if old = none ∨ accDist < old.getD 0 then
    { st with
      Q := st.Q ++ [⟨e.dst, accDist⟩]
      forwardDist := aupd st.forwardDist e.dst accDist
      next := aupd st.next e.dst mn }
  else st

/-- One iteration of the `Dijkstra` loop: `none` when the loop exits
(empty queue, or the target was already popped). -/
def dijkstraStep (g : DirectedGraph) (v : ℕ) (s : DState) : Option DState :=
  if s.done then none
  else
    match pqPop (fun d => d.dist) s.Q with
    | none => none
    | some (m, Q1) =>
      if m.node = v then some { s with Q := Q1, mid := some m, done := true }
      else
        some ((gOutEdges g m.node).foldl (relaxEdge m.node)
          { s with Q := Q1, mid := some m })

/-- A terminated execution of the loop from the initial state. -/
def DRun (g : DirectedGraph) (u v : ℕ) (final : DState) : Prop :=
  Relation.ReflTransGen (fun a b => dijkstraStep g v a = some b) (dijkstraInit u) final ∧
    dijkstraStep g v final = none

/-- Go path reconstruction `for n != u { n = next[n]; ... }`, bounded by a
step budget (the source loop terminates only on well-formed predecessor
maps; the budget covers every simple path). -/
def buildPath (nxt : List (ℕ × ℕ)) (u : ℕ) : ℕ → ℕ → List ℕ → List ℕ
  | 0, _, acc => acc
  | fuel + 1, n, acc =>
    if n = u then acc
    else buildPath nxt u fuel ((alookup nxt n).getD 0) (acc ++ [(alookup nxt n).getD 0])

/-- Code after the `Dijkstra` loop: `(nil, +∞)` when no popped node was
the target, otherwise the reconstructed path (reversed) and
`forwardDist[v]`. -/
def dijkstraResult (g : DirectedGraph) (u v : ℕ) (s : DState) : List ℕ × WithTop ℚ :=
  match s.mid with
  | none => ([], ⊤)
  | some m =>
    if m.node = v then
      ((buildPath s.next u (g.nodes.length + 1) v [v]).reverse,
        (((alookup s.forwardDist v).getD 0 : ℚ) : WithTop ℚ))
    else ([], ⊤)

/-- Everything the unreachability argument needs about a state: queue
members and the last popped node are reachable from `u`, and the `break`
can only have fired on the target. -/
def DInv (g : DirectedGraph) (u v : ℕ) (s : DState) : Prop :=
  (∀ d ∈ s.Q, GReaches g u d.node) ∧
    (∀ m, s.mid = some m → GReaches g u m.node) ∧
    (s.done = true → ∃ m, s.mid = some m ∧ m.node = v)

theorem relaxEdge_mid (mn : ℕ) (st : DState) (e : GEdge) :
    (relaxEdge mn st e).mid = st.mid := by
  unfold relaxEdge
  dsimp only
  split <;> rfl

theorem relaxEdge_done (mn : ℕ) (st : DState) (e : GEdge) :
    (relaxEdge mn st e).done = st.done := by
  unfold relaxEdge
  dsimp only
  split <;> rfl

theorem relaxEdge_Q (mn : ℕ) (st : DState) (e : GEdge) :
    ∀ d ∈ (relaxEdge mn st e).Q, d ∈ st.Q ∨ d.node = e.dst := by
  unfold relaxEdge
  dsimp only
  split
  · intro d hd
    simp only [List.mem_append, List.mem_singleton] at hd
    rcases hd with hd | hd
    · exact Or.inl hd
    · right
      rw [hd]
  · intro d hd
    exact Or.inl hd

theorem relaxFold_spec (mn : ℕ) (es : List GEdge) :
    ∀ st : DState,
      (es.foldl (relaxEdge mn) st).mid = st.mid ∧
      (es.foldl (relaxEdge mn) st).done = st.done ∧
      (∀ d ∈ (es.foldl (relaxEdge mn) st).Q,
        d ∈ st.Q ∨ ∃ e ∈ es, d.node = e.dst) := by
  induction es with
  | nil =>
    intro st
    exact ⟨rfl, rfl, fun d hd => Or.inl hd⟩
  | cons e es ih =>
    intro st
    rw [List.foldl_cons]
    obtain ⟨h1, h2, h3⟩ := ih (relaxEdge mn st e)
    refine ⟨h1.trans (relaxEdge_mid mn st e), h2.trans (relaxEdge_done mn st e), ?_⟩
    intro d hd
    rcases h3 d hd with hd1 | ⟨e1, he1, hde⟩
    · rcases relaxEdge_Q mn st e d hd1 with hd2 | hd2
      · exact Or.inl hd2
      · exact Or.inr ⟨e, List.mem_cons_self e es, hd2⟩
    · exact Or.inr ⟨e1, List.mem_cons_of_mem e he1, hde⟩

theorem dijkstraStep_inv (g : DirectedGraph) (u v : ℕ) (s s1 : DState)
    (hinv : DInv g u v s) (hstep : dijkstraStep g v s = some s1) :
    DInv g u v s1 := by
  obtain ⟨hQ, hmid, hdone⟩ := hinv
  unfold dijkstraStep at hstep
  split at hstep
  · exact Option.noConfusion hstep
  · rename_i hnotdone
    split at hstep
    · exact Option.noConfusion hstep
    · rename_i p m Q1 hpop
      have hperm := pqPop_perm (fun d => d.dist) s.Q m Q1 hpop
      have hmQ : m ∈ s.Q := (hperm.mem_iff).2 (List.mem_cons_self m Q1)
      have hQ1 : ∀ d ∈ Q1, GReaches g u d.node := fun d hd =>
        hQ d ((hperm.mem_iff).2 (List.mem_cons_of_mem m hd))
      have hmReach : GReaches g u m.node := hQ m hmQ
      split at hstep
      · rename_i hmv
        simp only [Option.some.injEq] at hstep
        subst hstep
        refine ⟨hQ1, ?_, fun _ => ⟨m, rfl, hmv⟩⟩
        intro m1 hm1
        simp only [Option.some.injEq] at hm1
        rw [← hm1]
        exact hmReach
      · rename_i hmv
        simp only [Option.some.injEq] at hstep
        subst hstep
        obtain ⟨h1, h2, h3⟩ := relaxFold_spec m.node (gOutEdges g m.node)
          { s with Q := Q1, mid := some m }
        refine ⟨?_, ?_, ?_⟩
        · intro d hd
          rcases h3 d hd with hd1 | ⟨e, he, hde⟩
          · exact hQ1 d hd1
          · rw [hde]
            exact Relation.ReflTransGen.tail hmReach ⟨e, he, rfl⟩
        · intro m1 hm1
          rw [h1] at hm1
          simp only [Option.some.injEq] at hm1
          rw [← hm1]
          exact hmReach
        · intro hd
          rw [h2] at hd
          simp only at hd
          exact absurd hd (by simp [hnotdone])

theorem dijkstraRun_inv (g : DirectedGraph) (u v : ℕ) (final : DState)
    (hrun : Relation.ReflTransGen (fun a b => dijkstraStep g v a = some b)
      (dijkstraInit u) final) :
    DInv g u v final := by
  induction hrun with
  | refl =>
    refine ⟨?_, ?_, ?_⟩
    · intro d hd
      simp only [dijkstraInit, List.mem_singleton] at hd
      rw [hd]
      exact Relation.ReflTransGen.refl
    · intro m hm
      simp [dijkstraInit] at hm
    · intro hd
      simp [dijkstraInit] at hd
  | tail hab hbc ih =>
    exact dijkstraStep_inv g u v _ _ ih hbc

/-- C9: in every directed graph with non-negative edge weights, for nodes
`u`, `v` with `v` not reachable from `u`, every terminated run of the
`Dijkstra` loop returns the empty path and distance `+∞`. -/
theorem C9_dijkstra_unreachable (g : DirectedGraph) (u v : ℕ)
    (hu : u < g.nodes.length) (hv : v < g.nodes.length)
    (hw : ∀ n ∈ g.nodes, ∀ e ∈ n.edgeStart, 0 ≤ e.weight)
    (hunreach : ¬ GReaches g u v)
    (final : DState) (hrun : DRun g u v final) :
    dijkstraResult g u v final = ([], ⊤) := by
  obtain ⟨hsteps, hterm⟩ := hrun
  obtain ⟨hQ, hmid, hdone⟩ := dijkstraRun_inv g u v final hsteps
  rcases hfin : final.mid with _ | m
  · unfold dijkstraResult
    rw [hfin]
  · have hm := hmid m hfin
    have hne : ¬ m.node = v := fun h => hunreach (h ▸ hm)
    unfold dijkstraResult
    rw [hfin]
    simp only [if_neg hne]

/-- A node with no edges. -/
def emptyGNode : GNode := {}

/-- Two isolated nodes: the witness graph for `C9_dijkstra_unreachable`. -/
def g2 : DirectedGraph := ⟨[emptyGNode, emptyGNode]⟩

/-- The state of the `g2` run after its single loop iteration: node 0
popped, no edges to relax, queue empty. -/
def g2final : DState :=
  { forwardDist := [(0, 0)], next := [], Q := [], mid := some ⟨0, 0⟩, done := false }

theorem g2_no_step (w : ℕ) (hw : GReaches g2 0 w) : w = 0 := by
  induction hw with
  | refl => rfl
  | tail hab hbc ih =>
    obtain ⟨e, he, hde⟩ := hbc
    rw [ih] at he
    simp [gOutEdges, g2, emptyGNode] at he

theorem C9_dijkstra_unreachable_witness :
    dijkstraResult g2 0 1 g2final = ([], ⊤) :=
  C9_dijkstra_unreachable g2 0 1 (by decide) (by decide)
    (by
      intro n hn e he
      simp only [g2, List.mem_cons] at hn
      rcases hn with rfl | hn
      · simp [emptyGNode] at he
      · rcases hn with rfl | hn
        · simp [emptyGNode] at he
        · simp at hn)
    (fun h => absurd (g2_no_step 1 h) (by decide))
    g2final
    ⟨Relation.ReflTransGen.single (by rfl), by rfl⟩

/-! ## Concrete evaluation steps

Each public operation of the scenarios is evaluated once on an explicit
tree value, so that the operation chains rewrite step by step. -/

set_option maxHeartbeats 2000000

/-- Leaf entry wrapping object `o`, as `Insert` builds it. -/
def leafE (o : Spatial) : REntry := .mk o.toRect none (some o)

/-- S1 after one insertion. -/
def t1lit : Rtree := ⟨2, 4, .mk true 1 [leafE (sp 1 0 0)], 1, 1⟩

/-- S1 after two insertions. -/
def t2lit : Rtree := ⟨2, 4, .mk true 1 [leafE (sp 1 0 0), leafE (sp 2 10 10)], 2, 1⟩

/-- S1 after three insertions. -/
def t3lit : Rtree := ⟨2, 4,
  .mk true 1 [leafE (sp 1 0 0), leafE (sp 2 10 10), leafE (sp 3 5 5)], 3, 1⟩

/-- S1 after four insertions. -/
def t4lit : Rtree := ⟨2, 4,
  .mk true 1 [leafE (sp 1 0 0), leafE (sp 2 10 10), leafE (sp 3 5 5),
    leafE (sp 4 7 3)], 4, 1⟩

/-- Left half of the S1 root split. -/
def nA : RNode := .mk true 1 [leafE (sp 1 0 0), leafE (sp 5 2 8)]

/-- Right half of the S1 root split. -/
def nB : RNode := .mk true 1 [leafE (sp 2 10 10), leafE (sp 3 5 5), leafE (sp 4 7 3)]

/-- S1 after all five insertions: the fifth overflows the leaf root, which
splits into `nA` and `nB` under a new internal root. -/
def t5lit : Rtree := ⟨2, 4, .mk false 2
  [.mk (computeBB nA.entries) (some nA) none,
   .mk (computeBB nB.entries) (some nB) none], 5, 2⟩

/-- The one-entry leaf orphaned by deleting `(0,0)` out of `nA`. -/
def d1A : RNode := .mk true 1 [leafE (sp 5 2 8)]

/-- `t5lit` after deleting `(0,0)`: `nA` underflows, is removed from the
root and reinserted whole as the root's second child. -/
def c3lit : Rtree := ⟨2, 4, .mk false 2
  [.mk (computeBB nB.entries) (some nB) none,
   .mk (computeBB d1A.entries) (some d1A) none], 4, 2⟩

/-- `c3lit` after deleting `(2,8)`: the orphan leaf empties and is removed,
the single-child root promotes `nB`, and `Height` keeps the value 2. -/
def c5lit : Rtree := ⟨2, 4, nB, 3, 2⟩

theorem insert_step1 : (NewTree 2 4).Insert (sp 1 0 0) = some t1lit := rfl

theorem insert_step2 : t1lit.Insert (sp 2 10 10) = some t2lit := rfl

theorem insert_step3 : t2lit.Insert (sp 3 5 5) = some t3lit := rfl

theorem insert_step4 : t3lit.Insert (sp 4 7 3) = some t4lit := rfl

theorem insert_step5 : t4lit.Insert (sp 5 2 8) = some t5lit := rfl

theorem delete_step1 : t5lit.Delete (sp 1 0 0) = some (c3lit, true) := rfl

theorem delete_step2 : c3lit.Delete (sp 5 2 8) = some (c5lit, true) := rfl

theorem s1tree_eval : s1tree = some t5lit := by
  simp only [s1tree, insertList, s1pts, List.foldl_cons, List.foldl_nil,
    Option.some_bind, insert_step1, insert_step2, insert_step3, insert_step4,
    insert_step5]

theorem c3tree_eval : c3tree = some c3lit := by
  rw [c3tree, s1tree_eval]
  simp only [Option.some_bind, delete_step1]
  rfl

theorem c5tree_eval : c5tree = some c5lit := by
  rw [c5tree, c3tree_eval]
  simp only [Option.some_bind, delete_step2]
  rfl

/-! ## Claims settled on concrete scenarios -/

/-- A tree holding the same object twice, inserted twice. -/
def dupTree : Option Rtree := insertList (NewTree 2 4) [sp 7 1 1, sp 7 1 1]

/-- `dupTree` spelt out: one leaf with two entries for the same object. -/
def dup2lit : Rtree := ⟨2, 4, .mk true 1 [leafE (sp 7 1 1), leafE (sp 7 1 1)], 2, 1⟩

theorem dup_step1 : (NewTree 2 4).Insert (sp 7 1 1) =
    some ⟨2, 4, .mk true 1 [leafE (sp 7 1 1)], 1, 1⟩ := rfl

theorem dup_step2 :
    (Rtree.Insert ⟨2, 4, .mk true 1 [leafE (sp 7 1 1)], 1, 1⟩ (sp 7 1 1)) =
      some dup2lit := rfl

theorem dupTree_eval : dupTree = some dup2lit := by
  simp only [dupTree, insertList, List.foldl_cons, List.foldl_nil,
    Option.some_bind, dup_step1, dup_step2]

/-- C1 (counterexample): after inserting the same object twice into
`NewTree(2,4)`, `SearchIntersect` of a rectangle covering everything
returns that object twice, so the result is not a set in which each
intersecting stored object appears exactly once. -/
theorem C1_search_duplicate_counterexample :
    dupTree.bind (fun t => t.SearchIntersect (NewRect ⟨-100, -100⟩ ⟨100, 100⟩)) =
      some [some (sp 7 1 1), some (sp 7 1 1)] ∧
    ¬ ([some (sp 7 1 1), some (sp 7 1 1)] : List (Option Spatial)).Nodup := by
  rw [dupTree_eval]
  exact ⟨rfl, by decide⟩

/-- C3 (counterexample): from `NewTree(2,4)` (parameters satisfying
`2 ≤ min_branch ≤ ⌈max_branch/2⌉`), after the five S1 insertions and one
deletion, some non-root node holds fewer than `min_branch` entries: the
orphaned one-entry leaf is reinserted whole as a child of the root. -/
theorem C3_underfull_counterexample :
    c3tree.map (fun t => entriesCountGE t.minBranch t.root.entries) = some false := by
  rw [c3tree_eval]
  exact congrArg some (by rfl)

/-- C3 (amended): from `NewTree(min_branch, max_branch)` with
`2 ≤ min_branch ≤ ⌈max_branch/2⌉` (stated as `2·min_branch ≤
max_branch + 1`), every tree reachable by `Insert` and `Delete` keeps
`len(entries) ≤ max_branch` at every node, root included; and every tree
reachable by `Insert` alone also keeps `min_branch ≤ len(entries)` at
every non-root node.  The lower bound does not survive deletions: the
condense pass reinserts an orphaned underfull node whole. -/
theorem C3_branch_bounds {minB maxB : ℕ} (hm2 : 2 ≤ minB)
    (hmb : 2 * minB ≤ maxB + 1) {t : Rtree} :
    (Reachable minB maxB t → nodeCountLE maxB t.root = true) ∧
    (ReachableI minB maxB t → entriesCountGE minB t.root.entries = true) :=
  ⟨fun h => (reachable_inv hm2 hmb h).2.2.2.2,
   fun h => reachableI_ge hm2 hmb h⟩

/-- The amended C3 bound at concrete reachable trees: the post-deletion
tree `c3lit` (reachable by five inserts and one delete from
`NewTree 2 4`) keeps the `max_branch` ceiling, and the insert-only tree
`t5lit` keeps the `min_branch` floor below the root. -/
theorem C3_branch_bounds_witness :
    nodeCountLE 4 c3lit.root = true ∧
      entriesCountGE 2 t5lit.root.entries = true := by
  have h5 : ReachableI 2 4 t5lit :=
    .ins (.ins (.ins (.ins (.ins .base insert_step1) insert_step2)
      insert_step3) insert_step4) insert_step5
  have hc3 : Reachable 2 4 c3lit :=
    .del (reachableI_reachable h5) delete_step1
  exact ⟨(C3_branch_bounds (by decide) (by decide)).1 hc3,
    (C3_branch_bounds (by decide) (by decide)).2 h5⟩

/-- C4 (code bug): `containsRect` answers `true` for `outer =
rect((0,0),(1,1))`, `inner = rect((0,0),(2,1))` although the claimed
characterisation requires `outer.xmax ≥ inner.xmax`, which fails here; the
source compares `r1.topRight.X` with itself in the second guard. -/
theorem C4_containsRect_divergence :
    Rect.containsRect (NewRect ⟨0, 0⟩ ⟨1, 1⟩) (NewRect ⟨0, 0⟩ ⟨2, 1⟩) = true ∧
      (NewRect ⟨0, 0⟩ ⟨1, 1⟩).trX < (NewRect ⟨0, 0⟩ ⟨2, 1⟩).trX := by
  decide

/-- C5 (code bug): deleting `(0,0)` then `(2,8)` from the S1 tree triggers
the single-child root promotion — the root becomes the promoted leaf at
level 1 — but `Height` keeps the value 2 instead of being decremented to 1
as the specification states; the second conjunct records the pre-state of
the triggering delete, an internal two-entry root at height 2. -/
theorem C5_promotion_divergence :
    c5tree.map (fun t => (t.root.isLeaf, t.root.lvl, t.height, t.size)) =
      some (true, 1, 2, 3) ∧
    c3tree.map (fun t => (t.root.isLeaf, t.root.entries.length, t.height)) =
      some (false, 2, 2) := by
  rw [c5tree_eval, c3tree_eval]
  exact ⟨rfl, rfl⟩

/-- Entry list exhibiting the `pickSeeds` sentinel defect: every pairing
wastes at least one unit of area (all wastes are below `-1.0`). -/
def c6es : List REntry :=
  [.mk (NewRect ⟨0, 0⟩ ⟨10, 10⟩) none (some (sp 1 5 5)),
   .mk (NewRect ⟨0, 0⟩ ⟨10, 10⟩) none (some (sp 2 5 5)),
   .mk (NewRect ⟨0, 0⟩ ⟨2, 2⟩) none (some (sp 3 1 1)),
   .mk (NewRect ⟨0, 0⟩ ⟨2, 2⟩) none (some (sp 4 1 1))]

/-- C6 (counterexample): on a node of `max_branch + 1 = 4` entries whose
pairwise wastes are all at most `-4`, `pickSeeds` keeps its initial answer
`(0, 1)` — waste `-100` — although the canonical-first maximiser is
`(0, 2)` with waste `-4`: the running maximum starts at `-1.0`, so no pair
is ever selected. -/
theorem C6_pickSeeds_counterexample :
    c6es.length = 3 + 1 ∧ pickSeeds c6es = (0, 1) ∧
      wasteOf c6es 0 1 < wasteOf c6es 0 2 := by
  refine ⟨rfl, rfl, ?_⟩
  decide


/-- C6 (amended): whenever some pair of the entry list has waste strictly
greater than the `-1.0` sentinel, `pickSeeds` returns the pair maximising
waste over the canonical `(i < j)` enumeration, ties broken by the pair
encountered first: the chosen pair splits the enumeration so that all
earlier pairs waste strictly less and later pairs waste no more. -/
theorem C6_pickSeeds_amended (es : List REntry)
    (hmax : ∃ p ∈ allPairs es.length, -1 < wasteOf es p.1 p.2) :
    ∃ pre post,
      allPairs es.length = pre ++ ((pickSeeds es).1, (pickSeeds es).2) :: post ∧
      (∀ q ∈ pre,
        wasteOf es q.1 q.2 < wasteOf es (pickSeeds es).1 (pickSeeds es).2) ∧
      (∀ q ∈ allPairs es.length,
        wasteOf es q.1 q.2 ≤ wasteOf es (pickSeeds es).1 (pickSeeds es).2) := by
  obtain ⟨p0, hp0mem, hp0⟩ := hmax
  rcases seedFold_spec es (allPairs es.length) (0, 1, -1) with ⟨heq, hle⟩ |
    ⟨pre, p, post, hsplit, hres, hacc, hpre, hpost⟩
  · have := hle p0 hp0mem
    simp only at this
    exact absurd this (not_le.2 hp0)
  · have hps1 : (pickSeeds es).1 = p.1 := by
      unfold pickSeeds
      rw [hres]
    have hps2 : (pickSeeds es).2 = p.2 := by
      unfold pickSeeds
      rw [hres]
    rw [hps1, hps2]
    refine ⟨pre, post, by simpa using hsplit, hpre, ?_⟩
    intro q hq
    rw [hsplit] at hq
    rcases List.mem_append.1 hq with hq | hq
    · exact le_of_lt (hpre q hq)
    · rcases List.mem_cons.1 hq with rfl | hq
      · exact le_rfl
      · exact hpost q hq

/-- Two far-apart point entries, a witness list for `C6_pickSeeds_amended`:
their pairing wastes far more than `-1`. -/
def c6wes : List REntry := [leafE (sp 1 0 0), leafE (sp 2 10 10)]

theorem C6_pickSeeds_amended_witness :
    ∃ pre post,
      allPairs c6wes.length = pre ++ ((pickSeeds c6wes).1, (pickSeeds c6wes).2) :: post ∧
      (∀ q ∈ pre,
        wasteOf c6wes q.1 q.2 < wasteOf c6wes (pickSeeds c6wes).1 (pickSeeds c6wes).2) ∧
      (∀ q ∈ allPairs c6wes.length,
        wasteOf c6wes q.1 q.2 ≤ wasteOf c6wes (pickSeeds c6wes).1 (pickSeeds c6wes).2) :=
  C6_pickSeeds_amended c6wes ⟨(0, 1), by decide, by decide⟩

/-- C7 (counterexample): the rectangle produced by inflating the point
`(0,0)` caches `size = ε²` although its corner area is `(2ε)² = 4ε²`. -/
theorem C7_toRect_size_counterexample :
    ((⟨0, 0⟩ : RTreePoint).toRect).size ≠ ((⟨0, 0⟩ : RTreePoint).toRect).cornerArea := by
  decide

/-- C7 (amended): `NewRect`, `enlarge` and `boundingBox` cache exactly the
corner area `(xmax−xmin)·(ymax−ymin)`; point inflation caches `ε²`, a
quarter of its rectangle's corner area `4ε²`. -/
theorem C7_cached_area :
    (∀ u v : RTreePoint, (NewRect u v).size = (NewRect u v).cornerArea) ∧
    (∀ r1 r2 : Rect, (r1.enlarge r2).size = (r1.enlarge r2).cornerArea) ∧
    (∀ r1 r2 : Rect, (boundingBox r1 r2).size = (boundingBox r1 r2).cornerArea) ∧
    (∀ p : RTreePoint,
      p.toRect.size = eps * eps ∧ p.toRect.cornerArea = 4 * (eps * eps)) := by
  refine ⟨fun u v => ?_, fun r1 r2 => ?_, fun r1 r2 => ?_, fun p => ⟨rfl, ?_⟩⟩
  · simp only [NewRect, Rect.cornerArea]
    ring
  · simp only [Rect.enlarge, Rect.cornerArea]
    ring
  · simp only [boundingBox, Rect.enlarge, Rect.cornerArea]
    ring
  · simp only [RTreePoint.toRect, Rect.cornerArea]
    ring

/-- C8 (counterexample): inserting the five S1 points into `NewTree(2,4)`
does not leave `Height == 1`; the fifth insertion overflows the four-entry
root leaf and splits it. -/
theorem C8_scenario_counterexample :
    ¬ s1tree.map (fun t => (t.size, t.height)) = some (5, 1) := by
  rw [s1tree_eval]
  decide

/-- C8 (amended): the S1 insertions leave `Size == 5` and `Height == 2`. -/
theorem C8_scenario_amended :
    s1tree.map (fun t => (t.size, t.height)) = some (5, 2) := by
  rw [s1tree_eval]
  rfl

end GoDS